import Mathlib

/-!
Shallow embedding of the MojiDoodle algorithmic segmenter
(`mojidoodle-algo-segmenter`), translated from the TypeScript sources:
`segmenter.ts`, `internal/pipeline.ts`, `internal/stroke-bounds.ts`,
`internal/lasso-containment.ts`, `internal/convex-hull.ts`,
`internal/column-detection.ts`, `internal/row-detection.ts`,
`internal/protected-groups.ts`, `internal/uniformity.ts`,
`internal/cell-grid.ts`, `internal/output-builder.ts`,
`internal/svg-generator.ts`.

Coordinates are embedded as rationals (`ℚ`): the algorithm only uses
field operations and comparisons, which the TypeScript code performs on
IEEE doubles but which are exact on every input considered here.
JavaScript `Infinity` appears in the sources only inside the guarded
max/min ratio (modelled by `ExtQ`) and as the initial accumulator of
bounding-box folds (modelled by folding over a nonempty list directly).
-/

namespace MojiSeg

/-- A stroke sample point `{x, y, t}` (`types.ts`).  `t` is carried but never read. -/
structure Point where
  x : ℚ
  y : ℚ
  t : ℚ
deriving DecidableEq

/-- A bare 2-D point `{x, y}` (lasso vertices and hull vertices). -/
structure XY where
  x : ℚ
  y : ℚ
deriving DecidableEq

/-- Per-stroke bounding box (`internal/types.ts`). -/
structure StrokeBounds where
  strokeIndex : ℕ
  minX : ℚ
  maxX : ℚ
  minY : ℚ
  maxY : ℚ
  centerX : ℚ
  centerY : ℚ
deriving DecidableEq

/-- A divider line (`internal/types.ts`).  The TypeScript field `end` is a Lean
keyword and is embedded as `stop`. -/
structure DividerLine where
  slope : ℚ
  intercept : ℚ
  start : ℚ
  stop : ℚ
deriving DecidableEq

/-- Axis-aligned box used for grid-cell and content bounds. -/
structure Box where
  minX : ℚ
  maxX : ℚ
  minY : ℚ
  maxY : ℚ
deriving DecidableEq

/-- A cell of the segmentation grid (`internal/types.ts`). -/
structure GridCell where
  column : ℕ
  row : ℕ
  strokeIndices : List ℕ
  bounds : Box
deriving DecidableEq

/-- A protected group together with its convex hull (`internal/types.ts`). -/
structure ProtectedBound where
  strokeIndices : List ℕ
  hull : List XY
deriving DecidableEq

/-- Resolved configuration (`internal/types.ts`). -/
structure ResolvedConfig where
  minColumnGapRatio : ℚ
  minRowGapRatio : ℚ
  charSizeMultiplier : ℚ
  minCharSizeRatio : ℚ
  maxCharSizeRatio : ℚ
  maxSizeRatio : ℚ
  lassoContainmentThreshold : ℚ
deriving DecidableEq

/-- Default configuration (`segmenter.ts`). -/
def DEFAULT_CONFIG : ResolvedConfig :=
  { minColumnGapRatio := 1/4
    minRowGapRatio := 1/4
    charSizeMultiplier := 2
    minCharSizeRatio := 2/25
    maxCharSizeRatio := 2/5
    maxSizeRatio := 2
    lassoContainmentThreshold := 1/2 }

/-- Character-slot bounds, with derived width/height (`types.ts`). -/
structure SlotBounds where
  minX : ℚ
  maxX : ℚ
  minY : ℚ
  maxY : ℚ
  width : ℚ
  height : ℚ
deriving DecidableEq

/-- One character position in reading order (`types.ts`). -/
structure CharacterSlot where
  index : ℕ
  strokes : List (List Point)
  bounds : SlotBounds
deriving DecidableEq

/-- Input stroke with its character assignment; `-1` when unassigned (`types.ts`). -/
structure AnnotatedStroke where
  index : ℕ
  points : List Point
  characterIndex : ℤ
deriving DecidableEq

/-- Input lasso with its resolved stroke membership (`types.ts`). -/
structure AnnotatedLasso where
  index : ℕ
  points : List XY
  strokeIndices : List ℕ
deriving DecidableEq

/-- The value object passed to `segment()` (`types.ts`).  `LassoInput` wraps a
bare point list, embedded directly as the list. -/
structure SegmentInput where
  strokes : List (List Point)
  lassos : List (List XY)
  canvasWidth : ℚ
  canvasHeight : ℚ
  maxCharacters : ℕ
deriving DecidableEq

/-! ### Numeric helpers

`Math.min(...xs)` / `Math.max(...xs)` over nonempty arrays, a first-index-of
scan, and the extended rationals used to model the `Infinity` that
`calculateRatio` produces for a zero-size minimum. -/

/-- `Math.min(...)` over a list; `0` for `[]` (the sources never take a min of
an empty array on any path modelled here). -/
def minQ : List ℚ → ℚ
  | [] => 0
  | [a] => a
  | a :: rest => min a (minQ rest)

/-- `Math.max(...)` over a list; `0` for `[]`. -/
def maxQ : List ℚ → ℚ
  | [] => 0
  | [a] => a
  | a :: rest => max a (maxQ rest)

/-- First index of `q` in `l` (`Array.prototype.indexOf`); `0` if absent. -/
def idxOfQ (q : ℚ) : List ℚ → ℕ
  | [] => 0
  | a :: rest => if a = q then 0 else idxOfQ q rest + 1

/-- Rationals extended with `+∞`, for `calculateRatio`. -/
inductive ExtQ where
  | fin (q : ℚ)
  | inf
deriving DecidableEq

/-- Strict order on `ExtQ` (`<` against `Infinity`). -/
def ExtQ.ltE : ExtQ → ExtQ → Bool
  | .fin a, .fin b => a < b
  | .fin _, .inf => true
  | .inf, _ => false

/-- Non-strict order on `ExtQ` (`<=` against `Infinity`). -/
def ExtQ.leE : ExtQ → ExtQ → Bool
  | .fin a, .fin b => a ≤ b
  | .inf, .fin _ => false
  | _, .inf => true

/-! ### Stable sorting

`Array.prototype.sort` with a numeric comparator is stable (ES2019); it is
embedded as a stable insertion sort parameterised by the strict
"comes before" relation of the comparator. -/

/-- Insert `x` into `l`, placing it before the first element it strictly
precedes; equal elements keep their original relative order. -/
def insBefore (lt : α → α → Bool) (x : α) : List α → List α
  | [] => [x]
  | y :: ys => if lt x y then x :: y :: ys else y :: insBefore lt x ys

/-- Stable sort by the strict comparator `lt`. -/
def sortWith (lt : α → α → Bool) : List α → List α
  | [] => []
  | x :: xs => insBefore lt x (sortWith lt xs)

/-! ### Stroke bounds and character-size estimate (`stroke-bounds.ts`) -/

/-- `calculateStrokeBounds(stroke, index)`: one-pass bounding box; empty
strokes yield the all-zero box. -/
def calculateStrokeBounds (stroke : List Point) (index : ℕ) : StrokeBounds :=
  match stroke with
  | [] =>
      { strokeIndex := index, minX := 0, maxX := 0, minY := 0, maxY := 0
        centerX := 0, centerY := 0 }
  | _ =>
      let mnX := minQ (stroke.map Point.x)
      let mxX := maxQ (stroke.map Point.x)
      let mnY := minQ (stroke.map Point.y)
      let mxY := maxQ (stroke.map Point.y)
      { strokeIndex := index, minX := mnX, maxX := mxX, minY := mnY, maxY := mxY
        centerX := (mnX + mxX) / 2, centerY := (mnY + mxY) / 2 }

/-- The axis selector passed to `estimateCharSize`. -/
inductive Dimension where
  | width
  | height
deriving DecidableEq

/-- `estimateCharSize(strokeBounds, canvasDimension, dimension, config)`. -/
def estimateCharSize (strokeBounds : List StrokeBounds) (canvasDimension : ℚ)
    (dimension : Dimension) (config : ResolvedConfig) : ℚ :=
  if strokeBounds = [] then
    canvasDimension * (15/100)
  else
    let sizes := (strokeBounds.map (fun s =>
      match dimension with
      | .width => s.maxX - s.minX
      | .height => s.maxY - s.minY)).filter (fun size => 5 < size)
    if sizes = [] then
      canvasDimension * (15/100)
    else
      let sorted := sortWith (fun a b : ℚ => a < b) sizes
      let medianSize := sorted.getD (sorted.length / 2) 0
      let estimated := medianSize * config.charSizeMultiplier
      let minSize := canvasDimension * config.minCharSizeRatio
      let maxSize := canvasDimension * config.maxCharSizeRatio
      max minSize (min maxSize estimated)

/-! ### Lasso containment (`lasso-containment.ts`) -/

/-- One edge crossing test of the ray cast: the loop body of
`isPointInPolygon` for vertex `i` (coordinates `xi, yi`) and the previous
vertex `j` (coordinates `xj, yj`). -/
def edgeCrosses (p : XY) (pi pj : XY) : Bool :=
  (decide (pi.y > p.y) != decide (pj.y > p.y)) &&
    decide (p.x < (pj.x - pi.x) * (p.y - pi.y) / (pj.y - pi.y) + pi.x)

/-- The vertex/previous-vertex pairs the `for (i, j = n-1; ...)` loop visits. -/
def polygonEdges (polygon : List XY) : List (XY × XY) :=
  match polygon with
  | [] => []
  | v0 :: _ =>
      (List.range polygon.length).map (fun i =>
        (polygon.getD i v0, polygon.getD ((i + polygon.length - 1) % polygon.length) v0))

/-- `isPointInPolygon(point, polygon)`: even–odd ray casting along `+x`. -/
def isPointInPolygon (point : XY) (polygon : List XY) : Bool :=
  if polygon.length < 3 then false
  else (polygonEdges polygon).foldl
    (fun inside e => if edgeCrosses point e.1 e.2 then !inside else inside) false

/-- Number of points of `stroke` classified inside `polygon`. -/
def countInside (stroke : List Point) (polygon : List XY) : ℕ :=
  (stroke.filter (fun p => isPointInPolygon ⟨p.x, p.y⟩ polygon)).length

/-- `findStrokesInLasso(strokes, polygon, threshold)`: indices of non-empty
strokes whose inside fraction reaches the threshold. -/
def findStrokesInLasso (strokes : List (List Point)) (polygon : List XY)
    (threshold : ℚ) : List ℕ :=
  (List.range strokes.length).filter (fun i =>
    let stroke := strokes.getD i []
    !decide (stroke = []) && decide (threshold ≤ (countInside stroke polygon : ℚ) / stroke.length))

/-! ### Convex hull (`convex-hull.ts`, Andrew's monotone chain) -/

/-- The cross product `(a - o) × (b - o)` used by the chain test. -/
def cross (o a b : XY) : ℚ :=
  (a.x - o.x) * (b.y - o.y) - (a.y - o.y) * (b.x - o.x)

/-- The comparator `(a, b) => a.x - b.x || a.y - b.y` as a strict order. -/
def lexLtXY (a b : XY) : Bool :=
  decide (a.x < b.x) || (decide (a.x = b.x) && decide (a.y < b.y))

/-- Walk the tail of the sorted array, keeping each element different from
its predecessor in the array (`sorted[i] ≠ sorted[i-1]`). -/
def dedupAdjAux (prev : XY) : List XY → List XY
  | [] => []
  | b :: rest => if b = prev then dedupAdjAux b rest else b :: dedupAdjAux b rest

/-- Drop consecutive duplicate points (the sorted array is deduplicated by
comparing each element with its predecessor). -/
def dedupAdj : List XY → List XY
  | [] => []
  | a :: rest => a :: dedupAdjAux a rest

/-- Pop loop of the chain push: the chain below the top point `b` is walked
while the last two chain points and `p` fail the strict-left-turn test
(`cross <= 0`). -/
def chainPushAux (p b : XY) : List XY → List XY
  | [] => [p, b]
  | a :: rest => if cross a b p ≤ 0 then chainPushAux p a rest else p :: b :: a :: rest

/-- Push `p` onto a chain (stored in reverse, head = most recent), popping
while the strict-left-turn test fails. -/
def chainPush (p : XY) : List XY → List XY
  | [] => [p]
  | b :: tail => chainPushAux p b tail

/-- Run the chain loop over all points; result is the chain in reverse. -/
def buildChainRev (pts : List XY) : List XY :=
  pts.foldl (fun ch p => chainPush p ch) []

/-- `convexHull(points)`: monotone chain; ≤ 2 distinct points are returned
as-is (sorted, deduplicated); otherwise lower ++ upper chains, each with its
final point dropped. -/
def convexHull (points : List XY) : List XY :=
  if points.length ≤ 1 then points
  else
    let sorted := sortWith lexLtXY points
    let unique := dedupAdj sorted
    if unique.length ≤ 2 then unique
    else
      let lower := (buildChainRev unique).tail.reverse
      let upper := (buildChainRev unique.reverse).tail.reverse
      lower ++ upper

/-! ### Protected-group predicates (`protected-groups.ts`) -/

/-- The `'x' | 'y'` dimension marker. -/
inductive Axis where
  | x
  | y
deriving DecidableEq

/-- Coordinate of an `XY` on an axis. -/
def XY.onAxis (p : XY) : Axis → ℚ
  | .x => p.x
  | .y => p.y

/-- `wouldSplitProtectedBound(dividerPosition, dimension, protectedBounds)`:
true when the position falls strictly inside some hull's extent on the axis
(hulls with < 3 points are skipped). -/
def wouldSplitProtectedBound (dividerPosition : ℚ) (dimension : Axis)
    (protectedBounds : List ProtectedBound) : Bool :=
  protectedBounds.any (fun bound =>
    if bound.hull.length < 3 then false
    else
      let values := bound.hull.map (fun p => p.onAxis dimension)
      decide (minQ values < dividerPosition) && decide (dividerPosition < maxQ values))

instance : Inhabited StrokeBounds :=
  ⟨{ strokeIndex := 0, minX := 0, maxX := 0, minY := 0, maxY := 0, centerX := 0, centerY := 0 }⟩

/-- `wouldSplitProtectedGroup(dividerPosition, dimension, strokeBounds, groups)`
(the variant used by `uniformity.ts` and `row-detection.ts`): true when the
position falls strictly between the stroke centers of a group with ≥ 2
in-range strokes. -/
def wouldSplitProtectedGroup (dividerPosition : ℚ) (dimension : Axis)
    (strokeBounds : List StrokeBounds) (protectedGroups : List ProtectedBound) : Bool :=
  protectedGroups.any (fun group =>
    if group.strokeIndices.length < 2 then false
    else
      let groupStrokes := ((group.strokeIndices.filter (fun i =>
        decide (i < strokeBounds.length))).map (fun i =>
          strokeBounds.getD i default))
      if groupStrokes.length < 2 then false
      else
        let positions := groupStrokes.map (fun s =>
          match dimension with
          | .x => s.centerX
          | .y => s.centerY)
        decide (minQ positions < dividerPosition) &&
          decide (dividerPosition < maxQ positions))

/-! ### Column detection (`column-detection.ts`) -/

/-- A detected gap between consecutive (by center) strokes. -/
structure Gap where
  gapStart : ℚ
  gapEnd : ℚ
  gapSize : ℚ
deriving DecidableEq

/-- Qualifying gaps between consecutive elements of an already-sorted list,
given per-element start (`maxX`/`maxY`) and end (`minX`/`minY`) selectors. -/
def collectGaps (sorted : List StrokeBounds) (getStart getEnd : StrokeBounds → ℚ)
    (minGap : ℚ) : List Gap :=
  match sorted with
  | [] => []
  | _ :: tail =>
      ((sorted.zip tail).filterMap (fun (current, next) =>
        let gapStart := getStart current
        let gapEnd := getEnd next
        let gapSize := gapEnd - gapStart
        if minGap ≤ gapSize then some ⟨gapStart, gapEnd, gapSize⟩ else none))

/-- `findColumnDividers(strokeBounds, charWidth, config, protectedBounds)`. -/
def findColumnDividers (strokeBounds : List StrokeBounds) (charWidth : ℚ)
    (config : ResolvedConfig) (protectedBounds : List ProtectedBound) : List DividerLine :=
  if strokeBounds.length < 2 then []
  else
    let overallMinY := minQ (strokeBounds.map StrokeBounds.minY)
    let overallMaxY := maxQ (strokeBounds.map StrokeBounds.maxY)
    let sortedByX := sortWith (fun a b => decide (a.centerX < b.centerX)) strokeBounds
    let gaps := collectGaps sortedByX StrokeBounds.maxX StrokeBounds.minX
      (charWidth * config.minColumnGapRatio)
    (gaps.map (fun gap =>
      ({ slope := 0, intercept := (gap.gapStart + gap.gapEnd) / 2
         start := overallMinY - 10, stop := overallMaxY + 10 } : DividerLine))).filter
      (fun divider => ! wouldSplitProtectedBound divider.intercept .x protectedBounds)

/-- The physical column index computed by the inner loop of
`assignStrokesToColumns`: starts at 0 and becomes `i + 1` whenever
`centerX > dividerXs[i]`. -/
def physicalColumn (dividerXs : List ℚ) (centerX : ℚ) : ℕ :=
  (dividerXs.enum.foldl (fun colIdx (i, d) =>
    if d < centerX then i + 1 else colIdx) 0)

/-- `assignStrokesToColumns(strokeBounds, columnDividers)`: stroke indices per
Japanese column (`numColumns - 1 - physical`, rightmost column first). -/
def assignStrokesToColumns (strokeBounds : List StrokeBounds)
    (columnDividers : List DividerLine) : List (List ℕ) :=
  let numColumns := columnDividers.length + 1
  let dividerXs := sortWith (fun a b : ℚ => decide (a < b))
    (columnDividers.map DividerLine.intercept)
  (List.range numColumns).map (fun j =>
    ((strokeBounds.filter (fun s =>
      numColumns - 1 - physicalColumn dividerXs s.centerX = j)).map StrokeBounds.strokeIndex))

/-! ### Row detection (`row-detection.ts`) -/

/-- `getColumnXBounds(colIdx, columnDividers, numColumns, colStrokes)`. -/
def getColumnXBounds (colIdx : ℕ) (columnDividers : List DividerLine)
    (numColumns : ℕ) (colStrokes : List StrokeBounds) : ℚ × ℚ :=
  if columnDividers = [] ∨ colStrokes = [] then
    (minQ (colStrokes.map StrokeBounds.minX), maxQ (colStrokes.map StrokeBounds.maxX))
  else
    let dividerXs := sortWith (fun a b : ℚ => decide (a < b))
      (columnDividers.map DividerLine.intercept)
    let physicalColIdx := numColumns - 1 - colIdx
    let strokeMinX := minQ (colStrokes.map StrokeBounds.minX)
    let strokeMaxX := maxQ (colStrokes.map StrokeBounds.maxX)
    let leftBound := if 0 < physicalColIdx then dividerXs.getD (physicalColIdx - 1) 0 else strokeMinX
    let rightBound := if physicalColIdx < dividerXs.length then dividerXs.getD physicalColIdx 0 else strokeMaxX
    (leftBound, rightBound)

/-- `findRowDividers(colStrokes, charHeight, colBounds, allStrokeBounds, config,
protectedGroups)` (module-private in `row-detection.ts`). -/
def findRowDividers (colStrokes : List StrokeBounds) (charHeight : ℚ)
    (colBounds : ℚ × ℚ) (allStrokeBounds : List StrokeBounds)
    (config : ResolvedConfig) (protectedGroups : List ProtectedBound) : List DividerLine :=
  if colStrokes.length < 2 then []
  else
    let sortedByY := sortWith (fun a b => decide (a.centerY < b.centerY)) colStrokes
    let gaps := collectGaps sortedByY StrokeBounds.maxY StrokeBounds.minY
      (charHeight * config.minRowGapRatio)
    (gaps.map (fun gap =>
      ({ slope := 0, intercept := (gap.gapStart + gap.gapEnd) / 2
         start := colBounds.1 - 10, stop := colBounds.2 + 10 } : DividerLine))).filter
      (fun divider =>
        ! wouldSplitProtectedGroup divider.intercept .y allStrokeBounds protectedGroups)

/-- `findAllRowDividers(strokesByColumn, strokeBounds, columnDividers,
charHeight, config, protectedGroups)`. -/
def findAllRowDividers (strokesByColumn : List (List ℕ))
    (strokeBounds : List StrokeBounds) (columnDividers : List DividerLine)
    (charHeight : ℚ) (config : ResolvedConfig)
    (protectedGroups : List ProtectedBound) : List (List DividerLine) :=
  strokesByColumn.enum.map (fun (colIdx, colStrokeIndices) =>
    if colStrokeIndices.length < 2 then []
    else
      let colStrokes := colStrokeIndices.map (fun i => strokeBounds.getD i default)
      let colBounds := getColumnXBounds colIdx columnDividers strokesByColumn.length colStrokes
      findRowDividers colStrokes charHeight colBounds strokeBounds config protectedGroups)

/-! ### Inter-lasso dividers (`protected-groups.ts`) -/

/-- Ordering of dividers by intercept (`(a, b) => a.intercept - b.intercept`). -/
def dividerLt (a b : DividerLine) : Bool :=
  decide (a.intercept < b.intercept)

/-- A protected bound's box on the primary/perpendicular axes. -/
structure LassoBox where
  idx : ℕ
  min : ℚ
  max : ℚ
  perpMin : ℚ
  perpMax : ℚ
deriving DecidableEq

/-- `addInterLassoDividers(dividers, strokeBounds, protectedBounds, dimension)`:
forces a divider between adjacent protected hulls that sit side-by-side. -/
def addInterLassoDividers (dividers : List DividerLine)
    (strokeBounds : List StrokeBounds) (protectedBounds : List ProtectedBound)
    (dimension : Axis) : List DividerLine :=
  if protectedBounds.length < 2 then dividers
  else
    let lassoBounds := protectedBounds.enum.filterMap (fun (i, bound) =>
      if bound.hull.length < 3 then none
      else
        let vals := bound.hull.map (fun p => p.onAxis dimension)
        let perpVals := bound.hull.map (fun p =>
          match dimension with
          | .x => p.y
          | .y => p.x)
        some ({ idx := i, min := minQ vals, max := maxQ vals
                perpMin := minQ perpVals, perpMax := maxQ perpVals } : LassoBox))
    if lassoBounds.length < 2 then dividers
    else
      let sortedBounds := sortWith (fun a b : LassoBox => decide (a.min < b.min)) lassoBounds
      let perpExtentMin :=
        match dimension with
        | .x => minQ (strokeBounds.map StrokeBounds.minY)
        | .y => minQ (strokeBounds.map StrokeBounds.minX)
      let perpExtentMax :=
        match dimension with
        | .x => maxQ (strokeBounds.map StrokeBounds.maxY)
        | .y => maxQ (strokeBounds.map StrokeBounds.maxX)
      let pairs := sortedBounds.zip sortedBounds.tail
      let final := pairs.foldl (fun (acc : List DividerLine × List ℚ) (pair : LassoBox × LassoBox) =>
        let current := pair.1
        let next := pair.2
        let overlap := current.max - next.min
        let smallerSize := min (current.max - current.min) (next.max - next.min)
        let perpOverlap := min current.perpMax next.perpMax - max current.perpMin next.perpMin
        let smallerPerpSize := min (current.perpMax - current.perpMin) (next.perpMax - next.perpMin)
        let areSideBySide := decide (0 < smallerPerpSize) && decide (smallerPerpSize * (3/10) < perpOverlap)
        if decide (0 < smallerSize) && decide (smallerSize * (1/2) < overlap) && !areSideBySide then acc
        else
          let boundary := (current.max + next.min) / 2
          if acc.2.any (fun pos => decide (|pos - boundary| < 10)) then acc
          else
            (acc.1 ++ [{ slope := 0, intercept := boundary
                         start := perpExtentMin - 10, stop := perpExtentMax + 10 }],
             acc.2 ++ [boundary]))
        (dividers, dividers.map DividerLine.intercept)
      sortWith dividerLt final.1

/-- `addInterLassoRowDividers(rowDividers, strokesByColumn, strokeBounds,
columnDividers, protectedBounds, getColumnXBounds)` (the per-column variant). -/
def addInterLassoRowDividers (rowDividers : List (List DividerLine))
    (strokesByColumn : List (List ℕ)) (strokeBounds : List StrokeBounds)
    (columnDividers : List DividerLine) (protectedBounds : List ProtectedBound) :
    List (List DividerLine) :=
  if protectedBounds.length < 2 then rowDividers
  else
    rowDividers.enum.map (fun (colIdx, colRowDividers) =>
      let colStrokeIndices := strokesByColumn.getD colIdx []
      if colStrokeIndices.length < 2 then colRowDividers
      else
        let colStrokes := colStrokeIndices.map (fun i => strokeBounds.getD i default)
        let colBounds := getColumnXBounds colIdx columnDividers strokesByColumn.length colStrokes
        let lassoBounds := protectedBounds.enum.filterMap (fun (i, bound) =>
          let lassoStrokesInCol := bound.strokeIndices.filter (fun idx => colStrokeIndices.contains idx)
          if lassoStrokesInCol = [] then none
          else
            let lassoStrokes := lassoStrokesInCol.map (fun idx => strokeBounds.getD idx default)
            some ({ idx := i, min := minQ (lassoStrokes.map StrokeBounds.minY)
                    max := maxQ (lassoStrokes.map StrokeBounds.maxY)
                    perpMin := 0, perpMax := 0 } : LassoBox))
        if lassoBounds.length < 2 then colRowDividers
        else
          let sortedBounds := sortWith (fun a b : LassoBox => decide (a.min < b.min)) lassoBounds
          let pairs := sortedBounds.zip sortedBounds.tail
          let final := pairs.foldl (fun (acc : List DividerLine × List ℚ) (pair : LassoBox × LassoBox) =>
            let current := pair.1
            let next := pair.2
            let overlap := current.max - next.min
            let smallerSize := min (current.max - current.min) (next.max - next.min)
            if decide (0 < smallerSize) && decide (smallerSize * (1/2) < overlap) then acc
            else
              let boundary := (current.max + next.min) / 2
              if acc.2.any (fun pos => decide (|pos - boundary| < 10)) then acc
              else
                (acc.1 ++ [{ slope := 0, intercept := boundary
                             start := colBounds.1 - 10, stop := colBounds.2 + 10 }],
                 acc.2 ++ [boundary]))
            (colRowDividers, colRowDividers.map DividerLine.intercept)
          sortWith dividerLt final.1)

/-! ### Uniformity enforcement (`uniformity.ts`) -/

/-- `calculateRatio(sizes)`: max/min, `Infinity` when the minimum is ≤ 0. -/
def calculateRatio (sizes : List ℚ) : ExtQ :=
  if sizes.length ≤ 1 then .fin 1
  else if 0 < minQ sizes then .fin (maxQ sizes / minQ sizes) else .inf

/-- Differences of consecutive elements (cell sizes between boundaries). -/
def consecDiffs (l : List ℚ) : List ℚ :=
  (l.zip l.tail).map (fun (a, b) => b - a)

/-- A repair chosen by one uniformity iteration. -/
inductive RepairAction where
  | split (x : ℚ)
  | merge (idx : ℕ)
deriving DecidableEq

/-- Run a fueled loop: apply `step` until it returns `none` or fuel runs out. -/
def fuelLoop (step : α → Option α) : ℕ → α → α
  | 0, s => s
  | n + 1, s =>
    match step s with
    | none => s
    | some s' => fuelLoop step n s'

/-- The widths list after bisecting the widest cell. -/
def splitWidths (widths : List ℚ) (widestIdx : ℕ) : List ℚ :=
  let w := widths.getD widestIdx 0
  widths.take widestIdx ++ [w / 2, w / 2] ++ widths.drop (widestIdx + 1)

/-- The widths list after merging cell `idx` with cell `idx + 1`. -/
def mergeWidths (widths : List ℚ) (idx : ℕ) : List ℚ :=
  widths.take idx ++ [widths.getD idx 0 + widths.getD (idx + 1) 0] ++ widths.drop (idx + 2)

/-- The repair selected by one iteration of the uniformity loop: split of the
widest cell (unless vetoed), then merge of the smallest cell with either
neighbour, each kept only when it strictly lowers the running best ratio. -/
def selectRepair (widths : List ℚ) (currentRatio : ExtQ) (candidateSplitX : ℚ)
    (splitVetoed : Bool) (haveDividers : Bool) : Option RepairAction :=
  let widestIdx := idxOfQ (maxQ widths) widths
  let afterSplit :=
    if splitVetoed then (none, currentRatio)
    else
      let r := calculateRatio (splitWidths widths widestIdx)
      if r.ltE currentRatio then (some (RepairAction.split candidateSplitX), r)
      else ((none : Option RepairAction), currentRatio)
  let afterMerges :=
    if haveDividers then
      let smallestIdx := idxOfQ (minQ widths) widths
      let afterLeft :=
        if 0 < smallestIdx then
          let r := calculateRatio (mergeWidths widths (smallestIdx - 1))
          if r.ltE afterSplit.2 then (some (RepairAction.merge (smallestIdx - 1)), r)
          else afterSplit
        else afterSplit
      if smallestIdx < widths.length - 1 then
        let r := calculateRatio (mergeWidths widths smallestIdx)
        if r.ltE afterLeft.2 then (some (RepairAction.merge smallestIdx), r)
        else afterLeft
      else afterLeft
    else afterSplit
  afterMerges.1

/-- One iteration of `enforceColumnUniformity`; `none` means the loop breaks. -/
def colUniformityStep (strokeBounds : List StrokeBounds) (contentBounds : Box)
    (protectedGroups : List ProtectedBound) (config : ResolvedConfig)
    (dividers : List DividerLine) : Option (List DividerLine) :=
  let dividerXs := sortWith (fun a b : ℚ => decide (a < b)) (dividers.map DividerLine.intercept)
  let boundaries := contentBounds.minX :: dividerXs ++ [contentBounds.maxX]
  let widths := consecDiffs boundaries
  if widths.length ≤ 1 then none
  else
    let currentRatio := calculateRatio widths
    if currentRatio.leE (.fin config.maxSizeRatio) then none
    else
      let widestIdx := idxOfQ (maxQ widths) widths
      let candidateSplitX := (boundaries.getD widestIdx 0 + boundaries.getD (widestIdx + 1) 0) / 2
      let vetoed := wouldSplitProtectedGroup candidateSplitX .x strokeBounds protectedGroups
      match selectRepair widths currentRatio candidateSplitX vetoed (!dividers.isEmpty) with
      | some (.split x) =>
          some (sortWith dividerLt (dividers ++
            [{ slope := 0, intercept := x
               start := contentBounds.minY - 10, stop := contentBounds.maxY + 10 }]))
      | some (.merge idx) =>
          if idx < dividers.length then some ((sortWith dividerLt dividers).eraseIdx idx)
          else none
      | none => none

/-- `enforceColumnUniformity(columnDividers, strokeBounds, contentBounds,
protectedGroups, config)`: the capped split/merge loop (`MAX_ITERATIONS = 10`). -/
def enforceColumnUniformity (columnDividers : List DividerLine)
    (strokeBounds : List StrokeBounds) (contentBounds : Box)
    (protectedGroups : List ProtectedBound) (config : ResolvedConfig) : List DividerLine :=
  if strokeBounds = [] then columnDividers
  else fuelLoop (colUniformityStep strokeBounds contentBounds protectedGroups config)
    10 columnDividers

/-- One iteration of the per-column loop of `enforceRowUniformity`. -/
def rowUniformityStep (strokeBounds : List StrokeBounds) (colMinY colMaxY : ℚ)
    (colBounds : ℚ × ℚ) (protectedGroups : List ProtectedBound)
    (config : ResolvedConfig) (dividers : List DividerLine) : Option (List DividerLine) :=
  let dividerYs := sortWith (fun a b : ℚ => decide (a < b)) (dividers.map DividerLine.intercept)
  let boundaries := colMinY :: dividerYs ++ [colMaxY]
  let heights := consecDiffs boundaries
  if heights.length ≤ 1 then none
  else
    let currentRatio := calculateRatio heights
    if currentRatio.leE (.fin config.maxSizeRatio) then none
    else
      let tallestIdx := idxOfQ (maxQ heights) heights
      let candidateSplitY := (boundaries.getD tallestIdx 0 + boundaries.getD (tallestIdx + 1) 0) / 2
      let vetoed := wouldSplitProtectedGroup candidateSplitY .y strokeBounds protectedGroups
      match selectRepair heights currentRatio candidateSplitY vetoed (!dividers.isEmpty) with
      | some (.split y) =>
          some (sortWith dividerLt (dividers ++
            [{ slope := 0, intercept := y
               start := colBounds.1 - 10, stop := colBounds.2 + 10 }]))
      | some (.merge idx) =>
          if idx < dividers.length then some ((sortWith dividerLt dividers).eraseIdx idx)
          else none
      | none => none

/-- `enforceRowUniformity(rowDividers, strokesByColumn, strokeBounds,
columnDividers, protectedGroups, config)`. -/
def enforceRowUniformity (rowDividers : List (List DividerLine))
    (strokesByColumn : List (List ℕ)) (strokeBounds : List StrokeBounds)
    (columnDividers : List DividerLine) (protectedGroups : List ProtectedBound)
    (config : ResolvedConfig) : List (List DividerLine) :=
  rowDividers.enum.map (fun (colIdx, colRowDividers) =>
    let colStrokeIndices := strokesByColumn.getD colIdx []
    if colStrokeIndices = [] then colRowDividers
    else
      let colStrokes := colStrokeIndices.map (fun i => strokeBounds.getD i default)
      let colMinY := minQ (colStrokes.map StrokeBounds.minY)
      let colMaxY := maxQ (colStrokes.map StrokeBounds.maxY)
      let colBounds := getColumnXBounds colIdx columnDividers strokesByColumn.length colStrokes
      fuelLoop (rowUniformityStep strokeBounds colMinY colMaxY colBounds protectedGroups config)
        10 colRowDividers)

/-- One iteration of `enforceColumnsNotExceedRows`; `none` means the loop breaks. -/
def balanceStep (strokeBounds : List StrokeBounds) (charHeight : ℚ)
    (contentBounds : Box) (protectedGroups : List ProtectedBound)
    (config : ResolvedConfig)
    (st : List DividerLine × List (List DividerLine)) :
    Option (List DividerLine × List (List DividerLine)) :=
  let dividers := st.1
  let rows := st.2
  let numColumns := dividers.length + 1
  let maxRows := (rows.map (fun r => r.length + 1)).foldl max 1
  if numColumns ≤ maxRows then none
  else if dividers = [] then none
  else
    let sortedDividers := sortWith dividerLt dividers
    let boundaries := contentBounds.minX ::
      sortedDividers.map DividerLine.intercept ++ [contentBounds.maxX]
    let chosen := (List.range sortedDividers.length).foldl
      (fun (acc : ℕ × ExtQ) i =>
        let leftWidth := boundaries.getD (i + 1) 0 - boundaries.getD i 0
        let rightWidth := boundaries.getD (i + 2) 0 - boundaries.getD (i + 1) 0
        let combinedWidth := leftWidth + rightWidth
        if ExtQ.ltE (.fin combinedWidth) acc.2 then (i, .fin combinedWidth) else acc)
      (0, .inf)
    let dividers' := sortedDividers.eraseIdx chosen.1
    let strokesByColumn := assignStrokesToColumns strokeBounds dividers'
    let rows' := enforceRowUniformity
      (findAllRowDividers strokesByColumn strokeBounds dividers' charHeight config protectedGroups)
      strokesByColumn strokeBounds dividers' protectedGroups config
    some (dividers', rows')

/-- `enforceColumnsNotExceedRows(columnDividers, rowDividers, strokeBounds,
charHeight, contentBounds, protectedGroups, config)`: capped at 10 iterations. -/
def enforceColumnsNotExceedRows (columnDividers : List DividerLine)
    (rowDividers : List (List DividerLine)) (strokeBounds : List StrokeBounds)
    (charHeight : ℚ) (contentBounds : Box) (protectedGroups : List ProtectedBound)
    (config : ResolvedConfig) : List DividerLine × List (List DividerLine) :=
  fuelLoop (balanceStep strokeBounds charHeight contentBounds protectedGroups config)
    10 (columnDividers, rowDividers)

/-! ### Cell grid (`cell-grid.ts`) -/

/-- `createCellGrid(strokesByColumn, strokeBounds, _columnDividers, rowDividers)`:
partition each column into row bands by sorted divider intercepts and keep the
non-empty cells. -/
def createCellGrid (strokesByColumn : List (List ℕ))
    (strokeBounds : List StrokeBounds) (_columnDividers : List DividerLine)
    (rowDividers : List (List DividerLine)) : List GridCell :=
  (strokesByColumn.enum.map (fun (colIdx, colStrokeIndices) =>
    let colRowDividers := rowDividers.getD colIdx []
    if colStrokeIndices = [] then []
    else
      let colStrokes := colStrokeIndices.map (fun i => strokeBounds.getD i default)
      let colMinY := minQ (colStrokes.map StrokeBounds.minY)
      let colMaxY := maxQ (colStrokes.map StrokeBounds.maxY)
      let rowYs := sortWith (fun a b : ℚ => decide (a < b))
        (colRowDividers.map DividerLine.intercept)
      let numRows := rowYs.length + 1
      (List.range numRows).filterMap (fun rowIdx =>
        let topY := if rowIdx = 0 then colMinY - 5 else rowYs.getD (rowIdx - 1) 0
        let bottomY := if rowIdx = numRows - 1 then colMaxY + 5 else rowYs.getD rowIdx 0
        let cellStrokeIndices := colStrokeIndices.filter (fun i =>
          let s := strokeBounds.getD i default
          decide (topY ≤ s.centerY) && decide (s.centerY ≤ bottomY))
        if cellStrokeIndices = [] then none
        else
          let cellStrokes := cellStrokeIndices.map (fun i => strokeBounds.getD i default)
          some ({ column := colIdx, row := rowIdx, strokeIndices := cellStrokeIndices
                  bounds := { minX := minQ (cellStrokes.map StrokeBounds.minX)
                              maxX := maxQ (cellStrokes.map StrokeBounds.maxX)
                              minY := minQ (cellStrokes.map StrokeBounds.minY)
                              maxY := maxQ (cellStrokes.map StrokeBounds.maxY) } } : GridCell)))).flatten

/-- The membership test of one row band: the stroke's center lies between
`topY` and `bottomY`, both ends inclusive. -/
def bandPred (sb : List StrokeBounds) (topY bottomY : ℚ) (i : ℕ) : Bool :=
  decide (topY ≤ (sb.getD i default).centerY)
    && decide ((sb.getD i default).centerY ≤ bottomY)

/-- One row band of `createCellGrid`: the cell at `(colIdx, rowIdx)` when the
band is non-empty (a definitionally equal regrouping of the cell builder,
tied to `createCellGrid` by `createCellGrid_eq`). -/
def bandCell (sb : List StrokeBounds) (colIdx rowIdx : ℕ) (cs : List ℕ)
    (topY bottomY : ℚ) : Option GridCell :=
  if cs.filter (bandPred sb topY bottomY) = [] then none
  else
    some { column := colIdx, row := rowIdx
           strokeIndices := cs.filter (bandPred sb topY bottomY)
           bounds := { minX := minQ (((cs.filter (bandPred sb topY bottomY)).map
                         (fun i => sb.getD i default)).map StrokeBounds.minX)
                       maxX := maxQ (((cs.filter (bandPred sb topY bottomY)).map
                         (fun i => sb.getD i default)).map StrokeBounds.maxX)
                       minY := minQ (((cs.filter (bandPred sb topY bottomY)).map
                         (fun i => sb.getD i default)).map StrokeBounds.minY)
                       maxY := maxQ (((cs.filter (bandPred sb topY bottomY)).map
                         (fun i => sb.getD i default)).map StrokeBounds.maxY) } }

/-- The cells of one column of `createCellGrid` (definitionally equal
regrouping; see `createCellGrid_eq`). -/
def colCells (sb : List StrokeBounds) (rd : List (List DividerLine))
    (p : ℕ × List ℕ) : List GridCell :=
  if p.2 = [] then []
  else
    (List.range ((sortWith (fun a b : ℚ => decide (a < b))
        ((rd.getD p.1 []).map DividerLine.intercept)).length + 1)).filterMap (fun rowIdx =>
      bandCell sb p.1 rowIdx p.2
        (if rowIdx = 0
         then minQ ((p.2.map (fun i => sb.getD i default)).map StrokeBounds.minY) - 5
         else (sortWith (fun a b : ℚ => decide (a < b))
            ((rd.getD p.1 []).map DividerLine.intercept)).getD (rowIdx - 1) 0)
        (if rowIdx = (sortWith (fun a b : ℚ => decide (a < b))
              ((rd.getD p.1 []).map DividerLine.intercept)).length + 1 - 1
         then maxQ ((p.2.map (fun i => sb.getD i default)).map StrokeBounds.maxY) + 5
         else (sortWith (fun a b : ℚ => decide (a < b))
            ((rd.getD p.1 []).map DividerLine.intercept)).getD rowIdx 0))

/-! ### Output assembly (`output-builder.ts`) -/

/-- The reading-order comparator on cells:
`a.column - b.column || a.row - b.row` as a strict order. -/
def cellLt (a b : GridCell) : Bool :=
  decide (a.column < b.column) || (decide (a.column = b.column) && decide (a.row < b.row))

/-- Tight bounding box over every point of the given strokes; all-zero when
there are no points (the `Infinity` sentinel branch). -/
def pointsBounds (cellStrokes : List (List Point)) : SlotBounds :=
  let pts := cellStrokes.flatten
  if pts = [] then
    { minX := 0, maxX := 0, minY := 0, maxY := 0, width := 0, height := 0 }
  else
    let mnX := minQ (pts.map Point.x)
    let mxX := maxQ (pts.map Point.x)
    let mnY := minQ (pts.map Point.y)
    let mxY := maxQ (pts.map Point.y)
    { minX := mnX, maxX := mxX, minY := mnY, maxY := mxY
      width := mxX - mnX, height := mxY - mnY }

/-- `buildCharacterSlots(cells, strokes)`: cells sorted in Japanese reading
order become indexed slots. -/
def buildCharacterSlots (cells : List GridCell) (strokes : List (List Point)) :
    List CharacterSlot :=
  ((sortWith cellLt cells).enum.map (fun (idx, cell) =>
    let cellStrokes := cell.strokeIndices.map (fun i => strokes.getD i [])
    { index := idx, strokes := cellStrokes, bounds := pointsBounds cellStrokes }))

/-- `buildAnnotatedStrokesFromCells(strokes, cells)`: stroke → character map
from the sorted cells (later cells overwrite earlier ones), `-1` when absent. -/
def buildAnnotatedStrokesFromCells (strokes : List (List Point))
    (cells : List GridCell) : List AnnotatedStroke :=
  let sorted := sortWith cellLt cells
  strokes.enum.map (fun (index, points) =>
    let hit := sorted.enum.reverse.find? (fun (_, cell) => cell.strokeIndices.contains index)
    { index := index, points := points
      characterIndex :=
        match hit with
        | some (charIdx, _) => (charIdx : ℤ)
        | none => -1 })

/-- Modelled from the spec: the body of
`buildAnnotatedLassos(lassoPolygons, manualGroups)` referenced by
`pipeline.ts` is not under `src/` (only its caller and its description in
`ALGORITHM.md` § Output Building are).  Per the spec it directly emits one
`AnnotatedLasso` per surviving manual group — index, original polygon, and the
group's final stroke indices — without recomputing containment, so lassos
owning zero strokes never appear. -/
def buildAnnotatedLassos (lassoPolygons : List (List XY))
    (manualGroups : List (ℕ × List ℕ)) : List AnnotatedLasso :=
  manualGroups.map (fun (i, strokeIndices) =>
    { index := i, points := lassoPolygons.getD i [], strokeIndices := strokeIndices })

/-! ### Lasso ownership resolution (the stealing loop of `pipeline.ts`) -/

/-- The ownership state threaded through the lasso loop: `claimedBy` maps a
stroke index to its owning lasso, `manualGroups` holds each surviving lasso's
stroke list in `Map` insertion order. -/
structure LassoState where
  claimedBy : List (ℕ × ℕ)
  lassoPolygons : List (List XY)
  manualGroups : List (ℕ × List ℕ)
deriving DecidableEq

/-- Association-list lookup for the `Map`s of the loop. -/
def lookupA (k : ℕ) : List (ℕ × α) → Option α
  | [] => none
  | (k', v) :: rest => if k' = k then some v else lookupA k rest

/-- `Map.set`: update in place (first occurrence) when the key exists, append
otherwise. -/
def setA (k : ℕ) (v : α) : List (ℕ × α) → List (ℕ × α)
  | [] => [(k, v)]
  | p :: rest => if p.1 = k then (k, v) :: rest else p :: setA k v rest

/-- Remove `si` from group `prev`; delete the group outright when it empties
(`manualGroups.delete(prevOwner)`). -/
def stealFromGroup (prev si : ℕ) : List (ℕ × List ℕ) → List (ℕ × List ℕ)
  | [] => []
  | (g, l) :: rest =>
      if g = prev then
        let updated := l.filter (fun idx => idx ≠ si)
        if updated = [] then stealFromGroup prev si rest
        else (g, updated) :: stealFromGroup prev si rest
      else (g, l) :: stealFromGroup prev si rest

/-- The body of the stealing loop for one claimed stroke `si` of lasso `idx`:
remove `si` from its previous owner (if any), then record `idx` as its owner. -/
def stealStep (idx : ℕ) (acc : List (ℕ × ℕ) × List (ℕ × List ℕ)) (si : ℕ) :
    List (ℕ × ℕ) × List (ℕ × List ℕ) :=
  let acc' :=
    match lookupA si acc.1 with
    | some prevOwner => (acc.1, stealFromGroup prevOwner si acc.2)
    | none => acc
  (setA si idx acc'.1, acc'.2)

/-- Process one lasso: record its polygon, then (when it contains strokes)
steal each claimed stroke from its previous owner and append the new group. -/
def processLasso (strokes : List (List Point)) (threshold : ℚ)
    (st : LassoState) (points : List XY) : LassoState :=
  let strokeIndices := findStrokesInLasso strokes points threshold
  let idx := st.lassoPolygons.length
  let polys := st.lassoPolygons ++ [points]
  if strokeIndices = [] then { st with lassoPolygons := polys }
  else
    let stolen := strokeIndices.foldl (stealStep idx) (st.claimedBy, st.manualGroups)
    { claimedBy := stolen.1, lassoPolygons := polys
      manualGroups := stolen.2 ++ [(idx, strokeIndices)] }

/-- The full ownership-resolution loop over the input lassos. -/
def buildManualGroups (strokes : List (List Point)) (lassos : List (List XY))
    (threshold : ℚ) : LassoState :=
  lassos.foldl (processLasso strokes threshold) ⟨[], [], []⟩

/-! ### Pipeline (`pipeline.ts`) -/

/-- The record returned by `runPipeline`. -/
structure PipelineResult where
  characters : List CharacterSlot
  strokes : List AnnotatedStroke
  lassos : List AnnotatedLasso
  columnDividers : List DividerLine
  rowDividers : List (List DividerLine)
  protectedBounds : List (ℕ × List XY)
deriving DecidableEq

/-- `buildSingleCharResult(strokes, lassoPolygons, manualGroups)`: the
`maxCharacters === 1` shortcut. -/
def buildSingleCharResult (strokes : List (List Point))
    (lassoPolygons : List (List XY)) (manualGroups : List (ℕ × List ℕ)) :
    PipelineResult :=
  { characters := [{ index := 0, strokes := strokes, bounds := pointsBounds strokes }]
    strokes := strokes.enum.map (fun (index, points) =>
      { index := index, points := points, characterIndex := 0 })
    lassos := buildAnnotatedLassos lassoPolygons manualGroups
    columnDividers := []
    rowDividers := []
    protectedBounds := [] }

/-- Every intermediate of the main pipeline path (steps 1–10 of
`runPipeline`), exposed so individual stages can be reasoned about. -/
structure MainStages where
  strokeBounds : List StrokeBounds
  contentBounds : Box
  protectedBoundsMap : List (ℕ × List XY)
  protectedBoundsList : List ProtectedBound
  charWidth : ℚ
  charHeight : ℚ
  columnDividers : List DividerLine
  rowDividers : List (List DividerLine)
  strokesByColumn : List (List ℕ)
  cells : List GridCell
deriving DecidableEq

/-- Step 1 of the pipeline: per-stroke bounding boxes. -/
def strokeBoundsOf (strokes : List (List Point)) : List StrokeBounds :=
  strokes.enum.map (fun (i, s) => calculateStrokeBounds s i)

/-- Step 2 of the pipeline: the overall content bounds. -/
def contentBoundsOf (strokeBounds : List StrokeBounds) : Box :=
  { minX := minQ (strokeBounds.map StrokeBounds.minX)
    maxX := maxQ (strokeBounds.map StrokeBounds.maxX)
    minY := minQ (strokeBounds.map StrokeBounds.minY)
    maxY := maxQ (strokeBounds.map StrokeBounds.maxY) }

/-- Step 2c of the pipeline: shrink-wrap each manual group to the convex
hull of its strokes' points, keyed by lasso index. -/
def protectedBoundsMapOf (strokes : List (List Point))
    (manualGroups : List (ℕ × List ℕ)) : List (ℕ × List XY) :=
  manualGroups.map (fun (lassoIdx, strokeIndices) =>
    (lassoIdx, convexHull ((strokeIndices.map (fun si =>
      (strokes.getD si []).map (fun p => (⟨p.x, p.y⟩ : XY)))).flatten)))

/-- The `ProtectedBound[]` list built from the groups and their hulls. -/
def protectedBoundsListOf (manualGroups : List (ℕ × List ℕ))
    (protectedBoundsMap : List (ℕ × List XY)) : List ProtectedBound :=
  manualGroups.map (fun (lassoIdx, strokeIndices) =>
    ({ strokeIndices := strokeIndices
       hull := (lookupA lassoIdx protectedBoundsMap).getD [] } : ProtectedBound))

/-- Steps 1–10 of `runPipeline` on a non-empty stroke list with
`maxCharacters ≠ 1`. -/
def mainStages (strokes : List (List Point)) (st : LassoState)
    (canvasWidth canvasHeight : ℚ) (config : ResolvedConfig) : MainStages :=
  let strokeBounds := strokeBoundsOf strokes
  let contentBounds := contentBoundsOf strokeBounds
  let protectedBoundsMap := protectedBoundsMapOf strokes st.manualGroups
  let charWidth := estimateCharSize strokeBounds canvasWidth .width config
  let charHeight := estimateCharSize strokeBounds canvasHeight .height config
  let protectedBoundsList := protectedBoundsListOf st.manualGroups protectedBoundsMap
  let cd0 := findColumnDividers strokeBounds charWidth config protectedBoundsList
  let cd1 := addInterLassoDividers cd0 strokeBounds protectedBoundsList .x
  let cd2 := enforceColumnUniformity cd1 strokeBounds contentBounds protectedBoundsList config
  let sbc0 := assignStrokesToColumns strokeBounds cd2
  let rd0 := findAllRowDividers sbc0 strokeBounds cd2 charHeight config protectedBoundsList
  let rd1 := addInterLassoRowDividers rd0 sbc0 strokeBounds cd2 protectedBoundsList
  let rd2 := enforceRowUniformity rd1 sbc0 strokeBounds cd2 protectedBoundsList config
  let balanced := enforceColumnsNotExceedRows cd2 rd2 strokeBounds charHeight
    contentBounds protectedBoundsList config
  let sbc1 := assignStrokesToColumns strokeBounds balanced.1
  let cells := createCellGrid sbc1 strokeBounds balanced.1 balanced.2
  { strokeBounds := strokeBounds, contentBounds := contentBounds
    protectedBoundsMap := protectedBoundsMap, protectedBoundsList := protectedBoundsList
    charWidth := charWidth, charHeight := charHeight
    columnDividers := balanced.1, rowDividers := balanced.2
    strokesByColumn := sbc1, cells := cells }

/-- `runPipeline(input, config)`. -/
def runPipeline (input : SegmentInput) (config : ResolvedConfig) : PipelineResult :=
  let st := buildManualGroups input.strokes input.lassos config.lassoContainmentThreshold
  if input.strokes = [] then
    { characters := [], strokes := []
      lassos := buildAnnotatedLassos st.lassoPolygons st.manualGroups
      columnDividers := [], rowDividers := [], protectedBounds := [] }
  else if input.maxCharacters = 1 then
    buildSingleCharResult input.strokes st.lassoPolygons st.manualGroups
  else
    let m := mainStages input.strokes st input.canvasWidth input.canvasHeight config
    { characters := buildCharacterSlots m.cells input.strokes
      strokes := buildAnnotatedStrokesFromCells input.strokes m.cells
      lassos := buildAnnotatedLassos st.lassoPolygons st.manualGroups
      columnDividers := m.columnDividers
      rowDividers := m.rowDividers
      protectedBounds := m.protectedBoundsMap }

/-! ### The segmenter facade (`segmenter.ts`, `svg-generator.ts`)

The two SVG strings are string templating over already-computed divider and
hull data; they are embedded as the list of `<line>` markers (respectively
`<polygon>` entries) the template emits, which is the only content the
overlays carry. -/

/-- One `<line x1 y1 x2 y2>` marker of the divider overlay. -/
structure SvgLine where
  x1 : ℚ
  y1 : ℚ
  x2 : ℚ
  y2 : ℚ
deriving DecidableEq

/-- The `<line>` markers `generateSegmentationSvg` renders: vertical column
dividers (`x = slope·y + intercept`) then per-column horizontal row dividers
(`y = slope·x + intercept`). -/
def generateSegmentationSvgLines (columnDividers : List DividerLine)
    (rowDividers : List (List DividerLine)) : List SvgLine :=
  columnDividers.map (fun d =>
    ({ x1 := d.slope * d.start + d.intercept, y1 := d.start
       x2 := d.slope * d.stop + d.intercept, y2 := d.stop } : SvgLine))
  ++ (rowDividers.map (fun columnRows => columnRows.map (fun d =>
    ({ x1 := d.start, y1 := d.slope * d.start + d.intercept
       x2 := d.stop, y2 := d.slope * d.stop + d.intercept } : SvgLine)))).flatten

/-- The result of `Segmenter.segment`. -/
structure SegmentResult where
  characters : List CharacterSlot
  strokes : List AnnotatedStroke
  lassos : List AnnotatedLasso
  segmentationLines : List SvgLine
  lassoPolygons : List (List XY)
deriving DecidableEq

/-- `Segmenter.segment(input)` for a segmenter holding `config`
(`segmenter.ts`): run the pipeline, then render the overlays — an empty
divider overlay when `maxCharacters === 1`, and the protected convex hulls
with ≥ 3 vertices as the lasso overlay. -/
def segment (config : ResolvedConfig) (input : SegmentInput) : SegmentResult :=
  let pipelineResult := runPipeline input config
  let segmentationLines :=
    if input.maxCharacters = 1 then generateSegmentationSvgLines [] []
    else generateSegmentationSvgLines pipelineResult.columnDividers pipelineResult.rowDividers
  let hullPolygons := (List.range input.lassos.length).filterMap (fun i =>
    match lookupA i pipelineResult.protectedBounds with
    | some hull => if 3 ≤ hull.length then some hull else none
    | none => none)
  { characters := pipelineResult.characters
    strokes := pipelineResult.strokes
    lassos := pipelineResult.lassos
    segmentationLines := segmentationLines
    lassoPolygons := hullPolygons }

/-! ### Specification-side definitions

Used to compare the code's behaviour against the spec's wording where a claim
is a refinement statement (the definitions below follow the spec's words, not
the source). -/

/-- The median of a sorted list in the conventional statistical sense: the
middle element for odd length, the mean of the two middle elements for even
length (spec §4.1: "take the median of what remains"). -/
def medianOfSorted (l : List ℚ) : ℚ :=
  if l.length % 2 = 1 then l.getD (l.length / 2) 0
  else (l.getD (l.length / 2 - 1) 0 + l.getD (l.length / 2) 0) / 2

/-- Clamp `v` to the interval `[lo, hi]`. -/
def clampQ (lo hi v : ℚ) : ℚ :=
  max lo (min hi v)

/-- The character-size estimate as the spec words it (C8): median of the
extents strictly greater than 5, times the multiplier, clamped to
`[minRatio·dim, maxRatio·dim]`; 15% of the canvas dimension when nothing
survives the filter. -/
def specEstimateCharSize (strokeBounds : List StrokeBounds) (canvasDimension : ℚ)
    (dimension : Dimension) (config : ResolvedConfig) : ℚ :=
  let extents := (strokeBounds.map (fun s =>
    match dimension with
    | .width => s.maxX - s.minX
    | .height => s.maxY - s.minY)).filter (fun size => 5 < size)
  if extents = [] then canvasDimension * (15/100)
  else
    clampQ (canvasDimension * config.minCharSizeRatio)
      (canvasDimension * config.maxCharSizeRatio)
      (medianOfSorted (sortWith (fun a b : ℚ => decide (a < b)) extents) *
        config.charSizeMultiplier)

/-- The amended reading of the same estimate: "median" taken, as the code
does, to be the element at index `⌊n/2⌋` of the ascending-sorted surviving
extents (the upper middle for even `n`). -/
def upperMedianEstimateCharSize (strokeBounds : List StrokeBounds)
    (canvasDimension : ℚ) (dimension : Dimension) (config : ResolvedConfig) : ℚ :=
  let extents := (strokeBounds.map (fun s =>
    match dimension with
    | .width => s.maxX - s.minX
    | .height => s.maxY - s.minY)).filter (fun size => 5 < size)
  if extents = [] then canvasDimension * (15/100)
  else
    let sorted := sortWith (fun a b : ℚ => decide (a < b)) extents
    clampQ (canvasDimension * config.minCharSizeRatio)
      (canvasDimension * config.maxCharSizeRatio)
      (sorted.getD (sorted.length / 2) 0 * config.charSizeMultiplier)

/-- `n` chained applications of a loop step, all of which must fire
(`none` anywhere makes the chain undefined).  `fuelLoop step fuel s` performs
exactly such a chain of some length `≤ fuel`. -/
def stepChain (step : α → Option α) : ℕ → α → Option α
  | 0, s => some s
  | n + 1, s => (step s).bind (stepChain step n)

/-- Every three consecutive vertices of the walk make a strict left turn
(positive cross product): the counter-clockwise condition on a vertex
sequence, read front to back. -/
def leftTurns : List XY → Bool
  | a :: b :: c :: rest => decide (0 < cross a b c) && leftTurns (b :: c :: rest)
  | _ => true

/-- `leftTurns` of the reversed list: the chain is stored most-recent-first,
so the forward triple `(z, y, x)` is read off `x :: y :: z :: _`. -/
def leftTurnsRev : List XY → Bool
  | x :: y :: z :: rest => decide (0 < cross z y x) && leftTurnsRev (y :: z :: rest)
  | _ => true

/-- The turn made by appending `a` after the last two vertices of the walk
(`true` when the walk is shorter than two vertices). -/
def lastTurn : List XY → XY → Bool
  | [x, y], a => decide (0 < cross x y a)
  | _ :: y :: rest, a => lastTurn (y :: rest) a
  | _, _ => true

/-- Negation of both coordinates: the point reflection through the origin,
which reverses the lexicographic order and preserves cross products. -/
def negXY (p : XY) : XY := ⟨-p.x, -p.y⟩

/-- The invariant of the monotone-chain scan: after processing the sorted
prefix `P`, the chain `R` (stored most-recent-first) is a non-empty
selection of processed points, strictly lexicographically decreasing
front-to-back, making only strict left turns, every processed point lies
weakly left of every chain edge, and the chain's top (bottom) is a
lexicographic maximum (minimum) of the processed points. -/
def ScanInv (P R : List XY) : Prop :=
  R ≠ [] ∧ (∀ x ∈ R, x ∈ P)
  ∧ List.Chain' (fun x y => lexLtXY y x = true) R
  ∧ leftTurnsRev R = true
  ∧ (∀ q ∈ P, List.Chain' (fun x y => 0 ≤ cross y x q) R)
  ∧ (∀ q ∈ P, ∀ t ∈ R.head?, lexLtXY q t = true ∨ q = t)
  ∧ (∀ q ∈ P, ∀ bt ∈ R.getLast?, lexLtXY bt q = true ∨ bt = q)

/-- Pairwise disjointness of the stroke lists held by the manual groups. -/
def GroupsDisjoint (mg : List (ℕ × List ℕ)) : Prop :=
  List.Pairwise (fun a b => ∀ s, s ∈ a.2 → s ∉ b.2) mg

/-- Pairwise disjointness of the stroke-index sets of grid cells. -/
def CellsDisjoint (cells : List GridCell) : Prop :=
  List.Pairwise (fun a b => ∀ s, s ∈ a.strokeIndices → s ∉ b.strokeIndices) cells

/-- Placeholder cell for indexed access. -/
def cellD : GridCell := ⟨0, 0, [], ⟨0, 0, 0, 0⟩⟩

/-- Placeholder slot for indexed access. -/
def slotD : CharacterSlot := ⟨0, [], ⟨0, 0, 0, 0, 0, 0⟩⟩

/-- The reading-order claim's same-column clause (C2 as stated): of two
characters in the same column, the one with smaller `bounds.minY` has the
smaller index.  A character's column is its cell's column in the sorted cell
list the characters are built from. -/
def SameColumnSmallerMinYFirst (cells : List GridCell) (chars : List CharacterSlot) : Prop :=
  ∀ i j, i < chars.length → j < chars.length →
    ((sortWith cellLt cells).getD i cellD).column = ((sortWith cellLt cells).getD j cellD).column →
    (chars.getD i slotD).bounds.minY < (chars.getD j slotD).bounds.minY → i < j

/-- The reading-order claim's different-columns clause (C2 as stated): of two
characters in different columns, the one with larger `bounds.minX` has the
smaller index. -/
def DiffColumnLargerMinXFirst (cells : List GridCell) (chars : List CharacterSlot) : Prop :=
  ∀ i j, i < chars.length → j < chars.length →
    ((sortWith cellLt cells).getD i cellD).column ≠ ((sortWith cellLt cells).getD j cellD).column →
    (chars.getD j slotD).bounds.minX < (chars.getD i slotD).bounds.minX → i < j

/-- The invariant maintained by the lasso-ownership loop: every group is
non-empty, every stroke in a group is claimed by exactly that group, group
keys are distinct and all below the number of polygons seen so far. -/
def LassoInv (st : LassoState) : Prop :=
  (∀ g l, (g, l) ∈ st.manualGroups →
    l ≠ [] ∧ g < st.lassoPolygons.length ∧ ∀ s ∈ l, lookupA s st.claimedBy = some g) ∧
  (st.manualGroups.map Prod.fst).Nodup

/-- The invariant carried through the inner stealing fold of lasso `idx`. -/
def StealInv (idx : ℕ) (acc : List (ℕ × ℕ) × List (ℕ × List ℕ)) : Prop :=
  (∀ g l, (g, l) ∈ acc.2 →
    l ≠ [] ∧ g < idx ∧ ∀ s ∈ l, lookupA s acc.1 = some g) ∧
  (acc.2.map Prod.fst).Nodup

/-! ### Concrete inputs used by counterexamples and witnesses -/

/-- A three-point (triangular) stroke. -/
def tri (x1 y1 x2 y2 x3 y3 : ℚ) : List Point :=
  [⟨x1, y1, 0⟩, ⟨x2, y2, 0⟩, ⟨x3, y3, 0⟩]

/-- A rectangular lasso polygon. -/
def rectPoly (x1 y1 x2 y2 : ℚ) : List XY :=
  [⟨x1, y1⟩, ⟨x2, y1⟩, ⟨x2, y2⟩, ⟨x1, y2⟩]

/-- Empty canvas with `maxCharacters = 1` (no strokes at all). -/
def inputEmptyMax1 : SegmentInput :=
  ⟨[], [], 800, 600, 1⟩

/-- One short stroke with `maxCharacters = 1`. -/
def inputOneStrokeMax1 : SegmentInput :=
  ⟨[[⟨10, 20, 0⟩, ⟨30, 40, 1⟩]], [], 800, 600, 1⟩

/-- Three stacked strokes in one column; lassos around the first and third.
The inter-lasso row divider lands at `y = 50`, exactly the middle stroke's
center-Y, so the middle stroke satisfies both adjacent bands' inclusive
filters. -/
def inputCenterOnDivider : SegmentInput :=
  ⟨[tri 40 0 60 0 50 20, tri 40 45 60 45 50 55, tri 40 80 60 80 50 100],
   [rectPoly 35 (-5) 65 25, rectPoly 35 75 65 105], 200, 200, 4⟩

/-- Two columns: a lassoed triangle on the left, and on the right a lassoed
top cluster, a long-tailed stroke reaching left past the left column's
strokes, a tall stroke reaching above the top cluster, and a lassoed bottom
cluster.  The tails make bounding-box `minX`/`minY` disagree with the
reading order. -/
def inputTailed : SegmentInput :=
  ⟨[tri 50 0 90 0 70 40, tri 200 0 240 0 220 40, tri 30 0 270 0 150 40,
    tri 200 (-10) 240 (-10) 220 200, tri 200 120 240 120 220 160],
   [rectPoly 45 (-5) 95 45, rectPoly 195 (-5) 245 45, rectPoly 195 115 245 165],
   400, 300, 4⟩

/-- A tiny lassoed stroke next to a wide lassoed pair: the forced inter-lasso
divider at `x = 20` leaves widths `20` and `280` (ratio 14), the split is
vetoed by the wide protected group, and the merge deletes the forced
divider. -/
def inputMergedMandatory : SegmentInput :=
  ⟨[tri 0 0 16 0 8 40, tri 24 0 100 0 62 40, tri 50 0 300 0 175 40],
   [rectPoly (-5) (-5) 21 45, rectPoly 19 (-5) 305 45], 400, 200, 3⟩

/-- The strokes and lassos of `inputMergedMandatory` with the
`maxCharacters = 1` shortcut, so the lassos output is computed without the
divider pipeline. -/
def inputMergedMax1 : SegmentInput :=
  ⟨[tri 0 0 16 0 8 40, tri 24 0 100 0 62 40, tri 50 0 300 0 175 40],
   [rectPoly (-5) (-5) 21 45, rectPoly 19 (-5) 305 45], 400, 200, 1⟩

/-- The ownership state the pipeline computes for an input. -/
def pipelineState (input : SegmentInput) (config : ResolvedConfig) : LassoState :=
  buildManualGroups input.strokes input.lassos config.lassoContainmentThreshold

/-- The main-path intermediates the pipeline computes for an input. -/
def pipelineStages (input : SegmentInput) (config : ResolvedConfig) : MainStages :=
  mainStages input.strokes (pipelineState input config) input.canvasWidth
    input.canvasHeight config

/-! Expected stage values for `inputTailed`, used to stage its evaluation. -/

/-- Ownership state for `inputTailed`. -/
def tailedState : LassoState :=
  ⟨[(0, 0), (1, 1), (4, 2)],
   [[⟨45, -5⟩, ⟨95, -5⟩, ⟨95, 45⟩, ⟨45, 45⟩],
    [⟨195, -5⟩, ⟨245, -5⟩, ⟨245, 45⟩, ⟨195, 45⟩],
    [⟨195, 115⟩, ⟨245, 115⟩, ⟨245, 165⟩, ⟨195, 165⟩]],
   [(0, [0]), (1, [1]), (2, [4])]⟩

/-- Stroke bounds for `inputTailed`. -/
def tailedStrokeBounds : List StrokeBounds :=
  [⟨0, 50, 90, 0, 40, 70, 20⟩, ⟨1, 200, 240, 0, 40, 220, 20⟩, ⟨2, 30, 270, 0, 40, 150, 20⟩,
   ⟨3, 200, 240, -10, 200, 220, 95⟩, ⟨4, 200, 240, 120, 160, 220, 140⟩]

/-- Protected hulls for `inputTailed` (keyed by lasso index). -/
def tailedHulls : List (ℕ × List XY) :=
  [(0, [⟨50, 0⟩, ⟨90, 0⟩, ⟨70, 40⟩]), (1, [⟨200, 0⟩, ⟨240, 0⟩, ⟨220, 40⟩]),
   (2, [⟨200, 120⟩, ⟨240, 120⟩, ⟨220, 160⟩])]

/-- Protected bounds for `inputTailed`. -/
def tailedProtected : List ProtectedBound :=
  [⟨[0], [⟨50, 0⟩, ⟨90, 0⟩, ⟨70, 40⟩]⟩, ⟨[1], [⟨200, 0⟩, ⟨240, 0⟩, ⟨220, 40⟩]⟩,
   ⟨[4], [⟨200, 120⟩, ⟨240, 120⟩, ⟨220, 160⟩]⟩]

/-- Final column dividers for `inputTailed`. -/
def tailedColumnDividers : List DividerLine := [⟨0, 145, -20, 210⟩]

/-- Final row dividers for `inputTailed`. -/
def tailedRowDividers : List (List DividerLine) := [[⟨0, 80, 135, 280⟩], []]

/-- Column assignment for `inputTailed`. -/
def tailedColumns : List (List ℕ) := [[1, 2, 3, 4], [0]]

/-- Final grid cells for `inputTailed`. -/
def tailedCells : List GridCell :=
  [⟨0, 0, [1, 2], ⟨30, 270, 0, 40⟩⟩, ⟨0, 1, [3, 4], ⟨200, 240, -10, 200⟩⟩,
   ⟨1, 0, [0], ⟨50, 90, 0, 40⟩⟩]

/-- Final characters for `inputTailed`: character 1 (lower cell of the right
column) has the smallest `bounds.minY`, and character 0 (upper cell of the
right column, holding the long-tailed stroke) has a smaller `bounds.minX`
than character 2 in the left column. -/
def tailedChars : List CharacterSlot :=
  [⟨0, [[⟨200, 0, 0⟩, ⟨240, 0, 0⟩, ⟨220, 40, 0⟩], [⟨30, 0, 0⟩, ⟨270, 0, 0⟩, ⟨150, 40, 0⟩]],
    ⟨30, 270, 0, 40, 240, 40⟩⟩,
   ⟨1, [[⟨200, -10, 0⟩, ⟨240, -10, 0⟩, ⟨220, 200, 0⟩], [⟨200, 120, 0⟩, ⟨240, 120, 0⟩, ⟨220, 160, 0⟩]],
    ⟨200, 240, -10, 200, 40, 210⟩⟩,
   ⟨2, [[⟨50, 0, 0⟩, ⟨90, 0, 0⟩, ⟨70, 40, 0⟩]],
    ⟨50, 90, 0, 40, 40, 40⟩⟩]

/-! Expected stage values for `inputCenterOnDivider`. -/

/-- Ownership state for `inputCenterOnDivider`. -/
def centerState : LassoState :=
  ⟨[(0, 0), (2, 1)],
   [[⟨35, -5⟩, ⟨65, -5⟩, ⟨65, 25⟩, ⟨35, 25⟩],
    [⟨35, 75⟩, ⟨65, 75⟩, ⟨65, 105⟩, ⟨35, 105⟩]],
   [(0, [0]), (1, [2])]⟩

/-- Stroke bounds for `inputCenterOnDivider`. -/
def centerStrokeBounds : List StrokeBounds :=
  [⟨0, 40, 60, 0, 20, 50, 10⟩, ⟨1, 40, 60, 45, 55, 50, 50⟩, ⟨2, 40, 60, 80, 100, 50, 90⟩]

/-- Protected bounds for `inputCenterOnDivider`. -/
def centerProtected : List ProtectedBound :=
  [⟨[0], [⟨40, 0⟩, ⟨60, 0⟩, ⟨50, 20⟩]⟩, ⟨[2], [⟨40, 80⟩, ⟨60, 80⟩, ⟨50, 100⟩]⟩]

/-- Final row dividers for `inputCenterOnDivider` (single column). -/
def centerRowDividers : List (List DividerLine) :=
  [[⟨0, 325/10, 30, 70⟩, ⟨0, 50, 30, 70⟩, ⟨0, 675/10, 30, 70⟩]]

/-- Final grid cells for `inputCenterOnDivider`: the middle stroke (index 1)
sits in two adjacent cells. -/
def centerCells : List GridCell :=
  [⟨0, 0, [0], ⟨40, 60, 0, 20⟩⟩, ⟨0, 1, [1], ⟨40, 60, 45, 55⟩⟩,
   ⟨0, 2, [1], ⟨40, 60, 45, 55⟩⟩, ⟨0, 3, [2], ⟨40, 60, 80, 100⟩⟩]

/-! Expected stage values for `inputMergedMandatory`. -/

/-- Ownership state for `inputMergedMandatory`. -/
def mergedState : LassoState :=
  ⟨[(0, 0), (1, 1), (2, 1)],
   [[⟨-5, -5⟩, ⟨21, -5⟩, ⟨21, 45⟩, ⟨-5, 45⟩],
    [⟨19, -5⟩, ⟨305, -5⟩, ⟨305, 45⟩, ⟨19, 45⟩]],
   [(0, [0]), (1, [1, 2])]⟩

/-- Stroke bounds for `inputMergedMandatory`. -/
def mergedStrokeBounds : List StrokeBounds :=
  [⟨0, 0, 16, 0, 40, 8, 20⟩, ⟨1, 24, 100, 0, 40, 62, 20⟩, ⟨2, 50, 300, 0, 40, 175, 20⟩]

/-- Protected bounds for `inputMergedMandatory`. -/
def mergedProtected : List ProtectedBound :=
  [⟨[0], [⟨0, 0⟩, ⟨16, 0⟩, ⟨8, 40⟩]⟩,
   ⟨[1, 2], [⟨24, 0⟩, ⟨300, 0⟩, ⟨175, 40⟩, ⟨62, 40⟩]⟩]

/-! ## Theorems -/

/-! ### Generic helper lemmas -/

theorem stepChain_none {step : α → Option α} {s : α} (h : step s = none) (n : ℕ)
    (hn : 0 < n) : stepChain step n s = none := by
  cases n with
  | zero => exact absurd hn (lt_irrefl 0)
  | succ m => simp [stepChain, h]

theorem fuelLoop_spec (step : α → Option α) (fuel : ℕ) (s : α) :
    ∃ n ≤ fuel, stepChain step n s = some (fuelLoop step fuel s) ∧
      (n < fuel → step (fuelLoop step fuel s) = none) := by
  induction fuel generalizing s with
  | zero => exact ⟨0, le_rfl, rfl, fun h => absurd h (lt_irrefl 0)⟩
  | succ m ih =>
      cases hstep : step s with
      | none =>
          refine ⟨0, Nat.zero_le _, ?_, fun _ => ?_⟩ <;> simp [stepChain, fuelLoop, hstep]
      | some s' =>
          obtain ⟨n, hn, hchain, hstop⟩ := ih s'
          refine ⟨n + 1, Nat.succ_le_succ hn, ?_, fun hlt => ?_⟩
          · simp only [stepChain, hstep, Option.bind_some]
            simpa [fuelLoop, hstep] using hchain
          · have := hstop (Nat.lt_of_succ_lt_succ hlt)
            simpa [fuelLoop, hstep] using this

theorem enum_map_getD (l : List β) (f : ℕ × β → γ) (i : ℕ) (hi : i < l.length)
    (d : γ) (d' : β) : (l.enum.map f).getD i d = f (i, l.getD i d') := by
  have hlen : i < (l.enum.map f).length := by simpa using hi
  rw [List.getD_eq_getElem _ _ hlen, List.getD_eq_getElem _ _ hi]
  simp [List.getElem_map, List.getElem_enum]

/-! ### Stable-sort lemmas -/

theorem insBefore_perm (lt : α → α → Bool) (x : α) (l : List α) :
    (insBefore lt x l).Perm (x :: l) := by
  induction l with
  | nil => simp [insBefore]
  | cons y ys ih =>
      by_cases h : lt x y
      · simp [insBefore, h]
      · simp only [insBefore, if_neg h]
        exact (ih.cons y).trans (List.Perm.swap x y ys)

theorem sortWith_perm (lt : α → α → Bool) (l : List α) :
    (sortWith lt l).Perm l := by
  induction l with
  | nil => simp [sortWith]
  | cons x xs ih =>
      exact (insBefore_perm lt x (sortWith lt xs)).trans (ih.cons x)

theorem mem_sortWith {lt : α → α → Bool} {l : List α} {a : α} :
    a ∈ sortWith lt l ↔ a ∈ l :=
  (sortWith_perm lt l).mem_iff

theorem insBefore_pairwise {lt : α → α → Bool}
    (hasym : ∀ a b, lt a b = true → lt b a = false)
    (htrans : ∀ a b c, lt b a = false → lt c b = false → lt c a = false)
    {l : List α} (hl : l.Pairwise (fun a b => lt b a = false)) (x : α) :
    (insBefore lt x l).Pairwise (fun a b => lt b a = false) := by
  induction l with
  | nil => simp [insBefore]
  | cons y ys ih =>
      rcases List.pairwise_cons.mp hl with ⟨hy, hys⟩
      by_cases h : lt x y
      · rw [show insBefore lt x (y :: ys) = x :: y :: ys by simp [insBefore, h]]
        refine List.pairwise_cons.mpr ⟨?_, hl⟩
        intro b hb
        rcases List.mem_cons.mp hb with rfl | hmem
        · exact hasym x b h
        · exact htrans x y b (hasym x y h) (hy b hmem)
      · rw [show insBefore lt x (y :: ys) = y :: insBefore lt x ys by simp [insBefore, h]]
        refine List.pairwise_cons.mpr ⟨?_, ih hys⟩
        intro b hb
        rcases (insBefore_perm lt x ys).mem_iff.mp hb with hb'
        rcases List.mem_cons.mp hb' with rfl | hmem
        · exact Bool.eq_false_iff.mpr h
        · exact hy b hmem

theorem sortWith_pairwise {lt : α → α → Bool}
    (hasym : ∀ a b, lt a b = true → lt b a = false)
    (htrans : ∀ a b c, lt b a = false → lt c b = false → lt c a = false)
    (l : List α) :
    (sortWith lt l).Pairwise (fun a b => lt b a = false) := by
  induction l with
  | nil => simp [sortWith]
  | cons x xs ih => exact insBefore_pairwise hasym htrans ih x

theorem pairwise_getD {R : α → α → Prop} {l : List α} (h : l.Pairwise R)
    {i j : ℕ} (hij : i < j) (hj : j < l.length) (d : α) :
    R (l.getD i d) (l.getD j d) := by
  have hi : i < l.length := lt_trans hij hj
  rw [List.getD_eq_getElem l d hi, List.getD_eq_getElem l d hj]
  exact List.pairwise_iff_get.mp h ⟨i, hi⟩ ⟨j, hj⟩ hij

/-- Sorted rational lists are monotone in `getD`. -/
theorem sortedQ_getD_mono {l : List ℚ}
    (h : l.Pairwise (fun a b : ℚ => decide (b < a) = false))
    {i j : ℕ} (hij : i ≤ j) (hj : j < l.length) (d : ℚ) :
    l.getD i d ≤ l.getD j d := by
  rcases lt_or_eq_of_le hij with hlt | rfl
  · have := pairwise_getD h hlt hj d
    simpa using not_lt.mp (by simpa using this)
  · exact le_rfl

/-! ### C6: lasso containment threshold -/

/-- C6: for a non-empty stroke and a polygon with at least 3 vertices, the
stroke is claimed exactly when the fraction of its points classified inside by
the ray cast is ≥ the containment threshold — in particular a stroke exactly
at the threshold is included and one below it is excluded — and a polygon with
fewer than 3 vertices classifies every point as outside. -/
theorem containment_threshold_boundary (strokes : List (List Point))
    (polygon : List XY) (threshold : ℚ) :
    (3 ≤ polygon.length → ∀ i, i < strokes.length → strokes.getD i [] ≠ [] →
      ((i ∈ findStrokesInLasso strokes polygon threshold ↔
          threshold ≤ (countInside (strokes.getD i []) polygon : ℚ) / ((strokes.getD i []).length : ℚ))
        ∧ ((countInside (strokes.getD i []) polygon : ℚ) / ((strokes.getD i []).length : ℚ) = threshold →
            i ∈ findStrokesInLasso strokes polygon threshold)
        ∧ ((countInside (strokes.getD i []) polygon : ℚ) / ((strokes.getD i []).length : ℚ) < threshold →
            i ∉ findStrokesInLasso strokes polygon threshold)))
    ∧ (polygon.length < 3 → ∀ p, isPointInPolygon p polygon = false) := by
  constructor
  · intro _ i hi hne
    have hg : strokes.getD i [] = strokes[i] := by
      simp [List.getD_eq_getElem?_getD, List.getElem?_eq_getElem hi]
    rw [hg] at hne
    have hmem : i ∈ findStrokesInLasso strokes polygon threshold ↔
        threshold ≤ (countInside (strokes.getD i []) polygon : ℚ) / ((strokes.getD i []).length : ℚ) := by
      simp [findStrokesInLasso, List.mem_filter, List.mem_range, hi, hne, hg]
    refine ⟨hmem, fun he => hmem.mpr (le_of_eq he.symm), fun hlt hm => ?_⟩
    exact absurd (hmem.mp hm) (not_le_of_lt hlt)
  · intro h3 p
    simp [isPointInPolygon, h3]

/-- Witness for C6 at the boundary: a two-point stroke with exactly half its
points inside a square is claimed at threshold `1/2`, is not claimed at the
slightly higher threshold `3/5`, and a two-vertex polygon contains no point. -/
theorem containment_threshold_boundary_witness :
    (0 ∈ findStrokesInLasso [[⟨50, 50, 0⟩, ⟨150, 50, 0⟩]] (rectPoly 0 0 100 100) (1/2))
    ∧ (0 ∉ findStrokesInLasso [[⟨50, 50, 0⟩, ⟨150, 50, 0⟩]] (rectPoly 0 0 100 100) (3/5))
    ∧ isPointInPolygon ⟨1, 1⟩ [⟨0, 0⟩, ⟨2, 2⟩] = false := by
  refine ⟨?_, ?_, ?_⟩
  · exact (((containment_threshold_boundary [[⟨50, 50, 0⟩, ⟨150, 50, 0⟩]]
      (rectPoly 0 0 100 100) (1/2)).1 (by with_unfolding_all decide) 0
      (by with_unfolding_all decide) (by with_unfolding_all decide)).2.1
      (by with_unfolding_all decide))
  · exact (((containment_threshold_boundary [[⟨50, 50, 0⟩, ⟨150, 50, 0⟩]]
      (rectPoly 0 0 100 100) (3/5)).1 (by with_unfolding_all decide) 0
      (by with_unfolding_all decide) (by with_unfolding_all decide)).2.2
      (by with_unfolding_all decide))
  · exact ((containment_threshold_boundary [] [⟨0, 0⟩, ⟨2, 2⟩] 0).2
      (by with_unfolding_all decide) ⟨1, 1⟩)

/-! ### C8: the character-size estimate -/

/-- C8 counterexample: with surviving extents `{10, 20}` on a 100-unit canvas,
the code (upper-middle element, `20·2 = 40`) differs from the spec's median
(`15·2 = 30`), both inside the clamp range `[8, 40]`. -/
theorem charSize_median_cex :
    estimateCharSize [⟨0, 0, 10, 0, 0, 5, 0⟩, ⟨1, 0, 20, 0, 0, 10, 0⟩] 100 .width DEFAULT_CONFIG ≠
      specEstimateCharSize [⟨0, 0, 10, 0, 0, 5, 0⟩, ⟨1, 0, 20, 0, 0, 10, 0⟩] 100 .width
        DEFAULT_CONFIG := by
  with_unfolding_all decide

/-- C8 amended: `estimateCharSize` equals the spec formula with "median" read
as the element at index `⌊n/2⌋` of the ascending-sorted surviving extents —
including the `> 5` filter, the multiplier, the clamp, and the 15% fallback
when nothing survives (in particular when there are no strokes). -/
theorem charSize_amended (strokeBounds : List StrokeBounds) (canvasDimension : ℚ)
    (dimension : Dimension) (config : ResolvedConfig) :
    estimateCharSize strokeBounds canvasDimension dimension config =
      upperMedianEstimateCharSize strokeBounds canvasDimension dimension config := by
  unfold estimateCharSize upperMedianEstimateCharSize clampQ
  by_cases h : strokeBounds = []
  · subst h; simp
  · simp only [if_neg h]

/-! ### C1: the `maxCharacters == 1` shortcut -/

/-- C1 counterexample: with no strokes and `maxCharacters = 1`, the
empty-strokes branch fires first and `segment` returns zero CharacterSlots,
not one. -/
theorem singleChar_empty_cex :
    (segment DEFAULT_CONFIG inputEmptyMax1).characters.length ≠ 1 := by
  with_unfolding_all decide

/-- C1 amended: for every input with at least one stroke and
`maxCharacters = 1`, `segment` returns exactly one CharacterSlot whose strokes
are the entire input stroke list, annotates every stroke with
`characterIndex = 0`, and emits a divider overlay with no line markers. -/
theorem singleChar_shortcut (config : ResolvedConfig) (input : SegmentInput)
    (h1 : input.strokes ≠ []) (h2 : input.maxCharacters = 1) :
    (segment config input).characters.map CharacterSlot.strokes = [input.strokes]
    ∧ (segment config input).characters.map CharacterSlot.index = [0]
    ∧ (∀ a ∈ (segment config input).strokes, a.characterIndex = 0)
    ∧ (segment config input).segmentationLines = [] := by
  unfold segment runPipeline
  simp only [if_neg h1, if_pos h2, h2, if_pos rfl]
  refine ⟨rfl, rfl, ?_, rfl⟩
  intro a ha
  simp only [buildSingleCharResult] at ha
  rcases List.mem_map.mp ha with ⟨x, _, rfl⟩
  rfl

/-- Witness for C1: a one-stroke input with `maxCharacters = 1`. -/
theorem singleChar_shortcut_witness :
    (segment DEFAULT_CONFIG inputOneStrokeMax1).characters.map CharacterSlot.strokes =
        [inputOneStrokeMax1.strokes]
    ∧ (segment DEFAULT_CONFIG inputOneStrokeMax1).segmentationLines = [] := by
  obtain ⟨ha, _, _, hd⟩ := singleChar_shortcut DEFAULT_CONFIG inputOneStrokeMax1
    (by with_unfolding_all decide) (by with_unfolding_all decide)
  exact ⟨ha, hd⟩

/-! ### C9: iteration caps of the repair loops -/

/-- C9: each repair loop runs at most 10 genuine iterations and, when it
stops before the cap, stops because its step signalled completion (the ratio
constraint holds or no repair improves it); the loops are total functions, so
a divider set is always returned.  Stated for `enforceColumnUniformity`,
`enforceRowUniformity` (per column) and `enforceColumnsNotExceedRows`. -/
theorem repair_loops_capped (columnDividers : List DividerLine)
    (strokeBounds : List StrokeBounds) (contentBounds : Box)
    (protectedGroups : List ProtectedBound) (config : ResolvedConfig)
    (rowDividers : List (List DividerLine)) (strokesByColumn : List (List ℕ))
    (columnDividers2 : List DividerLine) (charHeight : ℚ) :
    ((strokeBounds = [] →
        enforceColumnUniformity columnDividers strokeBounds contentBounds protectedGroups config
          = columnDividers)
      ∧ (strokeBounds ≠ [] → ∃ n ≤ 10,
          stepChain (colUniformityStep strokeBounds contentBounds protectedGroups config) n
              columnDividers
            = some (enforceColumnUniformity columnDividers strokeBounds contentBounds
                protectedGroups config)
          ∧ (n < 10 → colUniformityStep strokeBounds contentBounds protectedGroups config
              (enforceColumnUniformity columnDividers strokeBounds contentBounds protectedGroups
                config) = none)))
    ∧ (∀ colIdx, colIdx < rowDividers.length →
        ((strokesByColumn.getD colIdx [] = [] →
          (enforceRowUniformity rowDividers strokesByColumn strokeBounds columnDividers2
              protectedGroups config).getD colIdx []
            = rowDividers.getD colIdx [])
        ∧ (strokesByColumn.getD colIdx [] ≠ [] →
            letI colStrokes := (strokesByColumn.getD colIdx []).map
              (fun i => strokeBounds.getD i default)
            letI step := rowUniformityStep strokeBounds
              (minQ (colStrokes.map StrokeBounds.minY)) (maxQ (colStrokes.map StrokeBounds.maxY))
              (getColumnXBounds colIdx columnDividers2 strokesByColumn.length colStrokes)
              protectedGroups config
            ∃ n ≤ 10,
              stepChain step n (rowDividers.getD colIdx [])
                = some ((enforceRowUniformity rowDividers strokesByColumn strokeBounds
                    columnDividers2 protectedGroups config).getD colIdx [])
              ∧ (n < 10 → step ((enforceRowUniformity rowDividers strokesByColumn strokeBounds
                  columnDividers2 protectedGroups config).getD colIdx []) = none))))
    ∧ (∃ n ≤ 10,
        stepChain (balanceStep strokeBounds charHeight contentBounds protectedGroups config) n
            (columnDividers2, rowDividers)
          = some (enforceColumnsNotExceedRows columnDividers2 rowDividers strokeBounds charHeight
              contentBounds protectedGroups config)
        ∧ (n < 10 → balanceStep strokeBounds charHeight contentBounds protectedGroups config
            (enforceColumnsNotExceedRows columnDividers2 rowDividers strokeBounds charHeight
              contentBounds protectedGroups config) = none)) := by
  refine ⟨⟨fun h => ?_, fun h => ?_⟩, fun colIdx hlt => ?_, ?_⟩
  · simp [enforceColumnUniformity, h]
  · simpa [enforceColumnUniformity, h] using
      fuelLoop_spec (colUniformityStep strokeBounds contentBounds protectedGroups config)
        10 columnDividers
  · have hres : (enforceRowUniformity rowDividers strokesByColumn strokeBounds columnDividers2
        protectedGroups config).getD colIdx []
        = (fun (p : ℕ × List DividerLine) =>
            let colStrokeIndices := strokesByColumn.getD p.1 []
            if colStrokeIndices = [] then p.2
            else
              let colStrokes := colStrokeIndices.map (fun i => strokeBounds.getD i default)
              let colMinY := minQ (colStrokes.map StrokeBounds.minY)
              let colMaxY := maxQ (colStrokes.map StrokeBounds.maxY)
              let colBounds := getColumnXBounds p.1 columnDividers2 strokesByColumn.length
                colStrokes
              fuelLoop (rowUniformityStep strokeBounds colMinY colMaxY colBounds protectedGroups
                config) 10 p.2)
          (colIdx, rowDividers.getD colIdx []) := by
      unfold enforceRowUniformity
      exact enum_map_getD rowDividers _ colIdx hlt [] []
    constructor
    · intro h
      simp only [hres, h]
      simp
    · intro h
      simp only [hres, if_neg h]
      exact fuelLoop_spec _ 10 (rowDividers.getD colIdx [])
  · simpa [enforceColumnsNotExceedRows] using
      fuelLoop_spec (balanceStep strokeBounds charHeight contentBounds protectedGroups config)
        10 (columnDividers2, rowDividers)

/-- Witness for C9 at a concrete state: one divider between very uneven
columns, no protected groups. -/
theorem repair_loops_capped_witness :
    ∃ n ≤ 10,
      stepChain (colUniformityStep [⟨0, 0, 4, 0, 4, 2, 2⟩] ⟨0, 120, 0, 4⟩ [] DEFAULT_CONFIG) n
          [⟨0, 4, -10, 14⟩]
        = some (enforceColumnUniformity [⟨0, 4, -10, 14⟩] [⟨0, 0, 4, 0, 4, 2, 2⟩] ⟨0, 120, 0, 4⟩
            [] DEFAULT_CONFIG)
      ∧ (n < 10 → colUniformityStep [⟨0, 0, 4, 0, 4, 2, 2⟩] ⟨0, 120, 0, 4⟩ [] DEFAULT_CONFIG
          (enforceColumnUniformity [⟨0, 4, -10, 14⟩] [⟨0, 0, 4, 0, 4, 2, 2⟩] ⟨0, 120, 0, 4⟩ []
            DEFAULT_CONFIG) = none) := by
  exact (repair_loops_capped [⟨0, 4, -10, 14⟩] [⟨0, 0, 4, 0, 4, 2, 2⟩] ⟨0, 120, 0, 4⟩ []
    DEFAULT_CONFIG [] [] [] 0).1.2 (by with_unfolding_all decide)

/-! ### Ownership-resolution lemmas (C3, C4) -/

theorem lookupA_setA_self (k : ℕ) (v : α) (l : List (ℕ × α)) :
    lookupA k (setA k v l) = some v := by
  induction l with
  | nil => simp [setA, lookupA]
  | cons p rest ih =>
      by_cases hp : p.1 = k
      · simp [setA, hp, lookupA]
      · simp only [setA, if_neg hp, lookupA, if_neg hp]
        exact ih

theorem lookupA_setA_ne (k k' : ℕ) (v : α) (l : List (ℕ × α)) (h : k' ≠ k) :
    lookupA k' (setA k v l) = lookupA k' l := by
  have hkk : ¬ (k = k') := fun he => h he.symm
  induction l with
  | nil => simp [setA, lookupA, hkk]
  | cons p rest ih =>
      by_cases hp : p.1 = k
      · have hp' : ¬ (p.1 = k') := by rw [hp]; exact hkk
        simp only [setA, if_pos hp, lookupA, if_neg hkk, if_neg hp']
      · rw [show setA k v (p :: rest) = p :: setA k v rest by simp [setA, hp]]
        by_cases hp2 : p.1 = k'
        · simp [lookupA, hp2]
        · simp only [lookupA, if_neg hp2]
          exact ih

theorem stealFromGroup_mem {prev si : ℕ} {mg : List (ℕ × List ℕ)} {g : ℕ}
    {l' : List ℕ} (h : (g, l') ∈ stealFromGroup prev si mg) :
    ∃ l, (g, l) ∈ mg ∧
      ((g ≠ prev ∧ l' = l) ∨
        (g = prev ∧ l' = l.filter (fun idx => idx ≠ si) ∧ l' ≠ [])) := by
  induction mg with
  | nil => simp [stealFromGroup] at h
  | cons q rest ih =>
      obtain ⟨q1, q2⟩ := q
      by_cases hq : q1 = prev
      · by_cases hemp : q2.filter (fun idx => idx ≠ si) = []
        · rw [show stealFromGroup prev si ((q1, q2) :: rest) = stealFromGroup prev si rest by
            simp only [stealFromGroup, if_pos hq, if_pos hemp]] at h
          obtain ⟨l, hl, hcase⟩ := ih h
          exact ⟨l, List.mem_cons_of_mem _ hl, hcase⟩
        · rw [show stealFromGroup prev si ((q1, q2) :: rest)
              = (q1, q2.filter (fun idx => idx ≠ si)) :: stealFromGroup prev si rest by
            simp only [stealFromGroup, if_pos hq, if_neg hemp]] at h
          rcases List.mem_cons.mp h with heq | hmem
          · injection heq with h1 h2
            refine ⟨q2, ?_, Or.inr ⟨?_, h2, ?_⟩⟩
            · rw [h1]; exact List.mem_cons_self _ _
            · rw [h1]; exact hq
            · rw [h2]; exact hemp
          · obtain ⟨l, hl, hcase⟩ := ih hmem
            exact ⟨l, List.mem_cons_of_mem _ hl, hcase⟩
      · rw [show stealFromGroup prev si ((q1, q2) :: rest)
            = (q1, q2) :: stealFromGroup prev si rest by
          simp only [stealFromGroup, if_neg hq]] at h
        rcases List.mem_cons.mp h with heq | hmem
        · injection heq with h1 h2
          refine ⟨q2, ?_, Or.inl ⟨?_, h2⟩⟩
          · rw [h1]; exact List.mem_cons_self _ _
          · rw [h1]; exact hq
        · obtain ⟨l, hl, hcase⟩ := ih hmem
          exact ⟨l, List.mem_cons_of_mem _ hl, hcase⟩

theorem stealFromGroup_keys_sublist (prev si : ℕ) (mg : List (ℕ × List ℕ)) :
    ((stealFromGroup prev si mg).map Prod.fst).Sublist (mg.map Prod.fst) := by
  induction mg with
  | nil => simp [stealFromGroup]
  | cons q rest ih =>
      obtain ⟨q1, q2⟩ := q
      by_cases hq : q1 = prev
      · by_cases hemp : q2.filter (fun idx => idx ≠ si) = []
        · rw [show stealFromGroup prev si ((q1, q2) :: rest) = stealFromGroup prev si rest by
            simp only [stealFromGroup, if_pos hq, if_pos hemp]]
          exact ih.cons q1
        · rw [show stealFromGroup prev si ((q1, q2) :: rest)
              = (q1, q2.filter (fun idx => idx ≠ si)) :: stealFromGroup prev si rest by
            simp only [stealFromGroup, if_pos hq, if_neg hemp]]
          exact ih.cons₂ q1
      · rw [show stealFromGroup prev si ((q1, q2) :: rest)
            = (q1, q2) :: stealFromGroup prev si rest by
          simp only [stealFromGroup, if_neg hq]]
        exact ih.cons₂ q1

theorem stealStep_inv {idx : ℕ} {acc : List (ℕ × ℕ) × List (ℕ × List ℕ)}
    (hInv : StealInv idx acc) (si : ℕ) : StealInv idx (stealStep idx acc si) := by
  obtain ⟨hgrp, hnd⟩ := hInv
  cases hlook : lookupA si acc.1 with
  | none =>
      have hred : stealStep idx acc si = (setA si idx acc.1, acc.2) := by
        simp [stealStep, hlook]
      rw [hred]
      refine ⟨fun g l hmem => ?_, hnd⟩
      obtain ⟨hne, hlt, hcl⟩ := hgrp g l hmem
      refine ⟨hne, hlt, fun s hs => ?_⟩
      have hsne : s ≠ si := by
        intro he
        rw [he] at hs
        have := hcl si hs
        rw [hlook] at this
        exact Option.noConfusion this
      rw [lookupA_setA_ne si s idx acc.1 hsne]
      exact hcl s hs
  | some prev =>
      have hred : stealStep idx acc si = (setA si idx acc.1, stealFromGroup prev si acc.2) := by
        simp [stealStep, hlook]
      rw [hred]
      refine ⟨fun g l' hmem => ?_, ?_⟩
      · obtain ⟨l, hl, hcase⟩ := stealFromGroup_mem hmem
        obtain ⟨hne, hlt, hcl⟩ := hgrp g l hl
        rcases hcase with ⟨hgp, rfl⟩ | ⟨rfl, rfl, hne'⟩
        · refine ⟨hne, hlt, fun s hs => ?_⟩
          have hsne : s ≠ si := by
            intro he
            rw [he] at hs
            have := hcl si hs
            rw [hlook] at this
            exact hgp (Option.some.inj this).symm
          rw [lookupA_setA_ne si s idx acc.1 hsne]
          exact hcl s hs
        · refine ⟨hne', hlt, fun s hs => ?_⟩
          have hsmem := List.mem_of_mem_filter hs
          have hsne : s ≠ si := by simpa using List.of_mem_filter hs
          rw [lookupA_setA_ne si s idx acc.1 hsne]
          exact hcl s hsmem
      · exact hnd.sublist (stealFromGroup_keys_sublist prev si acc.2)

theorem stealStep_keeps {idx : ℕ} {acc : List (ℕ × ℕ) × List (ℕ × List ℕ)}
    {s : ℕ} (h : lookupA s acc.1 = some idx) (si : ℕ) :
    lookupA s (stealStep idx acc si).1 = some idx := by
  by_cases hsi : s = si
  · subst hsi
    cases hlook : lookupA s acc.1 <;>
      simp [stealStep, hlook, lookupA_setA_self]
  · cases hlook : lookupA si acc.1 <;>
      simp [stealStep, hlook, lookupA_setA_ne si s idx _ hsi, h]

theorem stealFold_inv {idx : ℕ} (sis : List ℕ)
    {acc : List (ℕ × ℕ) × List (ℕ × List ℕ)} (hInv : StealInv idx acc) :
    StealInv idx (sis.foldl (stealStep idx) acc) := by
  induction sis generalizing acc with
  | nil => exact hInv
  | cons si rest ih => exact ih (stealStep_inv hInv si)

theorem stealFold_keeps {idx : ℕ} (sis : List ℕ)
    {acc : List (ℕ × ℕ) × List (ℕ × List ℕ)} {s : ℕ}
    (h : lookupA s acc.1 = some idx) :
    lookupA s ((sis.foldl (stealStep idx) acc)).1 = some idx := by
  induction sis generalizing acc with
  | nil => exact h
  | cons si rest ih => exact ih (stealStep_keeps h si)

theorem stealFold_claims {idx : ℕ} (sis : List ℕ)
    (acc : List (ℕ × ℕ) × List (ℕ × List ℕ)) :
    ∀ s ∈ sis, lookupA s ((sis.foldl (stealStep idx) acc)).1 = some idx := by
  induction sis generalizing acc with
  | nil => intro s hs; simp at hs
  | cons si rest ih =>
      intro s hs
      rcases List.mem_cons.mp hs with rfl | hmem
      · by_cases hrest : s ∈ rest
        · exact ih (stealStep idx acc s) s hrest
        · simp only [List.foldl_cons]
          apply stealFold_keeps
          cases hlook : lookupA s acc.1 <;>
            simp [stealStep, hlook, lookupA_setA_self]
      · exact ih (stealStep idx acc si) s hmem

theorem processLasso_inv {strokes : List (List Point)} {threshold : ℚ}
    {st : LassoState} (hInv : LassoInv st) (points : List XY) :
    LassoInv (processLasso strokes threshold st points) := by
  obtain ⟨hgrp, hnd⟩ := hInv
  unfold processLasso
  by_cases hsis : findStrokesInLasso strokes points threshold = []
  · simp only [hsis, if_pos rfl]
    refine ⟨fun g l hmem => ?_, hnd⟩
    obtain ⟨hne, hlt, hcl⟩ := hgrp g l hmem
    exact ⟨hne, by simpa using Nat.lt_succ_of_lt hlt, hcl⟩
  · simp only [if_neg hsis]
    have hInit : StealInv st.lassoPolygons.length (st.claimedBy, st.manualGroups) :=
      ⟨fun g l hmem => hgrp g l hmem, hnd⟩
    have hFin := stealFold_inv (findStrokesInLasso strokes points threshold) hInit
    obtain ⟨hgrp', hnd'⟩ := hFin
    constructor
    · intro g l hmem
      rcases List.mem_append.mp hmem with hmem' | hmem'
      · obtain ⟨hne, hlt, hcl⟩ := hgrp' g l hmem'
        exact ⟨hne, by simpa using Nat.lt_succ_of_lt hlt, hcl⟩
      · rcases List.mem_singleton.mp hmem' with heq
        have h1 : g = st.lassoPolygons.length := congrArg Prod.fst heq
        have h2 : l = findStrokesInLasso strokes points threshold := congrArg Prod.snd heq
        subst h1; subst h2
        refine ⟨hsis, by simp, fun s hs => ?_⟩
        exact stealFold_claims _ _ s hs
    · simp only [List.map_append, List.map_cons, List.map_nil]
      rw [List.nodup_append]
      refine ⟨hnd', List.nodup_singleton _, ?_⟩
      intro a ha hb
      have ha' : a = st.lassoPolygons.length := List.mem_singleton.mp hb
      subst ha'
      obtain ⟨⟨g, l⟩, hmem, hfst⟩ := List.mem_map.mp ha
      obtain ⟨_, hlt, _⟩ := hgrp' g l hmem
      have hg : g = st.lassoPolygons.length := hfst
      rw [hg] at hlt
      exact absurd hlt (lt_irrefl _)

theorem buildManualGroups_foldl_inv {strokes : List (List Point)} {threshold : ℚ}
    (lassos : List (List XY)) {st : LassoState} (hInv : LassoInv st) :
    LassoInv (lassos.foldl (processLasso strokes threshold) st) := by
  induction lassos generalizing st with
  | nil => exact hInv
  | cons p rest ih => exact ih (processLasso_inv hInv p)

theorem buildManualGroups_inv (strokes : List (List Point))
    (lassos : List (List XY)) (threshold : ℚ) :
    LassoInv (buildManualGroups strokes lassos threshold) := by
  unfold buildManualGroups
  exact buildManualGroups_foldl_inv lassos
    ⟨fun g l hmem => by simp at hmem, by simp⟩

theorem lookupA_eq_of_mem_nodup {l : List (ℕ × α)} {k : ℕ} {v : α}
    (hmem : (k, v) ∈ l) (hnd : (l.map Prod.fst).Nodup) : lookupA k l = some v := by
  induction l with
  | nil => simp at hmem
  | cons p rest ih =>
      rcases List.mem_cons.mp hmem with heq | hmem'
      · rw [← heq]
        simp [lookupA]
      · have hpk : p.1 ≠ k := by
          intro he
          have : k ∈ rest.map Prod.fst := List.mem_map.mpr ⟨(k, v), hmem', rfl⟩
          rw [List.map_cons, List.nodup_cons, he] at hnd
          exact hnd.1 this
        simp only [lookupA, if_neg hpk]
        exact ih hmem' (by
          rw [List.map_cons, List.nodup_cons] at hnd
          exact hnd.2)

theorem lookupA_none_of_not_mem {l : List (ℕ × α)} {k : ℕ}
    (h : k ∉ l.map Prod.fst) : lookupA k l = none := by
  induction l with
  | nil => rfl
  | cons p rest ih =>
      simp only [List.map_cons, List.mem_cons, not_or] at h
      have hp : ¬ (p.1 = k) := fun he => h.1 he.symm
      simp only [lookupA, if_neg hp]
      exact ih h.2

theorem mem_keys_of_lookupA {l : List (ℕ × α)} {k : ℕ} {v : α}
    (h : lookupA k l = some v) : k ∈ l.map Prod.fst := by
  by_contra hnot
  rw [lookupA_none_of_not_mem hnot] at h
  exact Option.noConfusion h

theorem lassoInv_disjoint {st : LassoState} (hInv : LassoInv st) :
    GroupsDisjoint st.manualGroups := by
  obtain ⟨hgrp, hnd⟩ := hInv
  have hp : st.manualGroups.Pairwise (fun a b => a.1 ≠ b.1) :=
    (List.pairwise_map.mp hnd)
  refine hp.imp_of_mem ?_
  intro a b ha hb hne s hsa hsb
  obtain ⟨_, _, hca⟩ := hgrp a.1 a.2 (by simpa using ha)
  obtain ⟨_, _, hcb⟩ := hgrp b.1 b.2 (by simpa using hb)
  have := (hca s hsa).symm.trans (hcb s hsb)
  exact hne (Option.some.inj this)

/-- C3: after processing any prefix of the input lassos (i.e. at every stage
of the ownership loop) the manual groups' stroke-index lists are pairwise
disjoint — the stealing rule removes a re-claimed stroke from its earlier
owner — and a group emptied by stealing is deleted, so every surviving group
is non-empty: the protected indices form a partition, not an overlapping
cover. -/
theorem ownership_partition (strokes : List (List Point)) (lassos : List (List XY))
    (threshold : ℚ) (k : ℕ) :
    GroupsDisjoint (buildManualGroups strokes (lassos.take k) threshold).manualGroups
    ∧ ∀ gl ∈ (buildManualGroups strokes (lassos.take k) threshold).manualGroups,
        gl.2 ≠ [] := by
  have hInv := buildManualGroups_inv strokes (lassos.take k) threshold
  refine ⟨lassoInv_disjoint hInv, fun gl hmem => ?_⟩
  obtain ⟨hne, _, _⟩ := hInv.1 gl.1 gl.2 (by simpa using hmem)
  exact hne

/-- Witness for C3 on the overlapping-lasso input: the resolved groups and
their disjointness at the final stage. -/
theorem ownership_partition_witness :
    (buildManualGroups inputMergedMandatory.strokes (inputMergedMandatory.lassos.take 2)
        (1/2)).manualGroups = [(0, [0]), (1, [1, 2])]
    ∧ GroupsDisjoint [((0 : ℕ), [(0 : ℕ)]), (1, [1, 2])]
    ∧ (((0 : ℕ), [(0 : ℕ)]) : ℕ × List ℕ).2 ≠ [] := by
  have heq : (buildManualGroups inputMergedMandatory.strokes
      (inputMergedMandatory.lassos.take 2) (1/2)).manualGroups
      = [(0, [0]), (1, [1, 2])] := by with_unfolding_all decide
  refine ⟨heq, ?_, ?_⟩
  · have h := (ownership_partition inputMergedMandatory.strokes inputMergedMandatory.lassos
      (1/2) 2).1
    rwa [heq] at h
  · exact (ownership_partition inputMergedMandatory.strokes inputMergedMandatory.lassos
      (1/2) 2).2 (0, [0]) (by rw [heq]; exact List.mem_cons_self _ _)

/-- C4: the pipeline's lassos output is emitted directly from the resolved
manual groups, not recomputed from containment: every emitted entry carries
its group's post-stealing membership (looked up in the final groups) and its
original polygon, owns at least one stroke, and no lasso index absent from
the final groups (e.g. one fully emptied by stealing, or one that never
claimed a stroke) appears in the output. -/
theorem annotatedLassos_from_groups (input : SegmentInput) (config : ResolvedConfig) :
    (runPipeline input config).lassos =
        buildAnnotatedLassos (pipelineState input config).lassoPolygons
          (pipelineState input config).manualGroups
    ∧ (∀ e ∈ (runPipeline input config).lassos,
        e.strokeIndices ≠ []
        ∧ lookupA e.index (pipelineState input config).manualGroups = some e.strokeIndices
        ∧ e.points = (pipelineState input config).lassoPolygons.getD e.index [])
    ∧ (∀ i, lookupA i (pipelineState input config).manualGroups = none →
        ∀ e ∈ (runPipeline input config).lassos, e.index ≠ i) := by
  have hInv : LassoInv (pipelineState input config) :=
    buildManualGroups_inv input.strokes input.lassos config.lassoContainmentThreshold
  have hl : (runPipeline input config).lassos =
      buildAnnotatedLassos (pipelineState input config).lassoPolygons
        (pipelineState input config).manualGroups := by
    unfold runPipeline pipelineState
    by_cases h1 : input.strokes = []
    · simp [h1]
    · by_cases h2 : input.maxCharacters = 1
      · simp [h1, h2, buildSingleCharResult]
      · simp [h1, h2]
  refine ⟨hl, ?_, ?_⟩
  · intro e hmem
    rw [hl] at hmem
    unfold buildAnnotatedLassos at hmem
    obtain ⟨⟨g, l⟩, hgl, rfl⟩ := List.mem_map.mp hmem
    obtain ⟨hne, _, _⟩ := hInv.1 g l hgl
    exact ⟨hne, lookupA_eq_of_mem_nodup hgl hInv.2, rfl⟩
  · intro i hnone e hmem hei
    rw [hl] at hmem
    unfold buildAnnotatedLassos at hmem
    obtain ⟨⟨g, l⟩, hgl, rfl⟩ := List.mem_map.mp hmem
    have hg : g = i := hei
    rw [hg] at hgl
    have hsome := lookupA_eq_of_mem_nodup hgl hInv.2
    rw [hnone] at hsome
    exact Option.noConfusion hsome

/-- Witness for C4: the second lasso of the overlapping pair ends up owning
strokes 1 and 2 and is emitted with exactly that membership. -/
theorem annotatedLassos_from_groups_witness :
    (⟨1, [⟨19, -5⟩, ⟨305, -5⟩, ⟨305, 45⟩, ⟨19, 45⟩], [1, 2]⟩ : AnnotatedLasso).strokeIndices ≠ []
    ∧ lookupA 1 (pipelineState inputMergedMax1 DEFAULT_CONFIG).manualGroups = some [1, 2] := by
  have h := (annotatedLassos_from_groups inputMergedMax1 DEFAULT_CONFIG).2.1
    ⟨1, [⟨19, -5⟩, ⟨305, -5⟩, ⟨305, 45⟩, ⟨19, 45⟩], [1, 2]⟩ (by with_unfolding_all decide)
  exact ⟨h.1, h.2.1⟩

set_option maxRecDepth 100000 in
set_option maxHeartbeats 4000000 in
/-- C5 exhibit: `DividerLine` (see its definition above, a faithful
translation of `internal/types.ts`) carries no mandatory flag at all, and the
divider the Group Divider Inserter forces between the two protected hulls of
`inputMergedMandatory` (at `x = 20`) is deleted by `enforceColumnUniformity`'s
merge repair, which never consults the dividers' origin. -/
theorem mandatory_divider_merged_away :
    buildManualGroups inputMergedMandatory.strokes inputMergedMandatory.lassos
        DEFAULT_CONFIG.lassoContainmentThreshold = mergedState
    ∧ strokeBoundsOf inputMergedMandatory.strokes = mergedStrokeBounds
    ∧ protectedBoundsListOf mergedState.manualGroups
        (protectedBoundsMapOf inputMergedMandatory.strokes mergedState.manualGroups)
        = mergedProtected
    ∧ estimateCharSize mergedStrokeBounds inputMergedMandatory.canvasWidth .width
        DEFAULT_CONFIG = 152
    ∧ contentBoundsOf mergedStrokeBounds = ⟨0, 300, 0, 40⟩
    ∧ (addInterLassoDividers
        (findColumnDividers mergedStrokeBounds 152 DEFAULT_CONFIG mergedProtected)
        mergedStrokeBounds mergedProtected .x).map DividerLine.intercept = [20]
    ∧ enforceColumnUniformity
        (addInterLassoDividers
          (findColumnDividers mergedStrokeBounds 152 DEFAULT_CONFIG mergedProtected)
          mergedStrokeBounds mergedProtected .x)
        mergedStrokeBounds ⟨0, 300, 0, 40⟩ mergedProtected DEFAULT_CONFIG = []
    ∧ (runPipeline inputMergedMandatory DEFAULT_CONFIG).characters.length = 1 := by
  refine ⟨?_, ?_, ?_, ?_, ?_, ?_, ?_, ?_⟩ <;> with_unfolding_all decide

/-- C2 counterexample: on `inputTailed` both geometric clauses fail — in the
right column the lower character (index 1) has the smaller `bounds.minY`
(its tall stroke reaches above the upper cell), and across columns the
left-column character (index 2) has a larger `bounds.minX` than character 0
(whose long-tailed stroke reaches past it) yet the larger index. -/
theorem readingOrder_bounds_cex :
    ¬ SameColumnSmallerMinYFirst (pipelineStages inputTailed DEFAULT_CONFIG).cells
        (runPipeline inputTailed DEFAULT_CONFIG).characters
    ∧ ¬ DiffColumnLargerMinXFirst (pipelineStages inputTailed DEFAULT_CONFIG).cells
        (runPipeline inputTailed DEFAULT_CONFIG).characters := by
  have hcells : (pipelineStages inputTailed DEFAULT_CONFIG).cells = tailedCells := by
    with_unfolding_all decide
  have hchars : (runPipeline inputTailed DEFAULT_CONFIG).characters = tailedChars := by
    with_unfolding_all decide
  rw [hcells, hchars]
  constructor
  · intro h
    have h2 := h 1 0 (by with_unfolding_all decide) (by with_unfolding_all decide)
      (by with_unfolding_all decide) (by with_unfolding_all decide)
    exact absurd h2 (by decide)
  · intro h
    have h2 := h 2 0 (by with_unfolding_all decide) (by with_unfolding_all decide)
      (by with_unfolding_all decide) (by with_unfolding_all decide)
    exact absurd h2 (by decide)

theorem cellLt_asym : ∀ a b : GridCell, cellLt a b = true → cellLt b a = false := by
  intro a b h
  simp [cellLt] at h ⊢
  omega

theorem cellLt_negtrans : ∀ a b c : GridCell,
    cellLt b a = false → cellLt c b = false → cellLt c a = false := by
  intro a b c h1 h2
  simp [cellLt] at h1 h2 ⊢
  omega

/-- C2 (amended): characters carry contiguous indices `0, 1, …`; the slot
list is exactly the cell list sorted by `(column ascending, row ascending)`
(a permutation of the cells, lexicographically ordered by grid position,
each slot holding its cell's strokes); and every cell `createCellGrid` emits
is non-empty.  The bounds-based reading-order clauses of the claim as stated
are refuted separately: a slot's bounds are the union of its strokes' full
extents, which can reach into a neighbouring cell's territory. -/
theorem readingOrder_amended (strokes : List (List Point)) (cells : List GridCell)
    (sbc : List (List ℕ)) (sb : List StrokeBounds) (cd : List DividerLine)
    (rd : List (List DividerLine)) :
    ((buildCharacterSlots cells strokes).map CharacterSlot.index = List.range cells.length)
    ∧ (sortWith cellLt cells).Perm cells
    ∧ (∀ i j, i < j → j < cells.length →
        (((sortWith cellLt cells).getD i cellD).column
            < ((sortWith cellLt cells).getD j cellD).column
          ∨ (((sortWith cellLt cells).getD i cellD).column
                = ((sortWith cellLt cells).getD j cellD).column
              ∧ ((sortWith cellLt cells).getD i cellD).row
                  ≤ ((sortWith cellLt cells).getD j cellD).row)))
    ∧ (∀ i, i < cells.length →
        (buildCharacterSlots cells strokes).getD i slotD
          = { index := i
              strokes := ((sortWith cellLt cells).getD i cellD).strokeIndices.map
                (fun si => strokes.getD si [])
              bounds := pointsBounds (((sortWith cellLt cells).getD i cellD).strokeIndices.map
                (fun si => strokes.getD si [])) })
    ∧ (∀ cell ∈ createCellGrid sbc sb cd rd, cell.strokeIndices ≠ []) := by
  have hperm := sortWith_perm cellLt cells
  have hlen : (sortWith cellLt cells).length = cells.length := hperm.length_eq
  refine ⟨?_, hperm, ?_, ?_, ?_⟩
  · simp only [buildCharacterSlots, List.map_map]
    have : (CharacterSlot.index ∘ fun (p : ℕ × GridCell) =>
        ({ index := p.1, strokes := p.2.strokeIndices.map (fun i => strokes.getD i [])
           bounds := pointsBounds (p.2.strokeIndices.map (fun i => strokes.getD i [])) }
          : CharacterSlot)) = Prod.fst := by
      funext p; rfl
    rw [this, List.enum_map_fst, hlen]
  · intro i j hij hj
    have hp := sortWith_pairwise cellLt_asym cellLt_negtrans cells
    have h := pairwise_getD hp hij (by rw [hlen]; exact hj) cellD
    set a := (sortWith cellLt cells).getD i cellD with ha
    set b := (sortWith cellLt cells).getD j cellD with hb
    simp only [cellLt, Bool.or_eq_false_iff, Bool.and_eq_false_iff,
      decide_eq_false_iff_not, not_lt] at h
    rcases h with ⟨h1, h2⟩
    rcases lt_or_eq_of_le h1 with hlt | heq
    · exact Or.inl hlt
    · rcases h2 with h2 | h2
      · exact absurd heq.symm (by simpa using h2)
      · exact Or.inr ⟨heq, by simpa using h2⟩
  · intro i hi
    have hi' : i < (sortWith cellLt cells).length := by rw [hlen]; exact hi
    simp only [buildCharacterSlots]
    exact enum_map_getD (sortWith cellLt cells) _ i hi' slotD cellD
  · intro cell hcell
    simp only [createCellGrid, List.mem_flatten, List.mem_map] at hcell
    obtain ⟨l, ⟨⟨ci, cs⟩, hmem, hl⟩, hcl⟩ := hcell
    by_cases hcs : cs = []
    · rw [← hl] at hcl; simp [hcs] at hcl
    · rw [← hl] at hcl
      simp only [if_neg hcs, List.mem_filterMap] at hcl
      obtain ⟨rowIdx, _, hsome⟩ := hcl
      by_cases hempty : cs.filter (fun i =>
          let s := sb.getD i default
          decide ((if rowIdx = 0
              then minQ ((cs.map (fun i => sb.getD i default)).map StrokeBounds.minY) - 5
              else (sortWith (fun a b : ℚ => decide (a < b))
                ((rd.getD ci []).map DividerLine.intercept)).getD (rowIdx - 1) 0) ≤ s.centerY)
            && decide (s.centerY ≤ (if rowIdx = (sortWith (fun a b : ℚ => decide (a < b))
                ((rd.getD ci []).map DividerLine.intercept)).length + 1 - 1
              then maxQ ((cs.map (fun i => sb.getD i default)).map StrokeBounds.maxY) + 5
              else (sortWith (fun a b : ℚ => decide (a < b))
                ((rd.getD ci []).map DividerLine.intercept)).getD rowIdx 0))) = []
      · rw [if_pos hempty] at hsome; exact absurd hsome (by simp)
      · rw [if_neg hempty] at hsome
        have := Option.some.inj hsome
        rw [← this]
        exact hempty

/-- C10 counterexample: on `inputCenterOnDivider` the middle stroke's
center-Y equals the inter-lasso row divider's intercept 50, and the
inclusive band filter of `createCellGrid` places stroke 1 in both adjacent
cells, which then appear as two CharacterSlots both containing it. -/
theorem cells_overlap_cex :
    ¬ CellsDisjoint (pipelineStages inputCenterOnDivider DEFAULT_CONFIG).cells
    ∧ ((runPipeline inputCenterOnDivider DEFAULT_CONFIG).characters.countP
        (fun c => c.strokes.contains [⟨40, 45, 0⟩, ⟨60, 45, 0⟩, ⟨50, 55, 0⟩])) = 2 := by
  constructor
  · intro h
    have hcells : (pipelineStages inputCenterOnDivider DEFAULT_CONFIG).cells = centerCells := by
      with_unfolding_all decide
    rw [hcells] at h
    unfold CellsDisjoint centerCells at h
    have h1 := (List.pairwise_cons.mp (List.pairwise_cons.mp h).2).1
    have h2 := h1 (⟨0, 2, [1], ⟨40, 60, 45, 55⟩⟩ : GridCell) (by simp) 1 (by simp)
    simp at h2
  · with_unfolding_all decide

theorem createCellGrid_eq (sbc : List (List ℕ)) (sb : List StrokeBounds)
    (cd : List DividerLine) (rd : List (List DividerLine)) :
    createCellGrid sbc sb cd rd = (sbc.enum.map (colCells sb rd)).flatten := rfl

theorem bandCell_strokeIndices {sb : List StrokeBounds} {colIdx rowIdx : ℕ}
    {cs : List ℕ} {topY bottomY : ℚ} {cell : GridCell}
    (h : bandCell sb colIdx rowIdx cs topY bottomY = some cell) :
    cell.strokeIndices = cs.filter (bandPred sb topY bottomY) := by
  unfold bandCell at h
  split at h
  · exact absurd h (by simp)
  · obtain rfl := Option.some.inj h
    rfl

theorem ltQ_asym : ∀ a b : ℚ, decide (a < b) = true → decide (b < a) = false := by
  intro a b h
  rw [decide_eq_true_eq] at h
  rw [decide_eq_false_iff_not]
  exact not_lt.mpr (le_of_lt h)

theorem ltQ_negtrans : ∀ a b c : ℚ,
    decide (b < a) = false → decide (c < b) = false → decide (c < a) = false := by
  intro a b c h1 h2
  rw [decide_eq_false_iff_not] at h1 h2
  rw [decide_eq_false_iff_not]
  exact not_lt.mpr (le_trans (not_lt.mp h1) (not_lt.mp h2))

theorem colCells_sub {sb : List StrokeBounds} {rd : List (List DividerLine)}
    {p : ℕ × List ℕ} {cell : GridCell} (h : cell ∈ colCells sb rd p) :
    cell.strokeIndices ⊆ p.2 := by
  unfold colCells at h
  split at h
  · simp at h
  · rw [List.mem_filterMap] at h
    obtain ⟨rowIdx, _, hsome⟩ := h
    rw [bandCell_strokeIndices hsome]
    intro s hs
    exact (List.mem_filter.mp hs).1

theorem colCells_pairwise (sb : List StrokeBounds) (rd : List (List DividerLine))
    (p : ℕ × List ℕ)
    (hc : ∀ si ∈ p.2, (sb.getD si default).centerY ∉
      ((rd.getD p.1 []).map DividerLine.intercept)) :
    (colCells sb rd p).Pairwise
      (fun a b => ∀ s, s ∈ a.strokeIndices → s ∉ b.strokeIndices) := by
  unfold colCells
  split
  · exact List.Pairwise.nil
  · set rowYs := sortWith (fun a b : ℚ => decide (a < b))
      ((rd.getD p.1 []).map DividerLine.intercept) with hys
    have hsorted : rowYs.Pairwise (fun a b : ℚ => decide (b < a) = false) :=
      sortWith_pairwise ltQ_asym ltQ_negtrans _
    have hpw : (List.range (rowYs.length + 1)).Pairwise
        (fun a b => a < b ∧ b < rowYs.length + 1) :=
      (List.pairwise_lt_range _).imp_of_mem
        (fun _ hb hab => ⟨hab, List.mem_range.mp hb⟩)
    apply List.Pairwise.filterMap _ ?_ hpw
    intro i j hij x hx y hy
    rw [Option.mem_def] at hx hy
    obtain ⟨hij, hj⟩ := hij
    have hx' := bandCell_strokeIndices hx
    have hy' := bandCell_strokeIndices hy
    intro s hsx hsy
    rw [hx'] at hsx
    rw [hy'] at hsy
    have hscs : s ∈ p.2 := (List.mem_filter.mp hsx).1
    have hpx := (List.mem_filter.mp hsx).2
    have hpy := (List.mem_filter.mp hsy).2
    simp only [bandPred, Bool.and_eq_true, decide_eq_true_eq] at hpx hpy
    have hilen : i < rowYs.length := by omega
    have hine : ¬ (i = rowYs.length + 1 - 1) := by omega
    have hjne : ¬ (j = 0) := by omega
    rw [if_neg hine] at hpx
    rw [if_neg hjne] at hpy
    have hmono : rowYs.getD i 0 ≤ rowYs.getD (j - 1) 0 :=
      sortedQ_getD_mono hsorted (by omega) (by omega) 0
    have hceq : (sb.getD s default).centerY = rowYs.getD i 0 := by
      have h1 := hpx.2
      have h2 := hpy.1
      linarith
    have hmem : rowYs.getD i 0 ∈ rowYs := by
      rw [List.getD_eq_getElem rowYs 0 hilen]
      exact List.getElem_mem hilen
    rw [hys] at hmem
    exact hc s hscs (by rw [hceq, hys]; exact mem_sortWith.mp hmem)

/-- C10 (amended): the cells of `createCellGrid` have pairwise-disjoint
stroke indices provided the columns partition the strokes and no stroke's
center-Y coordinate lies exactly on a row-divider intercept of its column.
The unconditional claim is refuted separately: both adjacent bands use an
inclusive comparison against the shared divider intercept, so a stroke whose
center sits exactly on the divider is put into two cells. -/
theorem cells_disjoint_amended (strokesByColumn : List (List ℕ))
    (strokeBounds : List StrokeBounds) (cd : List DividerLine)
    (rowDividers : List (List DividerLine))
    (hcols : strokesByColumn.Pairwise (fun ca cb => ∀ si ∈ ca, si ∉ cb))
    (hcenters : ∀ p ∈ strokesByColumn.enum, ∀ si ∈ p.2,
      (strokeBounds.getD si default).centerY ∉
        ((rowDividers.getD p.1 []).map DividerLine.intercept)) :
    CellsDisjoint (createCellGrid strokesByColumn strokeBounds cd rowDividers) := by
  rw [createCellGrid_eq]
  unfold CellsDisjoint
  rw [List.pairwise_flatten]
  constructor
  · intro l hl
    rw [List.mem_map] at hl
    obtain ⟨p, hp, rfl⟩ := hl
    exact colCells_pairwise strokeBounds rowDividers p (hcenters p hp)
  · rw [List.pairwise_map]
    have h2 : List.Pairwise (fun a b : ℕ × List ℕ => ∀ si ∈ a.2, si ∉ b.2)
        strokesByColumn.enum := by
      have h3 := hcols
      rw [← List.enum_map_snd strokesByColumn, List.pairwise_map] at h3
      exact h3
    refine h2.imp ?_
    intro p q hd x hx y hy s hsx
    exact fun hsy => hd s (colCells_sub hx hsx) (colCells_sub hy hsy)

theorem cells_disjoint_amended_witness :
    CellsDisjoint (createCellGrid [[0], [1, 2]]
      [⟨0, 0, 10, 0, 10, 5, 5⟩, ⟨1, 0, 10, 0, 10, 5, 5⟩, ⟨2, 0, 10, 20, 30, 5, 25⟩]
      [] [[], [⟨0, 10, 0, 100⟩]]) :=
  cells_disjoint_amended _ _ _ _ (by decide) (by with_unfolding_all decide)

/-! ### C7: the convex hull -/

/-- C7 counterexample: two distinct points are NOT returned unchanged — the
code sorts (and deduplicates) every input of two or more points, so the
out-of-order pair comes back swapped. -/
theorem convexHull_unchanged_cex :
    ([(⟨1, 0⟩ : XY), ⟨0, 0⟩].length ≤ 2)
    ∧ (⟨1, 0⟩ : XY) ≠ ⟨0, 0⟩
    ∧ convexHull [⟨1, 0⟩, ⟨0, 0⟩] = [⟨0, 0⟩, ⟨1, 0⟩]
    ∧ convexHull [⟨1, 0⟩, ⟨0, 0⟩] ≠ [⟨1, 0⟩, ⟨0, 0⟩] := by
  refine ⟨by decide, by with_unfolding_all decide, by with_unfolding_all decide,
    by with_unfolding_all decide⟩

theorem mem_dedupAdjAux_sub {l : List XY} {prev q : XY}
    (h : q ∈ dedupAdjAux prev l) : q ∈ l := by
  induction l generalizing prev with
  | nil => simp [dedupAdjAux] at h
  | cons b rest ih =>
      unfold dedupAdjAux at h
      split at h
      · exact List.mem_cons_of_mem b (ih h)
      · rcases List.mem_cons.mp h with rfl | h2
        · exact List.mem_cons_self q rest
        · exact List.mem_cons_of_mem b (ih h2)

theorem mem_dedupAdjAux_of_mem {l : List XY} {prev q : XY}
    (h : q ∈ l) : q ∈ dedupAdjAux prev l ∨ q = prev := by
  induction l generalizing prev with
  | nil => simp at h
  | cons b rest ih =>
      unfold dedupAdjAux
      rcases List.mem_cons.mp h with rfl | h2
      · split
        · rename_i hb
          exact Or.inr hb
        · exact Or.inl (List.mem_cons_self q _)
      · rcases @ih b h2 with h3 | rfl
        · split
          · exact Or.inl h3
          · exact Or.inl (List.mem_cons_of_mem b h3)
        · split
          · rename_i hb
            rw [hb]
            exact Or.inr rfl
          · exact Or.inl (List.mem_cons_self q _)

theorem mem_dedupAdj {l : List XY} {q : XY} : q ∈ dedupAdj l ↔ q ∈ l := by
  constructor
  · intro h
    cases l with
    | nil => simp [dedupAdj] at h
    | cons a rest =>
        unfold dedupAdj at h
        rcases List.mem_cons.mp h with rfl | h2
        · exact List.mem_cons_self q rest
        · exact List.mem_cons_of_mem a (mem_dedupAdjAux_sub h2)
  · intro h
    cases l with
    | nil => simp at h
    | cons a rest =>
        unfold dedupAdj
        rcases List.mem_cons.mp h with rfl | h2
        · exact List.mem_cons_self q _
        · rcases @mem_dedupAdjAux_of_mem rest a q h2 with h3 | rfl
          · exact List.mem_cons_of_mem a h3
          · exact List.mem_cons_self q _

theorem mem_chainPushAux {p b q : XY} {tail : List XY}
    (h : q ∈ chainPushAux p b tail) : q = p ∨ q = b ∨ q ∈ tail := by
  induction tail generalizing b with
  | nil =>
      unfold chainPushAux at h
      rcases List.mem_cons.mp h with rfl | h2
      · exact Or.inl rfl
      · exact Or.inr (Or.inl (by simpa using h2))
  | cons a rest ih =>
      unfold chainPushAux at h
      split at h
      · rcases ih h with h2 | h2 | h2
        · exact Or.inl h2
        · subst h2
          exact Or.inr (Or.inr (List.mem_cons_self _ _))
        · exact Or.inr (Or.inr (List.mem_cons_of_mem a h2))
      · rcases List.mem_cons.mp h with rfl | h2
        · exact Or.inl rfl
        · exact Or.inr (List.mem_cons.mp h2)

theorem mem_chainPush {p q : XY} {ch : List XY}
    (h : q ∈ chainPush p ch) : q = p ∨ q ∈ ch := by
  cases ch with
  | nil => unfold chainPush at h; simpa using h
  | cons b tail =>
      unfold chainPush at h
      rcases mem_chainPushAux h with h2 | h2 | h2
      · exact Or.inl h2
      · exact Or.inr (h2 ▸ List.mem_cons_self b tail)
      · exact Or.inr (List.mem_cons_of_mem b h2)

theorem mem_buildChainRev_fold {q : XY} :
    ∀ (pts ch : List XY), q ∈ pts.foldl (fun c p => chainPush p c) ch →
      q ∈ ch ∨ q ∈ pts := by
  intro pts
  induction pts with
  | nil => intro ch h; exact Or.inl h
  | cons p rest ih =>
      intro ch h
      rcases ih (chainPush p ch) h with h2 | h2
      · rcases mem_chainPush h2 with rfl | h3
        · exact Or.inr (List.mem_cons_self q rest)
        · exact Or.inl h3
      · exact Or.inr (List.mem_cons_of_mem p h2)

theorem mem_buildChainRev {q : XY} {pts : List XY}
    (h : q ∈ buildChainRev pts) : q ∈ pts := by
  rcases mem_buildChainRev_fold pts [] h with h2 | h2
  · simp at h2
  · exact h2

theorem leftTurnsRev_tail {x : XY} {l : List XY}
    (h : leftTurnsRev (x :: l) = true) : leftTurnsRev l = true := by
  match l with
  | [] => rfl
  | [y] => rfl
  | y :: z :: rest =>
      unfold leftTurnsRev at h
      exact (Bool.and_eq_true_iff.mp h).2

theorem leftTurnsRev_chainPushAux {p b : XY} {tail : List XY}
    (h : leftTurnsRev (b :: tail) = true) :
    leftTurnsRev (chainPushAux p b tail) = true := by
  induction tail generalizing b with
  | nil => rfl
  | cons a rest ih =>
      unfold chainPushAux
      split
      · exact ih (leftTurnsRev_tail h)
      · rename_i hcr
        unfold leftTurnsRev
        rw [Bool.and_eq_true_iff]
        refine ⟨by simpa using lt_of_not_le hcr, h⟩

theorem leftTurnsRev_chainPush {p : XY} {ch : List XY}
    (h : leftTurnsRev ch = true) : leftTurnsRev (chainPush p ch) = true := by
  cases ch with
  | nil => rfl
  | cons b tail => exact leftTurnsRev_chainPushAux h

theorem leftTurnsRev_fold :
    ∀ (pts ch : List XY), leftTurnsRev ch = true →
      leftTurnsRev (pts.foldl (fun c p => chainPush p c) ch) = true := by
  intro pts
  induction pts with
  | nil => intro ch h; exact h
  | cons p rest ih => intro ch h; exact ih _ (leftTurnsRev_chainPush h)

theorem leftTurnsRev_buildChainRev (pts : List XY) :
    leftTurnsRev (buildChainRev pts) = true :=
  leftTurnsRev_fold pts [] rfl

theorem lastTurn_append : ∀ (m : List XY) (z y a : XY),
    lastTurn (m ++ [z, y]) a = decide (0 < cross z y a)
  | [], _, _, _ => rfl
  | [_], _, _, _ => rfl
  | w :: u :: m', z, y, a => by
      have h : lastTurn ((w :: u :: m') ++ [z, y]) a = lastTurn ((u :: m') ++ [z, y]) a := by
        cases m' <;> rfl
      rw [h]
      exact lastTurn_append (u :: m') z y a

theorem leftTurns_snoc : ∀ (m : List XY) (a : XY),
    leftTurns (m ++ [a]) = (leftTurns m && lastTurn m a)
  | [], a => rfl
  | [x], a => rfl
  | [x, y], a => by simp [leftTurns, lastTurn]
  | x :: y :: z :: rest, a => by
      rw [show ((x :: y :: z :: rest) ++ [a]) = x :: y :: z :: (rest ++ [a]) by simp]
      rw [show leftTurns (x :: y :: z :: (rest ++ [a]))
          = (decide (0 < cross x y z) && leftTurns (y :: z :: (rest ++ [a]))) from rfl]
      rw [show (y :: z :: (rest ++ [a])) = (y :: z :: rest) ++ [a] by simp]
      rw [leftTurns_snoc (y :: z :: rest) a]
      rw [show leftTurns (x :: y :: z :: rest)
          = (decide (0 < cross x y z) && leftTurns (y :: z :: rest)) from rfl]
      rw [show lastTurn (x :: y :: z :: rest) a = lastTurn (y :: z :: rest) a from rfl]
      rw [Bool.and_assoc]

theorem leftTurnsRev_eq : ∀ (l : List XY), leftTurnsRev l = leftTurns l.reverse
  | [] => rfl
  | [x] => rfl
  | [x, y] => rfl
  | x :: y :: z :: rest => by
      rw [show leftTurnsRev (x :: y :: z :: rest)
          = (decide (0 < cross z y x) && leftTurnsRev (y :: z :: rest)) from rfl]
      rw [leftTurnsRev_eq (y :: z :: rest)]
      rw [show (x :: y :: z :: rest).reverse = (y :: z :: rest).reverse ++ [x] by simp]
      rw [leftTurns_snoc]
      rw [show (y :: z :: rest).reverse = rest.reverse ++ [z, y] by simp]
      rw [lastTurn_append]
      rw [show ((rest.reverse ++ [z, y]) : List XY) = (y :: z :: rest).reverse by simp]
      rw [Bool.and_comm]

theorem lexLt_iff {a b : XY} :
    lexLtXY a b = true ↔ (a.x < b.x ∨ (a.x = b.x ∧ a.y < b.y)) := by
  simp [lexLtXY]

theorem cross_right_self (a b : XY) : cross a b b = 0 := by unfold cross; ring

theorem cross_left_self (a b : XY) : cross a b a = 0 := by unfold cross; ring

theorem cross_rotate (a b c : XY) : cross a b c = cross b c a := by unfold cross; ring

theorem cross_swap12 (a b c : XY) : cross a b c = -cross b a c := by unfold cross; ring

theorem crossL1 {a b c p : XY} (h1 : 0 < cross a b c) (h2 : 0 ≤ cross b c p)
    (hab : a.x ≤ b.x) (hbc : b.x ≤ c.x) (hbcy : b.x = c.x → b.y < c.y)
    (hcp : c.x ≤ p.x) (hcpy : c.x = p.x → c.y < p.y) :
    0 ≤ cross a b p := by
  have hid : (c.x - b.x) * cross a b p
      = (p.x - b.x) * cross a b c + (b.x - a.x) * cross b c p := by
    unfold cross; ring
  rcases lt_or_eq_of_le hbc with h | h
  · have h0 : 0 ≤ (c.x - b.x) * cross a b p := by nlinarith
    exact (mul_nonneg_iff_of_pos_left (by linarith)).mp h0
  · have hy := hbcy h
    have hcb : c.x - b.x = 0 := by linarith
    rw [hcb, zero_mul] at hid
    have t1 : (p.x - b.x) * cross a b c = 0 := by
      nlinarith [mul_nonneg (sub_nonneg.mpr hab) h2,
        mul_nonneg (by linarith : (0:ℚ) ≤ p.x - b.x) (le_of_lt h1)]
    have hpx : p.x = b.x := by
      rcases mul_eq_zero.mp t1 with h' | h'
      · linarith
      · exact absurd h' (ne_of_gt h1)
    have hpy := hcpy (by linarith)
    unfold cross
    have hgoal : (b.x - a.x) * (p.y - a.y) - (b.y - a.y) * (p.x - a.x)
        = (b.x - a.x) * (p.y - b.y) := by rw [hpx]; ring
    rw [hgoal]
    exact mul_nonneg (sub_nonneg.mpr hab) (by linarith)

theorem crossL2 {a b q p : XY} (h1 : 0 ≤ cross a b q) (h2 : 0 < cross a b p)
    (hab : a.x ≤ b.x) (haby : a.x = b.x → a.y < b.y)
    (hqb : q.x ≤ b.x) (hbp : b.x ≤ p.x) :
    0 ≤ cross q b p := by
  have hid : (b.x - a.x) * cross q b p
      = (p.x - b.x) * cross a b q + (b.x - q.x) * cross a b p := by
    unfold cross; ring
  rcases lt_or_eq_of_le hab with h | h
  · have h0 : 0 ≤ (b.x - a.x) * cross q b p := by
      nlinarith [mul_nonneg (by linarith : (0:ℚ) ≤ p.x - b.x) h1,
        mul_nonneg (by linarith : (0:ℚ) ≤ b.x - q.x) (le_of_lt h2)]
    exact (mul_nonneg_iff_of_pos_left (by linarith)).mp h0
  · exfalso
    have hy := haby h
    unfold cross at h2
    have hexp : (b.x - a.x) * (p.y - a.y) - (b.y - a.y) * (p.x - a.x)
        = -((b.y - a.y) * (p.x - a.x)) := by rw [show b.x = a.x from h.symm]; ring
    rw [hexp] at h2
    nlinarith [mul_nonneg (by linarith : (0:ℚ) ≤ b.y - a.y)
      (by linarith : (0:ℚ) ≤ p.x - a.x)]

theorem crossL3 {a c p q : XY} (h1 : cross a c p ≤ 0) (h2 : 0 ≤ cross a c q)
    (hac : a.x ≤ c.x) (hacy : a.x = c.x → a.y < c.y)
    (haq : a.x ≤ q.x) (haqy : a.x = q.x → a.y ≤ q.y)
    (hqp : q.x ≤ p.x) (hap : a.x ≤ p.x) :
    0 ≤ cross a p q := by
  have hid : (c.x - a.x) * cross a p q
      = (p.x - a.x) * cross a c q - (q.x - a.x) * cross a c p := by
    unfold cross; ring
  rcases lt_or_eq_of_le hac with h | h
  · have h0 : 0 ≤ (c.x - a.x) * cross a p q := by
      nlinarith [mul_nonneg (by linarith : (0:ℚ) ≤ p.x - a.x) h2,
        mul_nonneg (by linarith : (0:ℚ) ≤ q.x - a.x) (by linarith : (0:ℚ) ≤ -cross a c p)]
    exact (mul_nonneg_iff_of_pos_left (by linarith)).mp h0
  · have hy := hacy h
    have hca : c.x - a.x = 0 := by linarith
    rw [hca, zero_mul] at hid
    rcases lt_or_eq_of_le hap with hp | hp
    · have t1 : (p.x - a.x) * cross a c q = 0 := by
        nlinarith [mul_nonneg (by linarith : (0:ℚ) ≤ p.x - a.x) h2,
          mul_nonneg (by linarith : (0:ℚ) ≤ q.x - a.x) (by linarith : (0:ℚ) ≤ -cross a c p)]
      have t2 : cross a c q = 0 := by
        rcases mul_eq_zero.mp t1 with h' | h'
        · exact absurd h' (by linarith)
        · exact h'
      have hqx : q.x = a.x := by
        unfold cross at t2
        have hz : (c.x - a.x) * (q.y - a.y) = 0 := by rw [hca]; ring
        have ht : (c.y - a.y) * (q.x - a.x) = 0 := by linarith
        rcases mul_eq_zero.mp ht with h' | h'
        · exact absurd h' (by linarith)
        · linarith
      have hqy := haqy hqx.symm
      unfold cross
      have hgoal : (p.x - a.x) * (q.y - a.y) - (p.y - a.y) * (q.x - a.x)
          = (p.x - a.x) * (q.y - a.y) := by rw [hqx]; ring
      rw [hgoal]
      exact mul_nonneg (by linarith) (by linarith)
    · have hqx : q.x = a.x := by linarith
      unfold cross
      have hgoal : (p.x - a.x) * (q.y - a.y) - (p.y - a.y) * (q.x - a.x) = 0 := by
        rw [hqx, ← hp]; ring
      rw [hgoal]

theorem lineScale {a b c : XY} (h0 : cross a b c = 0)
    (hext : (lexLtXY a b = true ∧ lexLtXY c b = true)
      ∨ (lexLtXY b a = true ∧ lexLtXY b c = true)) :
    ∃ t : ℚ, t < 0 ∧ c.x - b.x = t * (b.x - a.x) ∧ c.y - b.y = t * (b.y - a.y) := by
  have hcol : (b.x - a.x) * (c.y - b.y) = (b.y - a.y) * (c.x - b.x) := by
    unfold cross at h0; linear_combination h0
  rcases hext with ⟨hab, hcb⟩ | ⟨hba, hbc⟩
  · rw [lexLt_iff] at hab hcb
    rcases hab with hx | ⟨hx, hy⟩
    · have hcx : c.x < b.x := by
        rcases hcb with h' | ⟨h', h''⟩
        · exact h'
        · exfalso
          have : (b.x - a.x) * (c.y - b.y) = 0 := by rw [hcol, h']; ring
          rcases mul_eq_zero.mp this with h3 | h3
          · linarith
          · linarith
      have hne : b.x - a.x ≠ 0 := by linarith
      refine ⟨(c.x - b.x) / (b.x - a.x), ?_, ?_, ?_⟩
      · exact div_neg_of_neg_of_pos (by linarith) (by linarith)
      · exact (div_mul_cancel₀ _ hne).symm
      · rw [div_mul_eq_mul_div, eq_div_iff hne]
        linear_combination hcol
    · have hcx : c.x = b.x := by
        have : (b.y - a.y) * (c.x - b.x) = 0 := by rw [← hcol, hx]; ring
        rcases mul_eq_zero.mp this with h3 | h3
        · exact absurd h3 (by linarith)
        · linarith
      have hcy : c.y < b.y := by
        rcases hcb with h' | ⟨h', h''⟩
        · exact absurd h' (by linarith)
        · exact h''
      have hne : b.y - a.y ≠ 0 := by linarith
      refine ⟨(c.y - b.y) / (b.y - a.y), ?_, ?_, ?_⟩
      · exact div_neg_of_neg_of_pos (by linarith) (by linarith)
      · rw [hcx, hx]; ring
      · exact (div_mul_cancel₀ _ hne).symm
  · rw [lexLt_iff] at hba hbc
    rcases hba with hx | ⟨hx, hy⟩
    · have hcx : b.x < c.x := by
        rcases hbc with h' | ⟨h', h''⟩
        · exact h'
        · exfalso
          have : (b.x - a.x) * (c.y - b.y) = 0 := by rw [hcol, ← h']; ring
          rcases mul_eq_zero.mp this with h3 | h3
          · linarith
          · linarith
      have hne : b.x - a.x ≠ 0 := by
        intro h'; linarith
      refine ⟨(c.x - b.x) / (b.x - a.x), ?_, ?_, ?_⟩
      · exact div_neg_of_pos_of_neg (by linarith) (by linarith)
      · exact (div_mul_cancel₀ _ hne).symm
      · rw [div_mul_eq_mul_div, eq_div_iff hne]
        linear_combination hcol
    · have hcx : c.x = b.x := by
        have : (b.y - a.y) * (c.x - b.x) = 0 := by rw [← hcol, ← hx]; ring
        rcases mul_eq_zero.mp this with h3 | h3
        · exact absurd h3 (by linarith)
        · linarith
      have hcy : b.y < c.y := by
        rcases hbc with h' | ⟨h', h''⟩
        · exact absurd h' (by linarith)
        · exact h''
      have hne : b.y - a.y ≠ 0 := by
        intro h'; linarith
      refine ⟨(c.y - b.y) / (b.y - a.y), ?_, ?_, ?_⟩
      · exact div_neg_of_pos_of_neg (by linarith) (by linarith)
      · rw [hcx, ← hx]; ring
      · exact (div_mul_cancel₀ _ hne).symm

theorem collapseOnLine {a b c q : XY} (h0 : cross a b c = 0)
    (hext : (lexLtXY a b = true ∧ lexLtXY c b = true)
      ∨ (lexLtXY b a = true ∧ lexLtXY b c = true))
    (h1 : 0 ≤ cross a b q) (h2 : 0 ≤ cross b c q) :
    cross a b q = 0 := by
  obtain ⟨t, ht, hx, hy⟩ := lineScale h0 hext
  have key : cross b c q = t * cross a b q := by
    unfold cross
    linear_combination (q.y - b.y) * hx - (q.x - b.x) * hy
  nlinarith

theorem collinearCross {x y p q r : XY}
    (hxy : x.x < y.x ∨ (x.x = y.x ∧ x.y < y.y))
    (h1 : cross x y p = 0) (h2 : cross x y q = 0) (h3 : cross x y r = 0) :
    cross p q r = 0 := by
  have e2 : (y.x - x.x) * (q.y - p.y) - (y.y - x.y) * (q.x - p.x) = 0 := by
    unfold cross at h1 h2; linear_combination h2 - h1
  have e3 : (y.x - x.x) * (r.y - p.y) - (y.y - x.y) * (r.x - p.x) = 0 := by
    unfold cross at h1 h3; linear_combination h3 - h1
  rcases hxy with h | ⟨h, hy⟩
  · have key : (y.x - x.x) * cross p q r
        = (q.x - p.x) * ((y.x - x.x) * (r.y - p.y) - (y.y - x.y) * (r.x - p.x))
          - (r.x - p.x) * ((y.x - x.x) * (q.y - p.y) - (y.y - x.y) * (q.x - p.x)) := by
      unfold cross; ring
    rw [e2, e3] at key
    simp only [mul_zero, sub_zero, zero_sub, neg_zero] at key
    rcases mul_eq_zero.mp key with h' | h'
    · exact absurd h' (by linarith)
    · exact h'
  · have key : (y.y - x.y) * cross p q r
        = (q.y - p.y) * ((y.x - x.x) * (r.y - p.y) - (y.y - x.y) * (r.x - p.x))
          - (r.y - p.y) * ((y.x - x.x) * (q.y - p.y) - (y.y - x.y) * (q.x - p.x)) := by
      unfold cross; ring
    rw [e2, e3] at key
    simp only [mul_zero, sub_zero, zero_sub, neg_zero] at key
    rcases mul_eq_zero.mp key with h' | h'
    · exact absurd h' (by linarith)
    · exact h'

theorem junction_strict {a b c : XY} {S : List XY}
    (hext : (lexLtXY a b = true ∧ lexLtXY c b = true)
      ∨ (lexLtXY b a = true ∧ lexLtXY b c = true))
    (h1 : ∀ q ∈ S, 0 ≤ cross a b q) (h2 : ∀ q ∈ S, 0 ≤ cross b c q)
    (hc : c ∈ S) {p1 p2 p3 : XY} (hp1 : p1 ∈ S) (hp2 : p2 ∈ S) (hp3 : p3 ∈ S)
    (hstrict : 0 < cross p1 p2 p3) :
    0 < cross a b c := by
  rcases lt_or_eq_of_le (h1 c hc) with h | h
  · exact h
  · exfalso
    have hall : ∀ q ∈ S, cross a b q = 0 :=
      fun q hq => collapseOnLine h.symm hext (h1 q hq) (h2 q hq)
    have hzero : cross p1 p2 p3 = 0 := by
      rcases hext with ⟨hab, _⟩ | ⟨hba, _⟩
      · exact collinearCross (lexLt_iff.mp hab) (hall p1 hp1) (hall p2 hp2) (hall p3 hp3)
      · have hall2 : ∀ q ∈ S, cross b a q = 0 := by
          intro q hq
          rw [cross_swap12, hall q hq, neg_zero]
        exact collinearCross (lexLt_iff.mp hba) (hall2 p1 hp1) (hall2 p2 hp2) (hall2 p3 hp3)
    linarith

theorem lexLt_irrefl (a : XY) : lexLtXY a a = false := by
  simp [lexLtXY]

theorem lexLt_asym {a b : XY} (h : lexLtXY a b = true) : lexLtXY b a = false := by
  rw [lexLt_iff] at h
  rw [Bool.eq_false_iff]
  intro h2
  rw [lexLt_iff] at h2
  rcases h with h | ⟨e, h⟩ <;> rcases h2 with h2 | ⟨e2, h2⟩ <;> linarith

theorem lexLt_trans {a b c : XY} (h1 : lexLtXY a b = true) (h2 : lexLtXY b c = true) :
    lexLtXY a c = true := by
  rw [lexLt_iff] at h1 h2 ⊢
  rcases h1 with h1 | ⟨e1, h1⟩ <;> rcases h2 with h2 | ⟨e2, h2⟩
  · left; linarith
  · left; linarith
  · left; linarith
  · right; exact ⟨by linarith, by linarith⟩

theorem lexLt_total (a b : XY) :
    lexLtXY a b = true ∨ a = b ∨ lexLtXY b a = true := by
  rcases lt_trichotomy a.x b.x with h | h | h
  · left; rw [lexLt_iff]; left; exact h
  · rcases lt_trichotomy a.y b.y with h' | h' | h'
    · left; rw [lexLt_iff]; right; exact ⟨h, h'⟩
    · right; left
      cases a; cases b
      simp only at h h'
      simp [h, h']
    · right; right; rw [lexLt_iff]; right; exact ⟨h.symm, h'⟩
  · right; right; rw [lexLt_iff]; left; exact h

theorem lexLt_x_le {a b : XY} (h : lexLtXY a b = true) : a.x ≤ b.x := by
  rw [lexLt_iff] at h
  rcases h with h | ⟨e, _⟩
  · linarith
  · linarith

theorem lexLt_ne {a b : XY} (h : lexLtXY a b = true) : a ≠ b := by
  intro he
  rw [he, lexLt_irrefl] at h
  exact absurd h (by simp)

theorem lexLt_sort_asym : ∀ a b : XY, lexLtXY a b = true → lexLtXY b a = false :=
  fun _ _ h => lexLt_asym h

theorem lexLt_sort_negtrans : ∀ a b c : XY,
    lexLtXY b a = false → lexLtXY c b = false → lexLtXY c a = false := by
  intro a b c h1 h2
  rw [Bool.eq_false_iff]
  intro h3
  rcases lexLt_total a b with h | h | h
  · rcases lexLt_total b c with h' | h' | h'
    · exact absurd (lexLt_trans (lexLt_trans h h') h3) (by simp [lexLt_irrefl])
    · rw [← h'] at h3
      exact absurd (lexLt_trans h h3) (by simp [lexLt_irrefl])
    · exact absurd h' (by simp [h2])
  · rw [h] at h3
    rcases lexLt_total b c with h' | h' | h'
    · exact absurd (lexLt_trans h' h3) (by simp [lexLt_irrefl])
    · rw [← h'] at h3
      exact absurd h3 (by simp [lexLt_irrefl])
    · exact absurd h' (by simp [h2])
  · exact absurd h (by simp [h1])

theorem cross_negXY (a b c : XY) :
    cross (negXY a) (negXY b) (negXY c) = cross a b c := by
  simp [cross, negXY]
  ring

theorem negXY_invol (p : XY) : negXY (negXY p) = p := by
  cases p; simp [negXY]

theorem lexLt_negXY (a b : XY) : lexLtXY (negXY a) (negXY b) = lexLtXY b a := by
  simp only [lexLtXY, negXY]
  rw [decide_eq_decide.mpr (by constructor <;> intro h <;> linarith : (-a.x < -b.x) ↔ (b.x < a.x))]
  rw [decide_eq_decide.mpr (by constructor <;> intro h <;> linarith : (-a.x = -b.x) ↔ (b.x = a.x))]
  rw [decide_eq_decide.mpr (by constructor <;> intro h <;> linarith : (-a.y < -b.y) ↔ (b.y < a.y))]

theorem chainPushAux_map_neg : ∀ (tail : List XY) (b p : XY),
    chainPushAux (negXY p) (negXY b) (tail.map negXY)
      = (chainPushAux p b tail).map negXY
  | [], b, p => rfl
  | a :: rest, b, p => by
      simp only [List.map_cons]
      rw [show chainPushAux (negXY p) (negXY b) (negXY a :: rest.map negXY)
          = if cross (negXY a) (negXY b) (negXY p) ≤ 0
            then chainPushAux (negXY p) (negXY a) (rest.map negXY)
            else negXY p :: negXY b :: negXY a :: rest.map negXY from rfl]
      rw [show chainPushAux p b (a :: rest)
          = if cross a b p ≤ 0 then chainPushAux p a rest
            else p :: b :: a :: rest from rfl]
      rw [cross_negXY]
      split
      · exact chainPushAux_map_neg rest a p
      · simp

theorem chainPush_map_neg (p : XY) (R : List XY) :
    chainPush (negXY p) (R.map negXY) = (chainPush p R).map negXY := by
  cases R with
  | nil => rfl
  | cons b tail =>
      simp only [List.map_cons]
      exact chainPushAux_map_neg tail b p

theorem buildChainRev_map_neg (pts : List XY) :
    buildChainRev (pts.map negXY) = (buildChainRev pts).map negXY := by
  unfold buildChainRev
  rw [List.foldl_map]
  have : ∀ (R : List XY) (l : List XY),
      l.foldl (fun ch p => chainPush (negXY p) ch) (R.map negXY)
        = (l.foldl (fun ch p => chainPush p ch) R).map negXY := by
    intro R l
    induction l generalizing R with
    | nil => rfl
    | cons p rest ih =>
        simp only [List.foldl_cons]
        rw [chainPush_map_neg]
        exact ih (chainPush p R)
  simpa using this [] pts

theorem leftTurnsRev_map_neg : ∀ (l : List XY),
    leftTurnsRev (l.map negXY) = leftTurnsRev l
  | [] => rfl
  | [_] => rfl
  | [_, _] => rfl
  | x :: y :: z :: rest => by
      simp only [List.map_cons]
      rw [show leftTurnsRev (negXY x :: negXY y :: negXY z :: rest.map negXY)
          = (decide (0 < cross (negXY z) (negXY y) (negXY x))
              && leftTurnsRev (negXY y :: negXY z :: rest.map negXY)) from rfl]
      rw [cross_negXY]
      have := leftTurnsRev_map_neg (y :: z :: rest)
      simp only [List.map_cons] at this
      rw [this]
      rfl

theorem chainPushAux_head : ∀ (tail : List XY) (b p : XY),
    (chainPushAux p b tail).head? = some p
  | [], _, _ => rfl
  | a :: rest, b, p => by
      unfold chainPushAux
      split
      · exact chainPushAux_head rest a p
      · rfl

theorem chainPush_head (p : XY) (R : List XY) : (chainPush p R).head? = some p := by
  cases R with
  | nil => rfl
  | cons b tail => exact chainPushAux_head tail b p

theorem chainPushAux_last : ∀ (tail : List XY) (b p : XY),
    (chainPushAux p b tail).getLast? = (b :: tail).getLast?
  | [], _, _ => rfl
  | a :: rest, b, p => by
      unfold chainPushAux
      split
      · rw [chainPushAux_last rest a p]
        rfl
      · rfl

theorem chainPush_last (p : XY) (R : List XY) (h : R ≠ []) :
    (chainPush p R).getLast? = R.getLast? := by
  cases R with
  | nil => exact absurd rfl h
  | cons b tail => exact chainPushAux_last tail b p

theorem chainPush_ne_nil (p : XY) (R : List XY) : chainPush p R ≠ [] := by
  intro h
  have := chainPush_head p R
  rw [h] at this
  exact absurd this (by simp)

theorem buildChainRev_getLast? (u : XY) (us : List XY) :
    (buildChainRev (u :: us)).getLast? = some u := by
  unfold buildChainRev
  simp only [List.foldl_cons]
  rw [show chainPush u [] = [u] from rfl]
  have : ∀ (l : List XY) (R : List XY), R ≠ [] →
      (l.foldl (fun ch p => chainPush p ch) R).getLast? = R.getLast? := by
    intro l
    induction l with
    | nil => intro R _; rfl
    | cons r rest ih =>
        intro R hR
        simp only [List.foldl_cons]
        rw [ih (chainPush r R) (chainPush_ne_nil r R), chainPush_last r R hR]
  rw [this us [u] (by simp)]
  rfl

theorem buildChainRev_head? : ∀ (l : List XY), l ≠ [] →
    (buildChainRev l).head? = l.getLast? := by
  have key : ∀ (us : List XY) (R : List XY), us ≠ [] →
      (us.foldl (fun ch p => chainPush p ch) R).head? = us.getLast? := by
    intro us
    induction us with
    | nil => intro R h; exact absurd rfl h
    | cons r rest ih =>
        intro R _
        simp only [List.foldl_cons]
        cases hr : rest with
        | nil => simp [chainPush_head]
        | cons r' rest' =>
            rw [← hr]
            rw [ih (chainPush r R) (by rw [hr]; simp)]
            rw [hr]
            rfl
  intro l hl
  exact key l [] hl

theorem buildChainRev_ne_nil (u : XY) (us : List XY) :
    buildChainRev (u :: us) ≠ [] := by
  intro h
  have := buildChainRev_getLast? u us
  rw [h] at this
  exact absurd this (by simp)

theorem chainEdges_top {p : XY} :
    ∀ (t : List XY) (x y : XY),
    List.Chain' (fun u v => lexLtXY v u = true) (x :: y :: t) →
    leftTurnsRev (x :: y :: t) = true →
    (∀ v ∈ x :: y :: t, lexLtXY v p = true) →
    0 ≤ cross y x p →
    List.Chain' (fun u v => 0 ≤ cross v u p) (x :: y :: t)
  | [], x, y, _, _, _, htop => List.chain'_pair.mpr htop
  | z :: t', x, y, hdecr, hturn, hmem, htop => by
      rw [List.chain'_cons]
      refine ⟨htop, ?_⟩
      have hdecr2 := (List.chain'_cons.mp hdecr).2
      have hyx := (List.chain'_cons.mp hdecr).1
      have hzy := (List.chain'_cons.mp hdecr2).1
      have hturn1 : 0 < cross z y x := by
        have : leftTurnsRev (x :: y :: z :: t')
            = (decide (0 < cross z y x) && leftTurnsRev (y :: z :: t')) := rfl
        rw [this, Bool.and_eq_true, decide_eq_true_eq] at hturn
        exact hturn.1
      have hturn2 : leftTurnsRev (y :: z :: t') = true := by
        have : leftTurnsRev (x :: y :: z :: t')
            = (decide (0 < cross z y x) && leftTurnsRev (y :: z :: t')) := rfl
        rw [this, Bool.and_eq_true] at hturn
        exact hturn.2
      have hxp := hmem x (by simp)
      have htop2 : 0 ≤ cross z y p := by
        refine crossL1 hturn1 htop (lexLt_x_le hzy) (lexLt_x_le hyx) ?_ (lexLt_x_le hxp) ?_
        · intro he
          rcases lexLt_iff.mp hyx with h | ⟨e, h⟩
          · exact absurd he (by linarith)
          · exact h
        · intro he
          rcases lexLt_iff.mp hxp with h | ⟨e, h⟩
          · exact absurd he (by linarith)
          · exact h
      exact chainEdges_top t' y z hdecr2 hturn2
        (fun v hv => hmem v (List.mem_cons_of_mem x hv)) htop2

theorem scanInv_aux {P : List XY} {p : XY} (hp : ∀ q ∈ P, lexLtXY q p = true) :
    ∀ (tail : List XY) (b : XY),
    (∀ x ∈ b :: tail, x ∈ P) →
    List.Chain' (fun x y => lexLtXY y x = true) (b :: tail) →
    leftTurnsRev (b :: tail) = true →
    (∀ q ∈ P, List.Chain' (fun x y => 0 ≤ cross y x q) (b :: tail)) →
    (∀ q ∈ P, ∀ bt ∈ (b :: tail).getLast?, lexLtXY bt q = true ∨ bt = q) →
    ((∀ q ∈ P, lexLtXY q b = true ∨ q = b) ∨
      (∃ c, cross b c p ≤ 0 ∧ (∀ q ∈ P, 0 ≤ cross b c q) ∧ lexLtXY b c = true)) →
    ScanInv (P ++ [p]) (chainPushAux p b tail)
  | [], b, hmem, _, _, _, hbot, hctx => by
      have hb : b ∈ P := hmem b (by simp)
      have hbp := hp b hb
      rw [show chainPushAux p b [] = [p, b] from rfl]
      refine ⟨by simp, ?_, ?_, rfl, ?_, ?_, ?_⟩
      · intro x hx
        rcases List.mem_cons.mp hx with rfl | hx
        · simp
        · simp only [List.mem_singleton] at hx
          subst hx
          exact List.mem_append_left _ hb
      · exact List.chain'_pair.mpr hbp
      · intro q hq
        rw [List.chain'_pair]
        rcases List.mem_append.mp hq with hq | hq
        · rcases hctx with hctx | ⟨c, hc1, hc2, hc3⟩
          · have h1 := hctx q hq
            have h2 := hbot q hq b (by rfl)
            have : q = b := by
              rcases h1 with h1 | h1
              · rcases h2 with h2 | h2
                · exact absurd h1 (by simp [lexLt_asym h2])
                · exact h2.symm
              · exact h1
            rw [this]
            rw [show cross b p b = 0 from cross_left_self b p]
          · have hbq : lexLtXY b q = true ∨ b = q := hbot q hq b (by rfl)
            refine crossL3 hc1 (hc2 q hq) (lexLt_x_le hc3) ?_ ?_ ?_
              (lexLt_x_le (hp q hq)) (lexLt_x_le hbp)
            · intro he
              rcases lexLt_iff.mp hc3 with h | ⟨e, h⟩
              · exact absurd he (by linarith)
              · exact h
            · rcases hbq with h | h
              · exact lexLt_x_le h
              · rw [h]
            · intro he
              rcases hbq with h | h
              · rcases lexLt_iff.mp h with h' | ⟨e', h'⟩
                · exact absurd he (by linarith)
                · exact le_of_lt h'
              · rw [h]
        · simp only [List.mem_singleton] at hq
          subst hq
          rw [show cross b q q = 0 from cross_right_self b q]
      · intro q hq t ht
        simp only [List.head?_cons, Option.mem_def, Option.some.injEq] at ht
        subst ht
        rcases List.mem_append.mp hq with hq | hq
        · exact Or.inl (hp q hq)
        · simp only [List.mem_singleton] at hq
          exact Or.inr hq
      · intro q hq bt hbt
        simp only [List.getLast?_cons_cons, List.getLast?_singleton,
          Option.mem_def, Option.some.injEq] at hbt
        subst hbt
        rcases List.mem_append.mp hq with hq | hq
        · exact hbot q hq b (by rfl)
        · simp only [List.mem_singleton] at hq
          subst hq
          exact Or.inl (hp b (hmem b (by simp)))
  | a :: rest, b, hmem, hdecr, hturn, hedges, hbot, hctx => by
      rw [show chainPushAux p b (a :: rest)
          = if cross a b p ≤ 0 then chainPushAux p a rest
            else p :: b :: a :: rest from rfl]
      split
      · rename_i hcond
        refine scanInv_aux hp rest a
          (fun x hx => hmem x (List.mem_cons_of_mem b hx))
          (List.chain'_cons.mp hdecr).2
          (leftTurnsRev_tail hturn)
          (fun q hq => ((hedges q hq).tail : _))
          ?_
          (Or.inr ⟨b, hcond, fun q hq => (List.chain'_cons.mp (hedges q hq)).1,
            (List.chain'_cons.mp hdecr).1⟩)
        · intro q hq bt hbt
          exact hbot q hq bt (by rw [List.getLast?_cons_cons]; exact hbt)
      · rename_i hcond
        have hcond' : 0 < cross a b p := lt_of_not_le hcond
        have hb : b ∈ P := hmem b (by simp)
        have hbp := hp b hb
        have hab := (List.chain'_cons.mp hdecr).1
        refine ⟨by simp, ?_, ?_, ?_, ?_, ?_, ?_⟩
        · intro x hx
          rcases List.mem_cons.mp hx with rfl | hx
          · simp
          · exact List.mem_append_left _ (hmem x hx)
        · rw [List.chain'_cons]
          exact ⟨hbp, hdecr⟩
        · rw [show leftTurnsRev (p :: b :: a :: rest)
              = (decide (0 < cross a b p) && leftTurnsRev (b :: a :: rest)) from rfl]
          rw [Bool.and_eq_true, decide_eq_true_eq]
          exact ⟨hcond', hturn⟩
        · intro q hq
          rw [List.chain'_cons]
          rcases List.mem_append.mp hq with hq | hq
          · constructor
            · rcases lexLt_total q b with h | h | h
              · have h1 := (List.chain'_cons.mp (hedges q hq)).1
                have := crossL2 h1 hcond' (lexLt_x_le hab) ?_ (lexLt_x_le h)
                  (lexLt_x_le hbp)
                · rw [show cross b p q = cross q b p by
                    rw [cross_rotate q b p]]
                  exact this
                · intro he
                  rcases lexLt_iff.mp hab with h' | ⟨e', h'⟩
                  · exact absurd he (by linarith)
                  · exact h'
              · rw [h]
                rw [show cross b p b = 0 from cross_left_self b p]
              · rcases hctx with hctx | ⟨c, hc1, hc2, hc3⟩
                · rcases hctx q hq with h' | h'
                  · exact absurd h (by simp [lexLt_asym h'])
                  · rw [h'] at h
                    exact absurd h (by simp [lexLt_irrefl])
                · refine crossL3 hc1 (hc2 q hq) (lexLt_x_le hc3) ?_
                    (lexLt_x_le h) (fun he => le_of_lt ?_)
                    (lexLt_x_le (hp q hq)) (lexLt_x_le hbp)
                  · intro he
                    rcases lexLt_iff.mp hc3 with h' | ⟨e', h'⟩
                    · exact absurd he (by linarith)
                    · exact h'
                  · rcases lexLt_iff.mp h with h' | ⟨e', h'⟩
                    · exact absurd he (by linarith)
                    · exact h'
            · exact hedges q hq
          · simp only [List.mem_singleton] at hq
            subst hq
            constructor
            · rw [show cross b q q = 0 from cross_right_self b q]
            · refine chainEdges_top rest b a hdecr hturn ?_ (le_of_lt hcond')
              intro v hv
              exact hp v (hmem v hv)
        · intro q hq t ht
          simp only [List.head?_cons, Option.mem_def, Option.some.injEq] at ht
          subst ht
          rcases List.mem_append.mp hq with hq | hq
          · exact Or.inl (hp q hq)
          · simp only [List.mem_singleton] at hq
            exact Or.inr hq
        · intro q hq bt hbt
          rw [List.getLast?_cons_cons] at hbt
          rcases List.mem_append.mp hq with hq | hq
          · exact hbot q hq bt hbt
          · simp only [List.mem_singleton] at hq
            subst hq
            have hbtmem : bt ∈ b :: a :: rest := by
              have := List.mem_of_mem_getLast? hbt
              exact this
            exact Or.inl (hp bt (hmem bt hbtmem))

theorem scanInv_push {P R : List XY} {p : XY} (h : ScanInv P R)
    (hp : ∀ q ∈ P, lexLtXY q p = true) :
    ScanInv (P ++ [p]) (chainPush p R) := by
  obtain ⟨hne, hmem, hdecr, hturn, hedges, htop, hbot⟩ := h
  cases R with
  | nil => exact absurd rfl hne
  | cons b tail =>
      rw [show chainPush p (b :: tail) = chainPushAux p b tail from rfl]
      exact scanInv_aux hp tail b hmem hdecr hturn hedges hbot
        (Or.inl (fun q hq => htop q hq b (by rfl)))

theorem scanInv_fold : ∀ (rest P : List XY) (R : List XY),
    List.Pairwise (fun a b => lexLtXY a b = true) (P ++ rest) →
    ScanInv P R →
    ScanInv (P ++ rest) (rest.foldl (fun c q => chainPush q c) R)
  | [], P, R, _, h => by simpa using h
  | r :: rest', P, R, hs, h => by
      have hp : ∀ q ∈ P, lexLtXY q r = true := by
        intro q hq
        exact (List.pairwise_append.mp hs).2.2 q hq r (by simp)
      have h2 := scanInv_push h hp
      have hs' : List.Pairwise (fun a b => lexLtXY a b = true) ((P ++ [r]) ++ rest') := by
        rw [List.append_assoc]
        simpa using hs
      have h3 := scanInv_fold rest' (P ++ [r]) (chainPush r R) hs' h2
      rw [List.append_assoc] at h3
      simpa using h3

theorem scanInv_buildChainRev {l : List XY}
    (hs : List.Pairwise (fun a b => lexLtXY a b = true) l) (hne : l ≠ []) :
    ScanInv l (buildChainRev l) := by
  cases l with
  | nil => exact absurd rfl hne
  | cons u us =>
      have h0 : ScanInv [u] [u] := by
        refine ⟨by simp, by simp, List.chain'_singleton u, rfl, ?_, ?_, ?_⟩
        · intro q _
          exact List.chain'_singleton u
        · intro q hq t ht
          simp only [List.mem_singleton] at hq
          simp only [List.head?_cons, Option.mem_def, Option.some.injEq] at ht
          subst hq; subst ht
          exact Or.inr rfl
        · intro q hq bt hbt
          simp only [List.mem_singleton] at hq
          simp only [List.getLast?_singleton, Option.mem_def, Option.some.injEq] at hbt
          subst hq; subst hbt
          exact Or.inr rfl
      have := scanInv_fold us [u] [u] (by simpa using hs) h0
      have heq : buildChainRev (u :: us)
          = us.foldl (fun c q => chainPush q c) [u] := by
        unfold buildChainRev
        simp only [List.foldl_cons]
        rfl
      rw [heq]
      simpa using this

theorem dedupAdjAux_sorted : ∀ (l : List XY) (prev : XY),
    List.Pairwise (fun a b => lexLtXY b a = false) l →
    (∀ x ∈ l, lexLtXY x prev = false) →
    List.Pairwise (fun a b => lexLtXY a b = true) (prev :: dedupAdjAux prev l)
  | [], prev, _, _ => by simp [dedupAdjAux]
  | b :: rest, prev, hpw, hup => by
      unfold dedupAdjAux
      split
      · rename_i hb
        subst hb
        exact dedupAdjAux_sorted rest b (List.pairwise_cons.mp hpw).2
          (fun x hx => (List.pairwise_cons.mp hpw).1 x hx)
      · rename_i hb
        have hpb : lexLtXY prev b = true := by
          rcases lexLt_total prev b with h | h | h
          · exact h
          · exact absurd h.symm hb
          · exact absurd h (Bool.eq_false_iff.mp (hup b (by simp)))
        have ih := dedupAdjAux_sorted rest b (List.pairwise_cons.mp hpw).2
          (fun x hx => (List.pairwise_cons.mp hpw).1 x hx)
        rw [List.pairwise_cons]
        refine ⟨?_, ih⟩
        intro x hx
        rcases List.mem_cons.mp hx with rfl | hx
        · exact hpb
        · exact lexLt_trans hpb ((List.pairwise_cons.mp ih).1 x hx)

theorem dedupAdj_sorted {l : List XY}
    (h : List.Pairwise (fun a b => lexLtXY b a = false) l) :
    List.Pairwise (fun a b => lexLtXY a b = true) (dedupAdj l) := by
  cases l with
  | nil => simp [dedupAdj]
  | cons a rest =>
      unfold dedupAdj
      exact dedupAdjAux_sorted rest a (List.pairwise_cons.mp h).2
        (fun x hx => (List.pairwise_cons.mp h).1 x hx)

theorem unique_sorted (points : List XY) :
    List.Pairwise (fun a b => lexLtXY a b = true)
      (dedupAdj (sortWith lexLtXY points)) :=
  dedupAdj_sorted (sortWith_pairwise lexLt_sort_asym lexLt_sort_negtrans points)

theorem tail_reverse_eq {α : Type} : ∀ (l : List α), l.tail.reverse = l.reverse.dropLast
  | [] => rfl
  | x :: xs => by simp [List.reverse_cons, List.dropLast_concat]

theorem two_le_length_of_ne {α : Type} {l : List α} {h t : α}
    (hh : l.head? = some h) (ht : l.getLast? = some t) (hne : h ≠ t) :
    2 ≤ l.length := by
  cases l with
  | nil => simp at hh
  | cons x xs =>
      cases xs with
      | nil =>
          simp at hh ht
          rw [← hh, ← ht] at hne
          exact absurd rfl hne
      | cons y ys => simp

theorem exists_concat_two {α : Type} {l : List α} (h : 2 ≤ l.length) :
    ∃ (l₀ : List α) (x y : α), l = l₀ ++ [x, y] := by
  have hr : 2 ≤ l.reverse.length := by simpa using h
  match hrev : l.reverse, hr with
  | a :: b :: t, _ =>
      refine ⟨t.reverse, b, a, ?_⟩
      rw [← List.reverse_reverse l, hrev]
      simp

theorem chain'_concat_pair {α : Type} {R : α → α → Prop} {A : List α} {x y : α}
    (h : List.Chain' R (A ++ [x, y])) : R x y := by
  have h' : List.Chain' R ((A ++ [x]) ++ [y]) := by simpa using h
  exact (List.chain'_append.mp h').2.2 x (by simp) y rfl

theorem chain'_and_forall {α β : Type} {P : α → α → Prop} {Q : β → α → α → Prop}
    {S : List β} {l : List α} (hP : List.Chain' P l)
    (hQ : ∀ q ∈ S, List.Chain' (Q q) l) :
    List.Chain' (fun a b => P a b ∧ ∀ q ∈ S, Q q a b) l := by
  rw [List.chain'_iff_get]
  intro i hi
  exact ⟨List.chain'_iff_get.mp hP i hi,
    fun q hq => List.chain'_iff_get.mp (hQ q hq) i hi⟩

theorem dropLast_append_eq {α : Type} {l₁ l₂ : List α} {m : α}
    (h1 : l₁.getLast? = some m) (h2 : l₂.head? = some m) :
    l₁.dropLast ++ l₂ = l₁ ++ l₂.tail := by
  cases l₂ with
  | nil => simp at h2
  | cons hd t =>
      simp only [List.head?_cons, Option.some.injEq] at h2
      subst h2
      rw [show l₁.dropLast ++ hd :: t = (l₁.dropLast ++ [hd]) ++ t by simp]
      rw [List.dropLast_append_getLast? hd h1]
      rfl

theorem lowerChain_facts {u : List XY}
    (hs : List.Pairwise (fun a b => lexLtXY a b = true) u) (hne : u ≠ []) :
    (∀ x ∈ (buildChainRev u).reverse, x ∈ u)
    ∧ List.Chain' (fun a b => lexLtXY a b = true) (buildChainRev u).reverse
    ∧ leftTurns (buildChainRev u).reverse = true
    ∧ (∀ q ∈ u, List.Chain' (fun a b => 0 ≤ cross a b q) (buildChainRev u).reverse)
    ∧ (buildChainRev u).reverse.head? = u.head?
    ∧ (buildChainRev u).reverse.getLast? = u.getLast? := by
  obtain ⟨hne', hmem, hdecr, hturn, hedges, htop, hbot⟩ := scanInv_buildChainRev hs hne
  refine ⟨?_, ?_, ?_, ?_, ?_, ?_⟩
  · intro x hx
    exact hmem x (List.mem_reverse.mp hx)
  · exact List.chain'_reverse.mpr hdecr
  · rw [← leftTurnsRev_eq]
    exact hturn
  · intro q hq
    exact List.chain'_reverse.mpr (hedges q hq)
  · rw [List.head?_reverse]
    obtain ⟨u0, us, rfl⟩ := List.exists_cons_of_ne_nil hne
    rw [buildChainRev_getLast?]
    rfl
  · rw [List.getLast?_reverse]
    exact buildChainRev_head? u hne

theorem upperChain_facts {u : List XY}
    (hs : List.Pairwise (fun a b => lexLtXY a b = true) u) (hne : u ≠ []) :
    (∀ x ∈ (buildChainRev u.reverse).reverse, x ∈ u)
    ∧ List.Chain' (fun a b => lexLtXY b a = true) (buildChainRev u.reverse).reverse
    ∧ leftTurns (buildChainRev u.reverse).reverse = true
    ∧ (∀ q ∈ u, List.Chain' (fun a b => 0 ≤ cross a b q) (buildChainRev u.reverse).reverse)
    ∧ (buildChainRev u.reverse).reverse.head? = u.getLast?
    ∧ (buildChainRev u.reverse).reverse.getLast? = u.head? := by
  have hsM : List.Pairwise (fun a b => lexLtXY a b = true) (u.reverse.map negXY) := by
    rw [List.pairwise_map]
    rw [show (fun a b : XY => lexLtXY (negXY a) (negXY b) = true)
        = (fun a b : XY => lexLtXY b a = true) by
      funext a b; rw [lexLt_negXY]]
    rw [List.pairwise_reverse]
    exact hs
  have hneM : u.reverse.map negXY ≠ [] := by simp [hne]
  obtain ⟨hne', hmemM, hdecrM, hturnM, hedgesM, _, _⟩ := scanInv_buildChainRev hsM hneM
  have hUR : buildChainRev u.reverse = (buildChainRev (u.reverse.map negXY)).map negXY := by
    rw [← buildChainRev_map_neg, List.map_map]
    rw [show negXY ∘ negXY = id by funext z; simp [negXY_invol]]
    rw [List.map_id]
  refine ⟨?_, ?_, ?_, ?_, ?_, ?_⟩
  · intro x hx
    rw [List.mem_reverse, hUR, List.mem_map] at hx
    obtain ⟨y, hy, rfl⟩ := hx
    have hy2 := hmemM y hy
    rw [List.mem_map] at hy2
    obtain ⟨z, hz, rfl⟩ := hy2
    rw [negXY_invol]
    exact List.mem_reverse.mp hz
  · have hchainUR : List.Chain' (fun a b => lexLtXY a b = true) (buildChainRev u.reverse) := by
      rw [hUR, List.chain'_map]
      rw [show (fun a b : XY => lexLtXY (negXY a) (negXY b) = true)
          = (fun a b : XY => lexLtXY b a = true) by
        funext a b; rw [lexLt_negXY]]
      exact hdecrM
    exact List.chain'_reverse.mpr hchainUR
  · rw [← leftTurnsRev_eq, hUR, leftTurnsRev_map_neg]
    exact hturnM
  · intro q hq
    have hq' : negXY q ∈ u.reverse.map negXY :=
      List.mem_map.mpr ⟨q, List.mem_reverse.mpr hq, rfl⟩
    have hchainUR : List.Chain' (fun a b => 0 ≤ cross b a q) (buildChainRev u.reverse) := by
      rw [hUR, List.chain'_map]
      rw [show (fun a b : XY => 0 ≤ cross (negXY b) (negXY a) q)
          = (fun a b : XY => 0 ≤ cross b a (negXY q)) by
        funext a b
        rw [show cross (negXY b) (negXY a) q = cross b a (negXY q) by
          rw [← cross_negXY b a (negXY q), negXY_invol]]]
      exact hedgesM (negXY q) hq'
    exact List.chain'_reverse.mpr hchainUR
  · rw [List.head?_reverse]
    obtain ⟨w, t, hur⟩ := List.exists_cons_of_ne_nil (show u.reverse ≠ [] by simp [hne])
    rw [hur, buildChainRev_getLast?, ← List.head?_reverse u, hur]
    rfl
  · rw [List.getLast?_reverse]
    rw [buildChainRev_head? u.reverse (by simp [hne])]
    rw [List.getLast?_reverse]

theorem exists_cons_cons {α : Type} {l : List α} (h : 2 ≤ l.length) :
    ∃ x y t, l = x :: y :: t := by
  cases l with
  | nil => simp at h
  | cons x xs =>
      cases xs with
      | nil => simp at h
      | cons y ys => exact ⟨x, y, ys, rfl⟩

theorem strict_triple_of_chain {u l : List XY} (h3 : 3 ≤ l.length)
    (hturn : leftTurns l = true) (hmem : ∀ x ∈ l, x ∈ u) :
    ∃ p1 p2 p3, p1 ∈ u ∧ p2 ∈ u ∧ p3 ∈ u ∧ 0 < cross p1 p2 p3 := by
  obtain ⟨p1, xs, rfl⟩ := List.exists_cons_of_ne_nil (show l ≠ [] by intro h; simp [h] at h3)
  obtain ⟨p2, ys, rfl⟩ := List.exists_cons_of_ne_nil
    (show xs ≠ [] by intro h; simp [h] at h3)
  obtain ⟨p3, zs, rfl⟩ := List.exists_cons_of_ne_nil
    (show ys ≠ [] by intro h; simp [h] at h3)
  rw [show leftTurns (p1 :: p2 :: p3 :: zs)
      = (decide (0 < cross p1 p2 p3) && leftTurns (p2 :: p3 :: zs)) from rfl,
    Bool.and_eq_true, decide_eq_true_eq] at hturn
  exact ⟨p1, p2, p3, hmem p1 (by simp), hmem p2 (by simp), hmem p3 (by simp), hturn.1⟩


theorem leftTurns_tail {w : XY} {l : List XY} (h : leftTurns (w :: l) = true) :
    leftTurns l = true := by
  match l with
  | [] => rfl
  | [x] => rfl
  | x :: y :: t =>
      rw [show leftTurns (w :: x :: y :: t)
          = (decide (0 < cross w x y) && leftTurns (x :: y :: t)) from rfl,
        Bool.and_eq_true] at h
      exact h.2

theorem leftTurns_append (A C : List XY) (x y : XY) :
    leftTurns (A ++ [x, y]) = true → leftTurns ([x, y] ++ C) = true →
    leftTurns (A ++ ([x, y] ++ C)) = true := by
  induction A with
  | nil =>
      intro _ h2
      simpa using h2
  | cons a A' ih =>
      intro h1 h2
      have h1' : leftTurns (A' ++ [x, y]) = true := leftTurns_tail h1
      have htail := ih h1' h2
      cases A' with
      | nil =>
          rw [show (a :: []) ++ ([x, y] ++ C) = a :: x :: y :: C by simp]
          rw [show leftTurns (a :: x :: y :: C)
              = (decide (0 < cross a x y) && leftTurns (x :: y :: C)) from rfl,
            Bool.and_eq_true]
          refine ⟨?_, by simpa using h2⟩
          rw [show ((a :: []) ++ [x, y]) = [a, x, y] by rfl] at h1
          rw [show leftTurns [a, x, y]
              = (decide (0 < cross a x y) && leftTurns [x, y]) from rfl,
            Bool.and_eq_true] at h1
          exact h1.1
      | cons b A2 =>
          cases A2 with
          | nil =>
              rw [show (a :: b :: []) ++ ([x, y] ++ C) = a :: b :: x :: y :: C by simp]
              rw [show leftTurns (a :: b :: x :: y :: C)
                  = (decide (0 < cross a b x) && leftTurns (b :: x :: y :: C)) from rfl,
                Bool.and_eq_true]
              refine ⟨?_, by simpa using htail⟩
              rw [show ((a :: b :: []) ++ [x, y]) = [a, b, x, y] by rfl] at h1
              rw [show leftTurns [a, b, x, y]
                  = (decide (0 < cross a b x) && leftTurns [b, x, y]) from rfl,
                Bool.and_eq_true] at h1
              exact h1.1
          | cons c A3 =>
              rw [show (a :: b :: c :: A3) ++ ([x, y] ++ C)
                  = a :: b :: c :: (A3 ++ ([x, y] ++ C)) by simp]
              rw [show leftTurns (a :: b :: c :: (A3 ++ ([x, y] ++ C)))
                  = (decide (0 < cross a b c)
                      && leftTurns (b :: c :: (A3 ++ ([x, y] ++ C)))) from rfl,
                Bool.and_eq_true]
              constructor
              · rw [show ((a :: b :: c :: A3) ++ [x, y])
                    = a :: b :: c :: (A3 ++ [x, y]) by simp] at h1
                rw [show leftTurns (a :: b :: c :: (A3 ++ [x, y]))
                    = (decide (0 < cross a b c)
                        && leftTurns (b :: c :: (A3 ++ [x, y]))) from rfl,
                  Bool.and_eq_true] at h1
                exact h1.1
              · have : (b :: c :: A3) ++ ([x, y] ++ C)
                    = b :: c :: (A3 ++ ([x, y] ++ C)) := by simp
                rw [← this]
                exact htail

theorem chains_hull_props {u : List XY}
    (hs : List.Pairwise (fun a b => lexLtXY a b = true) u)
    (h3 : 3 ≤ u.length) :
    (3 ≤ ((buildChainRev u).tail.reverse ++ (buildChainRev u.reverse).tail.reverse).length →
      leftTurns (((buildChainRev u).tail.reverse ++ (buildChainRev u.reverse).tail.reverse)
        ++ ((buildChainRev u).tail.reverse
            ++ (buildChainRev u.reverse).tail.reverse).take 2) = true)
    ∧ (∀ q ∈ u, List.Chain' (fun a b => 0 ≤ cross a b q)
        (((buildChainRev u).tail.reverse ++ (buildChainRev u.reverse).tail.reverse)
          ++ ((buildChainRev u).tail.reverse
              ++ (buildChainRev u.reverse).tail.reverse).take 1))
    ∧ (∀ i, i < ((buildChainRev u).tail.reverse
          ++ (buildChainRev u.reverse).tail.reverse).length →
        ∃ a b : XY, a ≠ b
          ∧ cross a b (((buildChainRev u).tail.reverse
              ++ (buildChainRev u.reverse).tail.reverse).getD i ⟨0, 0⟩) = 0
          ∧ ∀ q ∈ u, 0 ≤ cross a b q) := by
  have hne : u ≠ [] := by intro h; simp [h] at h3
  obtain ⟨membL, incrL, turnsL, edgesL, headL, lastL⟩ := lowerChain_facts hs hne
  obtain ⟨membU, decrU, turnsU, edgesU, headU, lastU⟩ := upperChain_facts hs hne
  set L := (buildChainRev u).reverse with hLdef
  set Uf := (buildChainRev u.reverse).reverse with hUdef
  have hHL : (buildChainRev u).tail.reverse = L.dropLast := by
    rw [hLdef]; exact tail_reverse_eq _
  have hHU : (buildChainRev u.reverse).tail.reverse = Uf.dropLast := by
    rw [hUdef]; exact tail_reverse_eq _
  rw [hHL, hHU]
  -- endpoints of u
  obtain ⟨u0, urest, rfl⟩ := List.exists_cons_of_ne_nil hne
  have hurest : urest ≠ [] := by
    intro h; rw [h] at h3; simp at h3
  obtain ⟨ulast, hulast⟩ : ∃ w, (u0 :: urest).getLast? = some w :=
    ⟨(u0 :: urest).getLast (by simp), List.getLast?_eq_getLast _ _⟩
  have hul_mem : ulast ∈ urest := by
    have h1 : (u0 :: urest).getLast? = urest.getLast? := by
      obtain ⟨r, rs, rfl⟩ := List.exists_cons_of_ne_nil hurest
      rw [List.getLast?_cons_cons]
    rw [h1] at hulast
    exact List.mem_of_mem_getLast? (by rw [hulast]; rfl)
  have hends : lexLtXY u0 ulast = true :=
    (List.pairwise_cons.mp hs).1 ulast hul_mem
  have hne_ends : u0 ≠ ulast := lexLt_ne hends
  -- chain endpoint equations
  have headL' : L.head? = some u0 := by rw [headL]; rfl
  have lastL' : L.getLast? = some ulast := by rw [lastL]; exact hulast
  have headU' : Uf.head? = some ulast := by rw [headU]; exact hulast
  have lastU' : Uf.getLast? = some u0 := by rw [lastU]; rfl
  have hlenL : 2 ≤ L.length := two_le_length_of_ne headL' lastL' hne_ends
  have hlenU : 2 ≤ Uf.length := two_le_length_of_ne headU' lastU' (Ne.symm hne_ends)
  -- front shapes
  obtain ⟨l0, l1, Lt, hLshape⟩ := exists_cons_cons hlenL
  have hl0 : l0 = u0 := by
    rw [hLshape] at headL'; simpa using headL'
  obtain ⟨v0, v1, Ut, hUshape⟩ := exists_cons_cons hlenU
  have hv0 : v0 = ulast := by
    rw [hUshape] at headU'; simpa using headU'
  -- back shapes
  obtain ⟨L0, lx, ly, hLback⟩ := exists_concat_two hlenL
  have hly : ly = ulast := by
    have h := lastL'
    rw [hLback, show L0 ++ [lx, ly] = (L0 ++ [lx]) ++ [ly] by simp,
      List.getLast?_concat] at h
    simpa using h
  obtain ⟨U0, uw, uz, hUback⟩ := exists_concat_two hlenU
  have huz : uz = u0 := by
    have h := lastU'
    rw [hUback, show U0 ++ [uw, uz] = (U0 ++ [uw]) ++ [uz] by simp,
      List.getLast?_concat] at h
    simpa using h
  -- core list equalities
  have hUfrestore : Uf.dropLast ++ [u0] = Uf :=
    List.dropLast_append_getLast? u0 lastU'
  have hHhead : L.dropLast = l0 :: (l1 :: Lt).dropLast := by
    rw [hLshape]; rfl
  have hE0 : (L.dropLast ++ Uf.dropLast) ++ [l0] = L.dropLast ++ Uf := by
    rw [List.append_assoc, hl0, hUfrestore]
  have hglue : L.dropLast ++ Uf = L ++ Uf.tail := by
    refine dropLast_append_eq lastL' headU'
  -- edge pair extractions
  have hpairL_last : ∀ q ∈ u0 :: urest, 0 ≤ cross lx ly q := by
    intro q hq
    have h := edgesL q hq
    rw [hLback] at h
    have h2 := chain'_concat_pair h
    exact h2
  have hpairL_first : ∀ q ∈ u0 :: urest, 0 ≤ cross l0 l1 q := by
    intro q hq
    have h := edgesL q hq
    rw [hLshape] at h
    exact (List.chain'_cons.mp h).1
  have hpairU_last : ∀ q ∈ u0 :: urest, 0 ≤ cross uw uz q := by
    intro q hq
    have h := edgesU q hq
    rw [hUback] at h
    have h2 := chain'_concat_pair h
    exact h2
  have hpairU_first : ∀ q ∈ u0 :: urest, 0 ≤ cross v0 v1 q := by
    intro q hq
    have h := edgesU q hq
    rw [hUshape] at h
    exact (List.chain'_cons.mp h).1
  have hlxly : lexLtXY lx ly = true := by
    have h := incrL
    rw [hLback] at h
    have h2 := chain'_concat_pair h
    exact h2
  have hl0l1 : lexLtXY l0 l1 = true := by
    have h := incrL
    rw [hLshape] at h
    exact (List.chain'_cons.mp h).1
  have huzuw : lexLtXY uz uw = true := by
    have h := decrU
    rw [hUback] at h
    have h2 := chain'_concat_pair h
    exact h2
  have hv1v0 : lexLtXY v1 v0 = true := by
    have h := decrU
    rw [hUshape] at h
    exact (List.chain'_cons.mp h).1
  have hLdropshape : L.dropLast = L0 ++ [lx] := by
    rw [hLback, show L0 ++ [lx, ly] = (L0 ++ [lx]) ++ [ly] by simp, List.dropLast_concat]
  have hlastDL : (L.dropLast).getLast? = some lx := by
    rw [hLdropshape]; exact List.getLast?_concat _
  refine ⟨?_, ?_, ?_⟩
  · -- CCW
    intro hH3
    have hlensum : (L.dropLast ++ Uf.dropLast).length = (L.length - 1) + (Uf.length - 1) := by
      simp [List.length_dropLast]
    have hLU3 : 3 ≤ L.length ∨ 3 ≤ Uf.length := by
      rw [hlensum] at hH3; omega
    have htriple : ∃ p1 p2 p3, p1 ∈ u0 :: urest ∧ p2 ∈ u0 :: urest ∧ p3 ∈ u0 :: urest
        ∧ 0 < cross p1 p2 p3 := by
      rcases hLU3 with h | h
      · exact strict_triple_of_chain h turnsL membL
      · exact strict_triple_of_chain h turnsU membU
    obtain ⟨p1, p2, p3, hp1, hp2, hp3, hstrict⟩ := htriple
    have hJ1 : 0 < cross lx ly v1 := by
      refine junction_strict (Or.inl ⟨hlxly, ?_⟩) hpairL_last ?_ ?_ hp1 hp2 hp3 hstrict
      · rw [hly, ← hv0]; exact hv1v0
      · intro q hq
        rw [hly, ← hv0]
        exact hpairU_first q hq
      · exact membU v1 (by rw [hUshape]; simp)
    have hJ2 : 0 < cross uw uz l1 := by
      refine junction_strict (Or.inr ⟨huzuw, ?_⟩) hpairU_last ?_ ?_ hp1 hp2 hp3 hstrict
      · rw [huz, ← hl0]; exact hl0l1
      · intro q hq
        rw [huz, ← hl0]
        exact hpairL_first q hq
      · exact membL l1 (by rw [hLshape]; simp)
    -- shape of H's second element
    have hH2 : ∃ Hr, L.dropLast ++ Uf.dropLast = l0 :: l1 :: Hr := by
      cases hLt : Lt with
      | nil =>
          have hl1 : l1 = ulast := by
            rw [hLshape, hLt] at lastL'
            simpa using lastL'
          refine ⟨(v1 :: Ut).dropLast, ?_⟩
          rw [hHhead, hLt, hUshape]
          rw [show (l1 :: ([] : List XY)).dropLast = [] from rfl]
          rw [show (v0 :: v1 :: Ut).dropLast = v0 :: (v1 :: Ut).dropLast from rfl]
          rw [hv0, ← hl1]
          rfl
      | cons w ws =>
          refine ⟨(w :: ws).dropLast ++ Uf.dropLast, ?_⟩
          rw [hHhead, hLt]
          rfl
    obtain ⟨Hr, hHshape⟩ := hH2
    have htake2 : (L.dropLast ++ Uf.dropLast).take 2 = [l0, l1] := by
      rw [hHshape]; rfl
    have hE2 : (L.dropLast ++ Uf.dropLast) ++ (L.dropLast ++ Uf.dropLast).take 2
        = L ++ (Uf.tail ++ [l1]) := by
      rw [htake2]
      rw [show ([l0, l1] : List XY) = [l0] ++ [l1] by rfl]
      rw [← List.append_assoc, hE0, hglue, List.append_assoc]
    rw [hE2]
    -- build leftTurns (Uf ++ [l1])
    have hUl1 : leftTurns (Uf ++ [l1]) = true := by
      have h := leftTurns_append U0 [l1] uw uz (by rw [← hUback]; exact turnsU) ?_
      · rw [← List.append_assoc, ← hUback] at h
        exact h
      · rw [show ([uw, uz] : List XY) ++ [l1] = [uw, uz, l1] by rfl]
        rw [show leftTurns [uw, uz, l1]
            = (decide (0 < cross uw uz l1) && leftTurns [uz, l1]) from rfl]
        rw [Bool.and_eq_true, decide_eq_true_eq]
        exact ⟨hJ2, rfl⟩
    -- prepend lx
    have hxUl1 : leftTurns (lx :: (Uf ++ [l1])) = true := by
      rw [hUshape]
      rw [show (v0 :: v1 :: Ut) ++ [l1] = v0 :: v1 :: (Ut ++ [l1]) by rfl]
      rw [show leftTurns (lx :: v0 :: v1 :: (Ut ++ [l1]))
          = (decide (0 < cross lx v0 v1) && leftTurns (v0 :: v1 :: (Ut ++ [l1]))) from rfl]
      rw [Bool.and_eq_true, decide_eq_true_eq]
      constructor
      · rw [hv0, ← hly]; exact hJ1
      · rw [show v0 :: v1 :: (Ut ++ [l1]) = (v0 :: v1 :: Ut) ++ [l1] from rfl, ← hUshape]
        exact hUl1
    -- full
    have hfull := leftTurns_append L0 (Uf.tail ++ [l1]) lx ly
      (by rw [← hLback]; exact turnsL) ?_
    · rw [← List.append_assoc, ← hLback] at hfull
      exact hfull
    · rw [show ([lx, ly] : List XY) ++ (Uf.tail ++ [l1])
          = lx :: (ly :: Uf.tail) ++ [l1] by simp]
      have hcons : ly :: Uf.tail = Uf := by
        rw [hUshape, hv0, ← hly]
        rfl
      rw [hcons]
      exact hxUl1
  · -- containment
    intro q hq
    rw [show (L.dropLast ++ Uf.dropLast).take 1 = [l0] by rw [hHhead]; rfl]
    rw [hE0]
    rw [List.chain'_append]
    refine ⟨ List.Chain'.prefix (edgesL q hq) ( List.dropLast_prefix L), edgesU q hq, ?_⟩
    intro x hx y hy
    rw [hlastDL] at hx
    rw [headU'] at hy
    simp only [Option.mem_def, Option.some.injEq] at hx hy
    subst hx; subst hy
    rw [← hly]
    exact hpairL_last q hq
  · -- supporting lines
    have SL : List.Chain' (fun a b => a ≠ b ∧ ∀ q ∈ u0 :: urest, 0 ≤ cross a b q) L := by
      have := chain'_and_forall incrL edgesL
      exact this.imp (fun a b h => ⟨lexLt_ne h.1, h.2⟩)
    have SU : List.Chain' (fun a b => a ≠ b ∧ ∀ q ∈ u0 :: urest, 0 ≤ cross a b q) Uf := by
      have := chain'_and_forall decrU edgesU
      exact this.imp (fun a b h => ⟨(lexLt_ne h.1).symm, h.2⟩)
    have hSupp : List.Chain' (fun a b => a ≠ b ∧ ∀ q ∈ u0 :: urest, 0 ≤ cross a b q)
        (L.dropLast ++ Uf) := by
      rw [List.chain'_append]
      refine ⟨ List.Chain'.prefix SL ( List.dropLast_prefix L), SU, ?_⟩
      intro x hx y hy
      rw [hlastDL] at hx
      rw [headU'] at hy
      simp only [Option.mem_def, Option.some.injEq] at hx hy
      subst hx; subst hy
      refine ⟨?_, ?_⟩
      · rw [← hly]; exact lexLt_ne hlxly
      · rw [← hly]; exact hpairL_last
    have hpre : (L.dropLast ++ Uf.dropLast) <+: (L.dropLast ++ Uf) := ⟨[l0], hE0⟩
    have SH := List.Chain'.prefix hSupp hpre
    have hclose : uw ≠ l0 ∧ ∀ q ∈ u0 :: urest, 0 ≤ cross uw l0 q := by
      have h1 : l0 = uz := by rw [hl0, huz]
      rw [h1]
      exact ⟨(lexLt_ne huzuw).symm, hpairU_last⟩
    have hWchain : List.Chain' (fun a b => a ≠ b ∧ ∀ q ∈ u0 :: urest, 0 ≤ cross a b q)
        (uw :: (L.dropLast ++ Uf.dropLast)) := by
      obtain ⟨Hr', hHr'⟩ : ∃ Hr', L.dropLast ++ Uf.dropLast = l0 :: Hr' := by
        rw [hHhead]
        exact ⟨_, rfl⟩
      rw [hHr', List.chain'_cons]
      refine ⟨hclose, ?_⟩
      rw [← hHr']
      exact SH
    intro i hi
    have hi' : i < (uw :: (L.dropLast ++ Uf.dropLast)).length - 1 := by
      simpa using hi
    have hR := List.chain'_iff_get.mp hWchain i hi'
    rw [List.get_cons_succ] at hR
    refine ⟨(uw :: (L.dropLast ++ Uf.dropLast)).get ⟨i, by simpa using Nat.lt_of_lt_of_le hi (by simp)⟩,
      (L.dropLast ++ Uf.dropLast).get ⟨i, hi⟩, hR.1, ?_, hR.2⟩
    have hgd : (L.dropLast ++ Uf.dropLast).getD i ⟨0, 0⟩
        = (L.dropLast ++ Uf.dropLast).get ⟨i, hi⟩ := by
      rw [List.getD_eq_getElem _ _ hi]
      simp [List.get_eq_getElem]
    rw [hgd]
    exact cross_right_self _ _

theorem cross_diag (a c : XY) : cross a a c = 0 := by unfold cross; ring

theorem xshift_ne (p : XY) : p ≠ ⟨p.x + 1, p.y⟩ := by
  intro h
  have := congrArg XY.x h
  simp at this

/-- C7 (amended): `convexHull` with at most one point returns its input
unchanged; every returned vertex is an input point; with two or fewer
distinct points it returns exactly the distinct input points sorted by
`(x, then y)` — not unchanged: duplicates are dropped and an out-of-order
pair comes back swapped; and otherwise the full claim holds: whenever the
returned polygon has three or more vertices, every cyclic triple of
consecutive vertices makes a strict left turn (the vertices are in
counter-clockwise order and in strictly convex position); every input point
lies inside or on the returned polygon (it is weakly left of every directed
hull edge, the closing edge included); and no returned vertex lies strictly
inside the hull of the other vertices — each vertex lies ON a line (its
incident hull edge) that keeps the entire input set weakly on one side, a
supporting line through the vertex, which cannot exist for a point strictly
inside the convex hull of the remaining vertices. -/
theorem convexHull_amended (points : List XY) :
    (points.length ≤ 1 → convexHull points = points)
    ∧ (∀ q ∈ convexHull points, q ∈ points)
    ∧ (2 ≤ points.length → (dedupAdj (sortWith lexLtXY points)).length ≤ 2 →
        (convexHull points = dedupAdj (sortWith lexLtXY points)
         ∧ ∀ q, (q ∈ convexHull points ↔ q ∈ points)))
    ∧ (3 ≤ (convexHull points).length →
        leftTurns (convexHull points ++ (convexHull points).take 2) = true)
    ∧ (∀ q ∈ points, List.Chain' (fun a b => 0 ≤ cross a b q)
        (convexHull points ++ (convexHull points).take 1))
    ∧ (∀ i, i < (convexHull points).length →
        ∃ a b : XY, a ≠ b ∧ cross a b ((convexHull points).getD i ⟨0, 0⟩) = 0
          ∧ ∀ q ∈ points, 0 ≤ cross a b q) := by
  have hmemiff : ∀ q, q ∈ dedupAdj (sortWith lexLtXY points) ↔ q ∈ points :=
    fun q => mem_dedupAdj.trans mem_sortWith
  refine ⟨?_, ?_, ?_, ?_, ?_, ?_⟩
  · intro h
    unfold convexHull
    rw [if_pos h]
  · intro q hq
    simp only [convexHull] at hq
    split at hq
    · exact hq
    · split at hq
      · exact mem_sortWith.mp (mem_dedupAdj.mp hq)
      · rcases List.mem_append.mp hq with h2 | h2
        · have h3 := List.mem_of_mem_tail (List.mem_reverse.mp h2)
          exact mem_sortWith.mp (mem_dedupAdj.mp (mem_buildChainRev h3))
        · have h3 := List.mem_of_mem_tail (List.mem_reverse.mp h2)
          have h4 := mem_buildChainRev h3
          exact mem_sortWith.mp (mem_dedupAdj.mp (List.mem_reverse.mp h4))
  · intro h2 hle
    have hn1 : ¬ points.length ≤ 1 := by omega
    constructor
    · simp only [convexHull]
      rw [if_neg hn1, if_pos hle]
    · intro q
      constructor
      · intro hq
        simp only [convexHull] at hq
        rw [if_neg hn1, if_pos hle] at hq
        exact (hmemiff q).mp hq
      · intro hq
        simp only [convexHull]
        rw [if_neg hn1, if_pos hle]
        exact (hmemiff q).mpr hq
  · by_cases h1 : points.length ≤ 1
    · intro h3
      exfalso
      have hhull : convexHull points = points := by
        unfold convexHull; rw [if_pos h1]
      rw [hhull] at h3
      omega
    · by_cases h2 : (dedupAdj (sortWith lexLtXY points)).length ≤ 2
      · intro h3
        exfalso
        have hhull : convexHull points = dedupAdj (sortWith lexLtXY points) := by
          simp only [convexHull]; rw [if_neg h1, if_pos h2]
        rw [hhull] at h3
        omega
      · have hhull : convexHull points
            = (buildChainRev (dedupAdj (sortWith lexLtXY points))).tail.reverse
              ++ (buildChainRev (dedupAdj (sortWith lexLtXY points)).reverse).tail.reverse := by
          simp only [convexHull]; rw [if_neg h1, if_neg h2]
        rw [hhull]
        exact (chains_hull_props (unique_sorted points) (by omega)).1
  · by_cases h1 : points.length ≤ 1
    · intro q hq
      have hhull : convexHull points = points := by
        unfold convexHull; rw [if_pos h1]
      rw [hhull]
      match points, hq with
      | [p], hq =>
          rw [show ([p] ++ [p].take 1) = [p, p] from rfl, List.chain'_pair, cross_diag]
    · by_cases h2 : (dedupAdj (sortWith lexLtXY points)).length ≤ 2
      · intro q hq
        have hhull : convexHull points = dedupAdj (sortWith lexLtXY points) := by
          simp only [convexHull]; rw [if_neg h1, if_pos h2]
        rw [hhull]
        have hq2 : q ∈ dedupAdj (sortWith lexLtXY points) := (hmemiff q).mpr hq
        obtain ⟨a, rest, hu⟩ := List.exists_cons_of_ne_nil
          (show dedupAdj (sortWith lexLtXY points) ≠ [] by
            intro h; rw [h] at hq2; simp at hq2)
        rw [hu] at hq2 ⊢
        cases rest with
        | nil =>
            rw [show ((a :: []) ++ (a :: []).take 1) = [a, a] from rfl,
              List.chain'_pair, cross_diag]
        | cons b rest2 =>
            cases rest2 with
            | nil =>
                rw [show ((a :: b :: []) ++ (a :: b :: []).take 1) = [a, b, a] from rfl]
                rw [List.chain'_cons, List.chain'_pair]
                rcases List.mem_cons.mp hq2 with rfl | hq3
                · rw [cross_left_self, cross_right_self]
                  exact ⟨le_refl 0, le_refl 0⟩
                · simp only [List.mem_singleton] at hq3
                  subst hq3
                  rw [cross_right_self, cross_left_self]
                  exact ⟨le_refl 0, le_refl 0⟩
            | cons c r3 =>
                exfalso
                rw [hu] at h2
                simp at h2
      · intro q hq
        have hhull : convexHull points
            = (buildChainRev (dedupAdj (sortWith lexLtXY points))).tail.reverse
              ++ (buildChainRev (dedupAdj (sortWith lexLtXY points)).reverse).tail.reverse := by
          simp only [convexHull]; rw [if_neg h1, if_neg h2]
        rw [hhull]
        exact (chains_hull_props (unique_sorted points) (by omega)).2.1 q ((hmemiff q).mpr hq)
  · by_cases h1 : points.length ≤ 1
    · intro i hi
      have hhull : convexHull points = points := by
        unfold convexHull; rw [if_pos h1]
      rw [hhull] at hi ⊢
      match points, hi with
      | [p], hi =>
          have hi0 : i = 0 := by simpa using hi
          subst hi0
          refine ⟨p, ⟨p.x + 1, p.y⟩, xshift_ne p, ?_, ?_⟩
          · rw [show ([p] : List XY).getD 0 ⟨0, 0⟩ = p from rfl]
            exact cross_left_self _ _
          · intro q hq
            simp only [List.mem_singleton] at hq
            subst hq
            rw [cross_left_self]
    · by_cases h2 : (dedupAdj (sortWith lexLtXY points)).length ≤ 2
      · intro i hi
        have hhull : convexHull points = dedupAdj (sortWith lexLtXY points) := by
          simp only [convexHull]; rw [if_neg h1, if_pos h2]
        have hsorted := unique_sorted points
        rw [hhull] at hi ⊢
        have hqmem : ∀ q ∈ points, q ∈ dedupAdj (sortWith lexLtXY points) :=
          fun q hq => (hmemiff q).mpr hq
        obtain ⟨a, rest, hu⟩ := List.exists_cons_of_ne_nil
          (show dedupAdj (sortWith lexLtXY points) ≠ [] by
            intro h; rw [h] at hi; simp at hi)
        rw [hu] at hi ⊢
        cases rest with
        | nil =>
            have hi0 : i = 0 := by simpa using hi
            subst hi0
            refine ⟨a, ⟨a.x + 1, a.y⟩, xshift_ne a, ?_, ?_⟩
            · rw [show (a :: ([] : List XY)).getD 0 ⟨0, 0⟩ = a from rfl]
              exact cross_left_self _ _
            · intro q hq
              have hqa := hqmem q hq
              rw [hu] at hqa
              simp only [List.mem_singleton] at hqa
              subst hqa
              rw [cross_left_self]
        | cons b rest2 =>
            cases rest2 with
            | nil =>
                have hab : a ≠ b := by
                  rw [hu] at hsorted
                  exact lexLt_ne ((List.pairwise_cons.mp hsorted).1 b (by simp))
                refine ⟨a, b, hab, ?_, ?_⟩
                · rcases i with _ | _ | n
                  · exact cross_left_self _ _
                  · exact cross_right_self _ _
                  · exfalso
                    simp at hi
                    omega
                · intro q hq
                  have hqm := hqmem q hq
                  rw [hu] at hqm
                  rcases List.mem_cons.mp hqm with rfl | h3
                  · rw [cross_left_self]
                  · simp only [List.mem_singleton] at h3
                    subst h3
                    rw [cross_right_self]
            | cons c r3 =>
                exfalso
                rw [hu] at h2
                simp at h2
      · intro i hi
        have hhull : convexHull points
            = (buildChainRev (dedupAdj (sortWith lexLtXY points))).tail.reverse
              ++ (buildChainRev (dedupAdj (sortWith lexLtXY points)).reverse).tail.reverse := by
          simp only [convexHull]; rw [if_neg h1, if_neg h2]
        rw [hhull] at hi ⊢
        obtain ⟨a, b, hne, hzero, hsupp⟩ :=
          (chains_hull_props (unique_sorted points) (by omega)).2.2 i hi
        exact ⟨a, b, hne, hzero, fun q hq => hsupp q ((hmemiff q).mpr hq)⟩

end MojiSeg
